import Mathlib

/-!
Shallow embedding of the Monkey implementation at github.com/ajwerner/monkey.

The embedding follows the final versions of the source files:
  * the object model (`object` package): `ObjectType`, `Value`, `Environment`
  * the tree-walking evaluator (`evaluator` package): `Eval` and its helpers
  * the lexer's number scanner (`lexer` package): `lexNumber`, `readDecimals`

Go's dynamic behaviours are made explicit:
  * the Go interface value `nil` is the `Value.nilObj` constructor;
  * a Go runtime panic is `Except.error msg` (the evaluator's `recover` in
    `evalHashLiteral` catches it);
  * `object.Integer` is `int64`: arithmetic results wrap to two's
    complement through `wrap64`;
  * the Go map in `object.Hash` is an insertion-ordered association list
    (the spec's data model calls it an ordered-insertion mapping); writing
    to it panics exactly when hashing the key reaches a value of a Go
    uncomparable type — `object.Hash` itself (a map), directly or inside
    `object.ReturnValue` struct wrappers (`goMapKeyPanics`); `*object.Array`
    and `*object.Function` are pointers and hash fine;
  * Go `==` of interface values likewise panics on two `Hash`es, also
    under matching `ReturnValue` wrappers (`goEq`);
  * pointer identity of `*object.Function` and `*object.Array` is
    approximated by structural equality (no claim below depends on it);
  * `float64` is modelled by `Rat`; no claim below depends on IEEE-754
    rounding behaviour.

The compiler and virtual machine of spec sections 4.4-4.5 are absent from
src/ (only `vm_test.go` survives) and are modelled from the spec; those
definitions carry `Modelled from the spec:` doc comments.
-/

namespace Monkey

/-- Object type tags, from `object`'s `ObjectType` constants (final version,
src/unnamed/part_002). -/
inductive ObjectType where
  | INTEGER
  | FLOAT
  | BOOL
  | NULL
  | ERROR
  | FUNCTION
  | STRING
  | BUILTIN
  | ARRAY
  | HASH
  | RETURN_VALUE
deriving DecidableEq, Repr

/-- The `go:generate stringer` names used by `%s`/`%v` on `ObjectType`. -/
def typeName : ObjectType → String
  | .INTEGER => "INTEGER"
  | .FLOAT => "FLOAT"
  | .BOOL => "BOOL"
  | .NULL => "NULL"
  | .ERROR => "ERROR"
  | .FUNCTION => "FUNCTION"
  | .STRING => "STRING"
  | .BUILTIN => "BUILTIN"
  | .ARRAY => "ARRAY"
  | .HASH => "HASH"
  | .RETURN_VALUE => "RETURN_VALUE"

mutual
/-- Monkey statements. The `ast` package is not under src/; the statement
forms are those the final evaluator dispatches on (`*ast.LetStatement`,
`*ast.ReturnStatement`, `*ast.ExpressionStatement`); blocks and programs are
lists of statements. -/
inductive Stmt where
  | letStmt (name : String) (value : Expr)
  | returnStmt (value : Expr)
  | exprStmt (e : Expr)
deriving Repr

/-- Monkey expressions, the forms the final evaluator dispatches on.
Modelled from the spec: the `ast` package is missing from src/, so hash
literal pairs are an ordered list `[(Expr, Expr)]` as in the spec's data
model, and operators are the token literal strings the evaluator switches
on. -/
inductive Expr where
  | integerLit (i : Int)
  | floatLit (q : Rat)
  | stringLit (s : String)
  | boolLit (b : Bool)
  | identifier (name : String)
  | prefixExpr (op : String) (right : Expr)
  | infixExpr (op : String) (left right : Expr)
  | ifExpr (cond : Expr) (consequence : List Stmt) (alternative : Option (List Stmt))
  | functionLit (params : List String) (body : List Stmt)
  | arrayLit (elems : List Expr)
  | hashLit (pairs : List (Expr × Expr))
  | callExpr (function : Expr) (args : List Expr)
  | indexExpr (left index : Expr)
deriving Repr
end

/-- A program is its list of statements (`ast.Program.Statements`). -/
abbrev Program := List Stmt

/-- Monkey runtime values, from the final `object` package
(src/unnamed/part_002). `nilObj` is the Go interface value `nil`, which
flows through the evaluator (e.g. as the "result" of a `let` statement).
`function`'s `env` is a reference into the environment `Store` (the Go
code holds a `*Environment`). -/
inductive Value where
  | integer (i : Int)
  | float (q : Rat)
  | bool (b : Bool)
  | str (s : String)
  | null
  | error (msg : String)
  | returnValue (v : Value)
  | function (params : List String) (body : List Stmt) (env : Nat)
  | builtinFn (name : String)
  | array (elems : List Value)
  | hash (pairs : List (Value × Value))
  | nilObj
deriving Repr

/-- `Object.Type()`: `none` when the receiver is the nil interface (a method
call on it panics in Go). -/
def goType : Value → Option ObjectType
  | .integer _ => some .INTEGER
  | .float _ => some .FLOAT
  | .bool _ => some .BOOL
  | .str _ => some .STRING
  | .null => some .NULL
  | .error _ => some .ERROR
  | .returnValue _ => some .RETURN_VALUE
  | .function _ _ _ => some .FUNCTION
  | .builtinFn _ => some .BUILTIN
  | .array _ => some .ARRAY
  | .hash _ => some .HASH
  | .nilObj => none

mutual
/-- Structural equality of statements (used for Go `==` on values that embed
function bodies). -/
def Stmt.beq : Stmt → Stmt → Bool
  | .letStmt n1 v1, .letStmt n2 v2 => n1 == n2 && Expr.beq v1 v2
  | .returnStmt v1, .returnStmt v2 => Expr.beq v1 v2
  | .exprStmt e1, .exprStmt e2 => Expr.beq e1 e2
  | _, _ => false

/-- Structural equality of statement lists. -/
def Stmt.listBeq : List Stmt → List Stmt → Bool
  | [], [] => true
  | s1 :: t1, s2 :: t2 => Stmt.beq s1 s2 && Stmt.listBeq t1 t2
  | _, _ => false

/-- Structural equality of expressions. -/
def Expr.beq : Expr → Expr → Bool
  | .integerLit a, .integerLit b => a == b
  | .floatLit a, .floatLit b => a == b
  | .stringLit a, .stringLit b => a == b
  | .boolLit a, .boolLit b => a == b
  | .identifier a, .identifier b => a == b
  | .prefixExpr o1 r1, .prefixExpr o2 r2 => o1 == o2 && Expr.beq r1 r2
  | .infixExpr o1 l1 r1, .infixExpr o2 l2 r2 => o1 == o2 && Expr.beq l1 l2 && Expr.beq r1 r2
  | .ifExpr c1 k1 a1, .ifExpr c2 k2 a2 =>
    Expr.beq c1 c2 && Stmt.listBeq k1 k2 &&
      (match a1, a2 with
       | none, none => true
       | some x, some y => Stmt.listBeq x y
       | _, _ => false)
  | .functionLit p1 b1, .functionLit p2 b2 => p1 == p2 && Stmt.listBeq b1 b2
  | .arrayLit e1, .arrayLit e2 => Expr.listBeq e1 e2
  | .hashLit p1, .hashLit p2 => Expr.pairsBeq p1 p2
  | .callExpr f1 a1, .callExpr f2 a2 => Expr.beq f1 f2 && Expr.listBeq a1 a2
  | .indexExpr l1 i1, .indexExpr l2 i2 => Expr.beq l1 l2 && Expr.beq i1 i2
  | _, _ => false

/-- Structural equality of expression lists. -/
def Expr.listBeq : List Expr → List Expr → Bool
  | [], [] => true
  | e1 :: t1, e2 :: t2 => Expr.beq e1 e2 && Expr.listBeq t1 t2
  | _, _ => false

/-- Structural equality of hash-literal pair lists. -/
def Expr.pairsBeq : List (Expr × Expr) → List (Expr × Expr) → Bool
  | [], [] => true
  | (k1, v1) :: t1, (k2, v2) :: t2 => Expr.beq k1 k2 && Expr.beq v1 v2 && Expr.pairsBeq t1 t2
  | _, _ => false
end

mutual
/-- Go `==` on `object.Object` interface values, structurally. Pointer
identity of `*object.Function` / `*object.Array` (under which two
syntactically equal but separately-allocated values differ) is approximated
structurally; no claim below depends on that distinction. Comparison of two
`object.Hash` values panics in Go and is handled separately in `goEq`. -/
def Value.beq : Value → Value → Bool
  | .integer a, .integer b => a == b
  | .float a, .float b => a == b
  | .bool a, .bool b => a == b
  | .str a, .str b => a == b
  | .null, .null => true
  | .error a, .error b => a == b
  | .returnValue a, .returnValue b => Value.beq a b
  | .function p1 b1 e1, .function p2 b2 e2 => p1 == p2 && Stmt.listBeq b1 b2 && e1 == e2
  | .builtinFn a, .builtinFn b => a == b
  | .array a, .array b => Value.listBeq a b
  | .hash a, .hash b => Value.pairsBeq a b
  | .nilObj, .nilObj => true
  | _, _ => false

/-- Structural equality of value lists. -/
def Value.listBeq : List Value → List Value → Bool
  | [], [] => true
  | v1 :: t1, v2 :: t2 => Value.beq v1 v2 && Value.listBeq t1 t2
  | _, _ => false

/-- Structural equality of hash pair lists. -/
def Value.pairsBeq : List (Value × Value) → List (Value × Value) → Bool
  | [], [] => true
  | (k1, v1) :: t1, (k2, v2) :: t2 => Value.beq k1 k2 && Value.beq v1 v2 && Value.pairsBeq t1 t2
  | _, _ => false
end

/-- Go `==` on two interface values: compares structurally, except that two
values whose shared dynamic type is `object.Hash` (a Go map, an uncomparable
type) make the comparison panic. `object.ReturnValue` is a one-field struct
whose equality is the interface equality of the wrapped values, so the
panic recurses through `ReturnValue` wrappers (`RV{Hash} == RV{Hash}`
panics; wrappers of different dynamic types compare unequal without
panicking). -/
def goEq : Value → Value → Except String Bool
  | .hash _, .hash _ => .error "runtime error: comparing uncomparable type object.Hash"
  | .returnValue a, .returnValue b => goEq a b
  | a, b => .ok (Value.beq a b)

/-- One environment frame: the `store` map (insertion-ordered association
list) and the optional `parent` pointer, from `object.Environment`. -/
structure Frame where
  table : List (String × Value)
  parent : Option Nat
deriving Repr

/-- The heap of environments. `object.Environment` values are heap-allocated
and shared by reference in Go; references are indices into this list, and
`NewEnclosedEnvironment` appends a fresh frame whose `parent` is an existing
(hence smaller) index. -/
abbrev Store := List Frame

/-- Association list lookup, as Go map indexing `e.store[name]`. -/
def tableGet : List (String × Value) → String → Option Value
  | [], _ => none
  | (k, v) :: rest, name => if k == name then some v else tableGet rest name

/-- Association list update, as Go map assignment `e.store[name] = val`. -/
def tableSet : List (String × Value) → String → Value → List (String × Value)
  | [], name, val => [(name, val)]
  | (k, v) :: rest, name, val =>
    if k == name then (k, val) :: rest else (k, v) :: tableSet rest name val

/-- The recursion of `Environment.Get` along the parent chain. Parent
references always point at earlier-allocated (strictly smaller) indices, so
a budget of `r + 1` steps (supplied by `envGet`) always suffices; the
`p < r` guard makes that manifest. -/
def envGetGo : Nat → Store → Nat → String → Option Value
  | 0, _, _, _ => none
  | steps + 1, s, r, name =>
    match s[r]? with
    | none => none
    | some f =>
      match tableGet f.table name with
      | some v => some v
      | none =>
        match f.parent with
        | none => none
        | some p => if p < r then envGetGo steps s p name else none

/-- `Environment.Get`: look in the frame's own table, then recurse into the
parent. -/
def envGet (s : Store) (r : Nat) (name : String) : Option Value :=
  envGetGo (r + 1) s r name

/-- `Environment.Set`: write into the frame's own table (never the parent). -/
def envSet (s : Store) (r : Nat) (name : String) (val : Value) : Store :=
  match s[r]? with
  | none => s
  | some f => s.set r { f with table := tableSet f.table name val }

/-- `NewEnvironment()` as the initial store: one frame, no parent. -/
def initialStore : Store := [{ table := [], parent := none }]

/-- `NewEnclosedEnvironment(parent)`: appends a fresh frame; returns the new
store and the new frame's reference. -/
def newEnclosedEnvironment (s : Store) (parent : Nat) : Store × Nat :=
  (s ++ [{ table := [], parent := some parent }], s.length)

/-- Message of the Go panic raised by calling a method on a nil interface. -/
def nilDerefMsg : String := "runtime error: invalid memory address or nil pointer dereference"

/-- Marker for exhausted recursion depth (a Go stack overflow is a fatal
error that `recover` cannot intercept, unlike ordinary runtime panics). -/
def stackOverflowMsg : String := "goroutine stack exceeded"

/-- Message of the Go panic raised by a slice access out of range. -/
def indexOutOfRangeMsg : String := "runtime error: index out of range"

/-- Message of the Go panic raised by using an unhashable map key. -/
def unhashableKeyMsg : String := "runtime error: hash of unhashable type object.Hash"

/-- Go `int64` two's-complement wrap-around (`type Integer int64`):
arithmetic on `object.Integer` wraps per host semantics. The literals are
`2^63` and `2^64`. -/
def wrap64 (n : Int) : Int :=
  (n + 9223372036854775808) % 18446744073709551616 - 9223372036854775808

/-- `typeName` of a (non-nil) value's dynamic type. -/
def typeNameOf (v : Value) : String :=
  match goType v with
  | some t => typeName t
  | none => "nil"

/-- `isError`: non-nil and of type `ERROR`. -/
def isError : Value → Bool
  | .error _ => true
  | _ => false

/-- `isTruthy`: only `NULL` and `FALSE` are falsy (the nil interface hits the
`default` case of the `switch` and is truthy). -/
def isTruthy : Value → Bool
  | .null => false
  | .bool b => b
  | _ => true

/-- `evalBangOperatorExpression` (final version): `Bool` negates, `Null` is
true, everything else (nil included, via the type switch default) is false. -/
def evalBangOperatorExpression : Value → Value
  | .bool b => .bool (!b)
  | .null => .bool true
  | _ => .bool false

/-- `evalMinusPrefixOperatorExpression` (final version): only `INTEGER`
negates — `-1 * right.(object.Integer)` on `int64`, which wraps, so negating
`-2^63` yields `-2^63` again; any other type is an unknown-operator error.
Calling `Type()` on the nil interface panics. -/
def evalMinusPrefixOperatorExpression : Value → Except String Value
  | .integer i => .ok (.integer (wrap64 (-1 * i)))
  | .nilObj => .error nilDerefMsg
  | v => .ok (.error ("unknown operator: -" ++ typeNameOf v))

/-- `evalPrefixExpression`: dispatch on the operator literal. -/
def evalPrefixExpression (op : String) (right : Value) : Except String Value :=
  if op == "!" then .ok (evalBangOperatorExpression right)
  else if op == "-" then evalMinusPrefixOperatorExpression right
  else
    match goType right with
    | none => .error nilDerefMsg
    | some t => .ok (.error ("unknown operator: " ++ op ++ typeName t))

/-- `evalIntegerInfixExpression`. `+`, `-`, `*` are `int64` operations and
wrap; division is Go `int64` division (truncation toward zero, with
`MinInt64 / -1` wrapping back to `MinInt64`); division by zero is a Go
runtime panic. -/
def evalIntegerInfixExpression (op : String) (l r : Int) : Except String Value :=
  if op == "+" then .ok (.integer (wrap64 (l + r)))
  else if op == "-" then .ok (.integer (wrap64 (l - r)))
  else if op == "*" then .ok (.integer (wrap64 (l * r)))
  else if op == "/" then
    if r == 0 then .error "runtime error: integer divide by zero"
    else .ok (.integer (wrap64 (Int.tdiv l r)))
  else if op == "<" then .ok (.bool (decide (l < r)))
  else if op == ">" then .ok (.bool (decide (l > r)))
  else if op == "==" then .ok (.bool (l == r))
  else if op == "!=" then .ok (.bool (l != r))
  else .ok (.error ("unknown operator: INTEGER " ++ op ++ " INTEGER"))

/-- `evalFloatInfixExpression`. `float64` is modelled by `Rat`; division by
zero (IEEE infinity in Go) is out of the claims' scope and yields `Rat`
division's value. -/
def evalFloatInfixExpression (op : String) (l r : Rat) : Value :=
  if op == "+" then .float (l + r)
  else if op == "-" then .float (l - r)
  else if op == "*" then .float (l * r)
  else if op == "/" then .float (l / r)
  else if op == "<" then .bool (decide (l < r))
  else if op == ">" then .bool (decide (l > r))
  else if op == "==" then .bool (l == r)
  else if op == "!=" then .bool (l != r)
  else .error ("unknown operator: FLOAT " ++ op ++ " FLOAT")

/-- `evalStringInfixExpression`: only `+` (concatenation) is defined. -/
def evalStringInfixExpression (op : String) (l r : String) : Value :=
  if op == "+" then .str (l ++ r)
  else .error ("unknown operator: STRING " ++ op ++ " STRING")

/-- `evalInfixExpression` (final version): mixed `Integer`/`Float` operands
coerce the integer to `Float`; then dispatch on the (coerced) types, with
`==`/`!=` falling back to Go interface equality and the remaining cases
producing type-mismatch / unknown-operator errors. `Type()` panics on nil
operands. -/
def evalInfixExpression (op : String) (l r : Value) : Except String Value :=
  match l, r with
  | .nilObj, _ => .error nilDerefMsg
  | _, .nilObj => .error nilDerefMsg
  | .integer a, .float b => .ok (evalFloatInfixExpression op a b)
  | .float a, .integer b => .ok (evalFloatInfixExpression op a b)
  | .integer a, .integer b => evalIntegerInfixExpression op a b
  | .float a, .float b => .ok (evalFloatInfixExpression op a b)
  | .str a, .str b => .ok (evalStringInfixExpression op a b)
  | lv, rv =>
    if op == "==" then (goEq lv rv).map (fun b => .bool b)
    else if op == "!=" then (goEq lv rv).map (fun b => .bool (!b))
    else if typeNameOf lv != typeNameOf rv then
      .ok (.error ("type mismatch: " ++ typeNameOf lv ++ " " ++ op ++ " " ++ typeNameOf rv))
    else
      .ok (.error ("unknown operator: " ++ typeNameOf lv ++ " " ++ op ++ " " ++ typeNameOf rv))

/-- `object.Hashable`: `BOOL`, `STRING` and `INTEGER` types only (`Type()`
panics on the nil interface). -/
def hashableChk (v : Value) : Except String Bool :=
  match goType v with
  | none => .error nilDerefMsg
  | some t => .ok (t == .BOOL || t == .STRING || t == .INTEGER)

/-- Go map lookup `hashObject[index]` on the insertion-ordered pair list. -/
def hashGet : List (Value × Value) → Value → Option Value
  | [], _ => none
  | (k, v) :: rest, key => if Value.beq k key then some v else hashGet rest key

/-- Helper for `hashInsert`: overwrite the entry with an equal key, else
append. -/
def pairsSet : List (Value × Value) → Value → Value → List (Value × Value)
  | [], key, val => [(key, val)]
  | (k, v) :: rest, key, val =>
    if Value.beq k key then (k, val) :: rest else (k, v) :: pairsSet rest key val

/-- The keys whose Go representation panics when hashed for a map write:
`object.Hash` itself (a Go map), and any chain of `object.ReturnValue`
struct wrappers around one (hashing the struct hashes its interface field's
dynamic value). Arrays and functions are stored as pointers (`*object.Array`,
`*object.Function`) and hash fine. -/
def goMapKeyPanics : Value → Bool
  | .hash _ => true
  | .returnValue v => goMapKeyPanics v
  | _ => false

/-- Go map assignment `m[key] = value`: panics exactly when hashing the
key's dynamic value reaches a Go map (`goMapKeyPanics`). -/
def hashInsert (m : List (Value × Value)) (key val : Value) : Except String (List (Value × Value)) :=
  if goMapKeyPanics key then .error unhashableKeyMsg
  else .ok (pairsSet m key val)

/-- `evalArrayIndexExpression`: negative or too-large indices give `NULL`. -/
def evalArrayIndexExpression (elems : List Value) (idx : Int) : Value :=
  let mx : Int := (elems.length : Int) - 1
  if idx < 0 || idx > mx then .null
  else elems.getD idx.toNat .nilObj

/-- `evalHashIndexExpression`: the index must be `Hashable` (else an
unusable-as-hash-key error); a missing key gives `NULL`. -/
def evalHashIndexExpression (pairs : List (Value × Value)) (index : Value) : Except String Value :=
  match hashableChk index with
  | .error m => .error m
  | .ok h =>
    if !h then .ok (.error ("unusable as hash key: " ++ typeNameOf index))
    else
      match hashGet pairs index with
      | none => .ok .null
      | some got => .ok got

/-- `evalIndexExpression`: dispatch on the target and index types. -/
def evalIndexExpression (left index : Value) : Except String Value :=
  match goType left with
  | none => .error nilDerefMsg
  | some lt =>
    if lt == .ARRAY then
      match goType index with
      | none => .error nilDerefMsg
      | some it =>
        if it == .INTEGER then
          .ok (match left, index with
               | .array elems, .integer i => evalArrayIndexExpression elems i
               | _, _ => .nilObj)
        else .ok (.error ("index operator not supported: " ++ typeName lt))
    else if lt == .HASH then
      match left with
      | .hash pairs => evalHashIndexExpression pairs index
      | _ => .ok .nilObj
    else .ok (.error ("index operator not supported: " ++ typeName lt))

/-- `unwrapReturnValue` (final version, value type assertion). -/
def unwrapReturnValue : Value → Value
  | .returnValue v => v
  | v => v

/-- The names in the evaluator's `builtins` table.
Modelled from the spec: the `builtins` map referenced by `evalIdentifier`
is not under src/; the spec's minimum set is len, first, last, rest, push,
puts. -/
def builtinNames : List String := ["len", "first", "last", "rest", "push", "puts"]

/-- Modelled from the spec: the builtin function bodies are not under src/.
Spec §4.3: `len(string|array)`, `first(array)`, `last(array)`,
`rest(array)`, `push(array, value)`, `puts(...)` (returns `Null`); wrong
arity or argument type yields `Error` (message texts are not recoverable
from src/ and are chosen descriptively). A `Type()` call on a nil argument
panics. -/
def applyBuiltin (name : String) (args : List Value) : Except String Value :=
  if name == "len" then
    match args with
    | [.str s] => .ok (.integer s.utf8ByteSize)
    | [.array elems] => .ok (.integer elems.length)
    | [.nilObj] => .error nilDerefMsg
    | [v] => .ok (.error ("argument to len not supported, got " ++ typeNameOf v))
    | _ => .ok (.error ("wrong number of arguments. got=" ++ toString args.length ++ ", want=1"))
  else if name == "first" then
    match args with
    | [.array elems] => .ok (elems.headD .null)
    | [.nilObj] => .error nilDerefMsg
    | [v] => .ok (.error ("argument to first must be ARRAY, got " ++ typeNameOf v))
    | _ => .ok (.error ("wrong number of arguments. got=" ++ toString args.length ++ ", want=1"))
  else if name == "last" then
    match args with
    | [.array elems] => .ok (elems.getLastD .null)
    | [.nilObj] => .error nilDerefMsg
    | [v] => .ok (.error ("argument to last must be ARRAY, got " ++ typeNameOf v))
    | _ => .ok (.error ("wrong number of arguments. got=" ++ toString args.length ++ ", want=1"))
  else if name == "rest" then
    match args with
    | [.array []] => .ok .null
    | [.array (_ :: t)] => .ok (.array t)
    | [.nilObj] => .error nilDerefMsg
    | [v] => .ok (.error ("argument to rest must be ARRAY, got " ++ typeNameOf v))
    | _ => .ok (.error ("wrong number of arguments. got=" ++ toString args.length ++ ", want=1"))
  else if name == "push" then
    match args with
    | [.array elems, v] => .ok (.array (elems ++ [v]))
    | [.nilObj, _] => .error nilDerefMsg
    | [v, _] => .ok (.error ("argument to push must be ARRAY, got " ++ typeNameOf v))
    | _ => .ok (.error ("wrong number of arguments. got=" ++ toString args.length ++ ", want=2"))
  else if name == "puts" then .ok .null
  else .ok (.error ("identifier not found: " ++ name))

/-- `evalIdentifier`: environment chain first, then the builtin table, then
an identifier-not-found error. -/
def evalIdentifier (s : Store) (env : Nat) (name : String) : Value :=
  match envGet s env name with
  | some v => v
  | none =>
    if builtinNames.contains name then .builtinFn name
    else .error ("identifier not found: " ++ name)

/-- `extendFunctionEnv`'s parameter-binding loop: `env.Set(param.Value,
args[paramIdx])` for each parameter position; a missing argument is a Go
index-out-of-range panic, surplus arguments are never read. -/
def setParams (s : Store) (envRef : Nat) : List String → List Value → Store × Except String Unit
  | [], _ => (s, .ok ())
  | _ :: _, [] => (s, .error indexOutOfRangeMsg)
  | p :: ps, a :: rest => setParams (envSet s envRef p a) envRef ps rest

/-- `extendFunctionEnv`: a fresh frame enclosed in the function's captured
environment, with the parameters bound positionally. -/
def extendFunctionEnv (s : Store) (fnEnv : Nat) (params : List String) (args : List Value) :
    (Store × Nat) × Except String Unit :=
  let (s1, newEnv) := newEnclosedEnvironment s fnEnv
  let (s2, r) := setParams s1 newEnv params args
  ((s2, newEnv), r)

mutual
/-- `Eval` on expression nodes (final version of the evaluator). Each
recursion level consumes one unit of fuel; exhausting it models the Go
stack/loop budget only and never occurs in the theorems below (their
hypotheses supply evaluations that succeeded). -/
def evalExpr : Nat → Store → Nat → Expr → Store × Except String Value
  | 0, s, _, _ => (s, .error stackOverflowMsg)
  | fuel + 1, s, env, e =>
    match e with
    | .integerLit i => (s, .ok (.integer i))
    | .floatLit q => (s, .ok (.float q))
    | .stringLit str => (s, .ok (.str str))
    | .boolLit b => (s, .ok (.bool b))
    | .functionLit params body => (s, .ok (.function params body env))
    | .identifier name => (s, .ok (evalIdentifier s env name))
    | .prefixExpr op right =>
      match evalExpr fuel s env right with
      | (s1, .error m) => (s1, .error m)
      | (s1, .ok r) =>
        if isError r then (s1, .ok r) else (s1, evalPrefixExpression op r)
    | .infixExpr op l r =>
      match evalExpr fuel s env l with
      | (s1, .error m) => (s1, .error m)
      | (s1, .ok lv) =>
        if isError lv then (s1, .ok lv)
        else
          match evalExpr fuel s1 env r with
          | (s2, .error m) => (s2, .error m)
          | (s2, .ok rv) =>
            if isError rv then (s2, .ok rv) else (s2, evalInfixExpression op lv rv)
    | .ifExpr cond cons alt =>
      match evalExpr fuel s env cond with
      | (s1, .error m) => (s1, .error m)
      | (s1, .ok c) =>
        if isError c then (s1, .ok c)
        else if isTruthy c then evalBlock fuel s1 env cons
        else
          match alt with
          | some b => evalBlock fuel s1 env b
          | none => (s1, .ok .null)
    | .arrayLit elemExps =>
      match evalExpressions fuel s env [] elemExps with
      | (s1, .error m) => (s1, .error m)
      | (s1, .ok vs) =>
        if vs.length == 1 && isError (vs.headD .nilObj) then (s1, .ok (vs.headD .nilObj))
        else (s1, .ok (.array vs))
    | .hashLit pairs =>
      match evalHashPairs fuel s env [] pairs with
      | (s1, .error m) =>
        if m == stackOverflowMsg then (s1, .error m)
        else (s1, .ok (.error ("unhashable key: " ++ m)))
      | (s1, .ok v) => (s1, .ok v)
    | .callExpr fnExp argExps =>
      match evalExpr fuel s env fnExp with
      | (s1, .error m) => (s1, .error m)
      | (s1, .ok fv) =>
        if isError fv then (s1, .ok fv)
        else
          match evalExpressions fuel s1 env [] argExps with
          | (s2, .error m) => (s2, .error m)
          | (s2, .ok args) =>
            if args.length == 1 && isError (args.headD .nilObj) then
              (s2, .ok (args.headD .nilObj))
            else applyFunction fuel s2 fv args
    | .indexExpr l i =>
      match evalExpr fuel s env l with
      | (s1, .error m) => (s1, .error m)
      | (s1, .ok lv) =>
        if isError lv then (s1, .ok lv)
        else
          match evalExpr fuel s1 env i with
          | (s2, .error m) => (s2, .error m)
          | (s2, .ok iv) =>
            if isError iv then (s2, .ok iv) else (s2, evalIndexExpression lv iv)
termination_by structural fuel _ _ _ => fuel

/-- `Eval` on statement nodes. A `let` statement falls off the `switch` and
returns the nil interface. -/
def evalStmt : Nat → Store → Nat → Stmt → Store × Except String Value
  | 0, s, _, _ => (s, .error stackOverflowMsg)
  | fuel + 1, s, env, st =>
    match st with
    | .exprStmt e => evalExpr fuel s env e
    | .letStmt name vExp =>
      match evalExpr fuel s env vExp with
      | (s1, .error m) => (s1, .error m)
      | (s1, .ok v) =>
        if isError v then (s1, .ok v)
        else (envSet s1 env name v, .ok .nilObj)
    | .returnStmt vExp =>
      match evalExpr fuel s env vExp with
      | (s1, .error m) => (s1, .error m)
      | (s1, .ok v) =>
        if isError v then (s1, .ok v)
        else (s1, .ok (.returnValue v))
termination_by structural fuel _ _ _ => fuel

/-- `Eval` on `*ast.BlockStatement` (`evalBlockStatement`). -/
def evalBlock : Nat → Store → Nat → List Stmt → Store × Except String Value
  | 0, s, _, _ => (s, .error stackOverflowMsg)
  | fuel + 1, s, env, stmts => evalBlockLoop fuel s env .nilObj stmts
termination_by structural fuel _ _ _ => fuel

/-- `evalBlockStatement`'s loop: a `RETURN_VALUE` or `ERROR` typed result
returns immediately (the nil interface is guarded and continues). -/
def evalBlockLoop : Nat → Store → Nat → Value → List Stmt → Store × Except String Value
  | 0, s, _, _, _ => (s, .error stackOverflowMsg)
  | _ + 1, s, _, result, [] => (s, .ok result)
  | fuel + 1, s, env, _, st :: rest =>
    match evalStmt fuel s env st with
    | (s1, .error m) => (s1, .error m)
    | (s1, .ok r) =>
      match goType r with
      | some .RETURN_VALUE => (s1, .ok r)
      | some .ERROR => (s1, .ok r)
      | _ => evalBlockLoop fuel s1 env r rest
termination_by structural fuel _ _ _ _ => fuel

/-- `evalExpressions`: arguments/elements left to right, accumulating; the
first `Error` value is returned as a singleton list. -/
def evalExpressions : Nat → Store → Nat → List Value → List Expr → Store × Except String (List Value)
  | 0, s, _, _, _ => (s, .error stackOverflowMsg)
  | _ + 1, s, _, acc, [] => (s, .ok acc)
  | fuel + 1, s, env, acc, e :: rest =>
    match evalExpr fuel s env e with
    | (s1, .error m) => (s1, .error m)
    | (s1, .ok v) =>
      if isError v then (s1, .ok [v])
      else evalExpressions fuel s1 env (acc ++ [v]) rest
termination_by structural fuel _ _ _ _ => fuel

/-- `evalHashLiteral`'s loop over the (source-ordered) pairs: evaluate key
then value, propagate `Error` values, insert into the map (whose insertion
may panic; the panic is recovered by `evalHashLiteral` itself, in
`evalExpr`). -/
def evalHashPairs : Nat → Store → Nat → List (Value × Value) → List (Expr × Expr) →
    Store × Except String Value
  | 0, s, _, _, _ => (s, .error stackOverflowMsg)
  | _ + 1, s, _, m, [] => (s, .ok (.hash m))
  | fuel + 1, s, env, m, (kExp, vExp) :: rest =>
    match evalExpr fuel s env kExp with
    | (s1, .error msg) => (s1, .error msg)
    | (s1, .ok k) =>
      if isError k then (s1, .ok k)
      else
        match evalExpr fuel s1 env vExp with
        | (s2, .error msg) => (s2, .error msg)
        | (s2, .ok v) =>
          if isError v then (s2, .ok v)
          else
            match hashInsert m k v with
            | .error msg => (s2, .error msg)
            | .ok m2 => evalHashPairs fuel s2 env m2 rest
termination_by structural fuel _ _ _ _ => fuel

/-- `applyFunction`: user functions get an enclosed environment with the
parameters bound, evaluate their body, and unwrap one `ReturnValue` layer;
builtins are invoked directly; anything else (nil panics at `Type()`) is a
not-a-function error. -/
def applyFunction : Nat → Store → Value → List Value → Store × Except String Value
  | 0, s, _, _ => (s, .error stackOverflowMsg)
  | fuel + 1, s, .function params body envRef, args =>
    match extendFunctionEnv s envRef params args with
    | ((s1, _), .error m) => (s1, .error m)
    | ((s1, newEnv), .ok _) =>
      match evalBlock fuel s1 newEnv body with
      | (s2, .error m) => (s2, .error m)
      | (s2, .ok v) => (s2, .ok (unwrapReturnValue v))
  | _ + 1, s, .builtinFn name, args => (s, applyBuiltin name args)
  | _ + 1, s, .nilObj, _ => (s, .error nilDerefMsg)
  | _ + 1, s, other, _ => (s, .ok (.error ("not a function: " ++ typeNameOf other)))
termination_by structural fuel _ _ _ => fuel
end

/-- `evalProgram`'s loop: unwrap a `ReturnValue` result, stop on an `Error`
result, otherwise keep the last statement's result. -/
def evalProgramLoop : Nat → Store → Nat → Value → List Stmt → Store × Except String Value
  | 0, s, _, _, _ => (s, .error stackOverflowMsg)
  | _ + 1, s, _, result, [] => (s, .ok result)
  | fuel + 1, s, env, _, st :: rest =>
    match evalStmt fuel s env st with
    | (s1, .error m) => (s1, .error m)
    | (s1, .ok r) =>
      match r with
      | .returnValue v => (s1, .ok v)
      | .error msg => (s1, .ok (.error msg))
      | _ => evalProgramLoop fuel s1 env r rest

/-- `Eval` on `*ast.Program` (`evalProgram`). -/
def evalProgram : Nat → Store → Nat → Program → Store × Except String Value
  | 0, s, _, _ => (s, .error stackOverflowMsg)
  | fuel + 1, s, env, prog => evalProgramLoop fuel s env .nilObj prog

/-- Evaluate a whole program in a fresh environment (`NewEnvironment`). -/
def runEval (fuel : Nat) (prog : Program) : Store × Except String Value :=
  evalProgram fuel initialStore 0 prog

mutual
/-- Modelled from the spec: the `ast` package's `String()` methods (used
only by `Function.Inspect`) are not under src/; this printer follows the
spec's parse round-trip property and conventional Monkey `String()`
rendering. -/
def stmtString : Stmt → String
  | .letStmt n v => "let " ++ n ++ " = " ++ exprString v ++ ";"
  | .returnStmt v => "return " ++ exprString v ++ ";"
  | .exprStmt e => exprString e

/-- `BlockStatement.String` / `Program.String`: concatenation. -/
def stmtListString : List Stmt → String
  | [] => ""
  | s :: rest => stmtString s ++ stmtListString rest

/-- Modelled from the spec: expression `String()` rendering. -/
def exprString : Expr → String
  | .integerLit i => toString i
  | .floatLit q => toString q.num ++ "/" ++ toString q.den
  | .stringLit s => s
  | .boolLit b => if b then "true" else "false"
  | .identifier n => n
  | .prefixExpr op r => "(" ++ op ++ exprString r ++ ")"
  | .infixExpr op l r => "(" ++ exprString l ++ " " ++ op ++ " " ++ exprString r ++ ")"
  | .ifExpr c k a =>
    "if" ++ exprString c ++ " " ++ stmtListString k ++
      (match a with
       | some b => "else " ++ stmtListString b
       | none => "")
  | .functionLit ps b => "fn(" ++ String.intercalate ", " ps ++ ") " ++ stmtListString b
  | .arrayLit es => "[" ++ exprListString es ++ "]"
  | .hashLit ps => "\x7b" ++ exprPairsString ps ++ "\x7d"
  | .callExpr f as => exprString f ++ "(" ++ exprListString as ++ ")"
  | .indexExpr l i => "(" ++ exprString l ++ "[" ++ exprString i ++ "])"

/-- Comma-joined expression list rendering. -/
def exprListString : List Expr → String
  | [] => ""
  | [e] => exprString e
  | e :: rest => exprString e ++ ", " ++ exprListString rest

/-- Comma-joined pair list rendering. -/
def exprPairsString : List (Expr × Expr) → String
  | [] => ""
  | [(k, v)] => exprString k ++ ":" ++ exprString v
  | (k, v) :: rest => exprString k ++ ":" ++ exprString v ++ ", " ++ exprPairsString rest
end

/-- `Float.Inspect`'s `fmt.Sprintf("%f", f)`: fixed six fractional digits.
The rounding of the model (half away from zero on `Rat`) stands in for the
IEEE-754 formatting; no claim depends on it. -/
def floatInspect (q : Rat) : String :=
  let sign := if q < 0 then "-" else ""
  let n : Nat := (|q| * 1000000 + 1 / 2).floor.toNat
  let fs := toString (n % 1000000)
  sign ++ toString (n / 1000000) ++ "." ++ String.mk (List.replicate (6 - fs.length) '0') ++ fs

mutual
/-- `Object.Inspect` of the final `object` package (src/unnamed/part_002).
A method call on the nil interface panics (`Except.error`), and the panic
propagates out of the nested `Inspect` calls of `Array`/`Hash`. -/
def inspect : Value → Except String String
  | .integer i => .ok (toString i)
  | .float q => .ok (floatInspect q)
  | .bool b => .ok (if b then "true" else "false")
  | .str s => .ok s
  | .null => .ok "NULL"
  | .error m => .ok m
  | .returnValue v => inspect v
  | .function ps body _ =>
    .ok ("fn(" ++ String.intercalate ", " ps ++ ") \x7b\n" ++ stmtListString body ++ "\n\x7d")
  | .builtinFn _ => .ok "builtin function"
  | .array elems =>
    match inspectList elems with
    | .error m => .error m
    | .ok ss => .ok ("[" ++ String.intercalate ", " ss ++ "]")
  | .hash pairs =>
    match inspectPairs pairs with
    | .error m => .error m
    | .ok body => .ok ("\x7b" ++ body ++ "\x7d")
  | .nilObj => .error nilDerefMsg

/-- `Array.Inspect`'s element loop (it writes `", "` between elements). -/
def inspectList : List Value → Except String (List String)
  | [] => .ok []
  | v :: rest =>
    match inspect v with
    | .error m => .error m
    | .ok s =>
      match inspectList rest with
      | .error m => .error m
      | .ok ss => .ok (s :: ss)

/-- `Hash.Inspect`'s pair loop: for each pair it writes `k.Inspect()`,
`": "`, `v.Inspect()` — and nothing between consecutive pairs. -/
def inspectPairs : List (Value × Value) → Except String String
  | [] => .ok ""
  | (k, v) :: rest =>
    match inspect k with
    | .error m => .error m
    | .ok ks =>
      match inspect v with
      | .error m => .error m
      | .ok vs =>
        match inspectPairs rest with
        | .error m => .error m
        | .ok rs => .ok (ks ++ ": " ++ vs ++ rs)
end

/-- The lexer's `isDecimal` (`unicode.IsDigit`; modelled on ASCII digits,
which is exact on ASCII inputs and what every claim below uses). -/
def isDecimal (c : Char) : Bool := c.isDigit

/-- Token types produced by `lexNumber`. -/
inductive NumTokenType where
  | INT
  | FLOAT
deriving DecidableEq, Repr

/-- The lexer `state`'s `peek`: the next rune, or the rune 0 at end of
input. -/
def peekC (cs : List Char) : Char := cs.headD (Char.ofNat 0)

/-- `lexNumber` from src/lexer/lexer.go, over the remaining input as a
character list (`pos` is the token's start offset, used only in the error
message). `readDecimals` consumes zero or more decimal digits
(`dropWhile isDecimal`). The result is the token type, the consumed
literal, and the remaining input. A `.` must be followed by a decimal
digit; after `e`/`E` and an optional sign, `readDecimals` runs with no
digit-count check. -/
def lexNumber (pos : Nat) (cs : List Char) : Except String (NumTokenType × List Char × List Char) :=
  let d1 := cs.takeWhile isDecimal
  let r1 := cs.dropWhile isDecimal
  let dotRes : Except String (NumTokenType × List Char) :=
    if peekC r1 = '.' then
      let r2 := r1.tail
      let c2 := peekC r2
      if isDecimal c2 then .ok (.FLOAT, r2.dropWhile isDecimal)
      else
        .error ("Illegal character '" ++ String.mk [c2] ++ "' after . at position " ++
          toString (pos + d1.length + 1))
    else .ok (.INT, r1)
  match dotRes with
  | .error m => .error m
  | .ok (typ, r3) =>
    let (typ2, r4) :=
      if peekC r3 = 'e' || peekC r3 = 'E' then
        let r5 := r3.tail
        let r6 := if peekC r5 = '+' || peekC r5 = '-' then r5.tail else r5
        (NumTokenType.FLOAT, r6.dropWhile isDecimal)
      else (typ, r3)
    .ok (typ2, cs.take (cs.length - r4.length), r4)

/-! ### Helper lemmas -/

/-- `setParams` with fewer arguments than parameters panics. -/
theorem setParams_short (params : List String) : ∀ (s : Store) (r : Nat) (args : List Value),
    args.length < params.length → (setParams s r params args).2 = .error indexOutOfRangeMsg := by
  induction params with
  | nil => intro s r args h; simp at h
  | cons p ps ih =>
    intro s r args h
    cases args with
    | nil => simp [setParams]
    | cons a rest =>
      simp only [List.length_cons, Nat.add_lt_add_iff_right] at h
      simpa [setParams] using ih (envSet s r p a) r rest h

/-- `setParams` never reads arguments beyond the parameter count. -/
theorem setParams_take (params : List String) : ∀ (s : Store) (r : Nat) (args : List Value),
    params.length ≤ args.length →
    setParams s r params args = setParams s r params (args.take params.length) := by
  induction params with
  | nil => intro s r args _; cases args <;> simp [setParams]
  | cons p ps ih =>
    intro s r args h
    cases args with
    | nil => simp at h
    | cons a rest =>
      simp only [List.length_cons, Nat.add_le_add_iff_right] at h
      simpa [setParams, List.take_succ_cons] using ih (envSet s r p a) r rest h

/-- Splitting `takeWhile`/`dropWhile isDecimal` at a digit/non-digit
boundary (`peekC [] = '\x00'` is not a digit, so `hr` also covers the
end-of-input case). -/
theorem spanDigits (d r : List Char) (hd : ∀ c ∈ d, isDecimal c = true)
    (hr : isDecimal (peekC r) = false) :
    (d ++ r).takeWhile isDecimal = d ∧ (d ++ r).dropWhile isDecimal = r := by
  induction d with
  | nil =>
    cases r with
    | nil => simp
    | cons c t =>
      simp only [peekC, List.headD_cons] at hr
      simp [List.takeWhile_cons, List.dropWhile_cons, hr]
  | cons c t ih =>
    have hc : isDecimal c = true := hd c (List.mem_cons_self c t)
    have iht := ih fun x hx => hd x (List.mem_cons_of_mem c hx)
    simp [List.takeWhile_cons, List.dropWhile_cons, hc, iht.1, iht.2]

/-- A decimal digit is not one of the lexer's special number characters. -/
theorem digit_not_special (c : Char) (h : isDecimal c = true) :
    c ≠ '.' ∧ c ≠ 'e' ∧ c ≠ 'E' ∧ c ≠ '+' ∧ c ≠ '-' := by
  refine ⟨?_, ?_, ?_, ?_, ?_⟩ <;> (intro he; subst he; revert h; decide)

/-- `peekC` of a non-empty input is its head. -/
theorem peekC_cons (c : Char) (l : List Char) : peekC (c :: l) = c := rfl

/-- What `lexNumber`'s exponent branch leaves of the input after the `e`/`E`:
consume an optional sign, then every following digit. -/
theorem lexExpTail (sg d3 r : List Char)
    (hsg : sg = [] ∨ sg = ['+'] ∨ sg = ['-'])
    (hd3 : ∀ c ∈ d3, isDecimal c = true) (hr : isDecimal (peekC r) = false)
    (hedge : sg = [] → d3 = [] → peekC r ≠ '+' ∧ peekC r ≠ '-') :
    ((if peekC (sg ++ (d3 ++ r)) = '+' || peekC (sg ++ (d3 ++ r)) = '-'
      then (sg ++ (d3 ++ r)).tail else sg ++ (d3 ++ r)).dropWhile isDecimal) = r := by
  have hspan := (spanDigits d3 r hd3 hr).2
  rcases hsg with h | h | h <;> subst h
  · cases d3 with
    | nil =>
      obtain ⟨hp, hm⟩ := hedge rfl rfl
      simp only [List.nil_append]
      rw [if_neg (by simp [hp, hm])]
      simpa using hspan
    | cons c t =>
      have hc : isDecimal c = true := hd3 c (List.mem_cons_self c t)
      obtain ⟨-, -, -, hcp, hcm⟩ := digit_not_special c hc
      simp only [List.nil_append, List.cons_append, peekC_cons]
      rw [if_neg (by simp [hcp, hcm])]
      simpa [List.cons_append] using hspan
  · simp only [List.cons_append, peekC_cons, List.nil_append]
    rw [if_pos (by simp)]
    simpa using hspan
  · simp only [List.cons_append, peekC_cons, List.nil_append]
    rw [if_pos (by simp)]
    simpa using hspan

/-! ### Claims -/

/-- **C4** (counterexample): evaluating the prefix expression `-1.5` yields
`Error("unknown operator: -FLOAT")`, not the negated `Float`, refuting the
claim's "if x evaluates to a Float the result is that Float negated". -/
theorem C4_counterexample :
    (runEval 9 [.exprStmt (.prefixExpr "-" (.floatLit (3 / 2)))]).2 =
      .ok (.error "unknown operator: -FLOAT") ∧
    (runEval 9 [.exprStmt (.prefixExpr "-" (.floatLit (3 / 2)))]).2 ≠
      .ok (.float (-(3 / 2))) := by
  refine ⟨rfl, fun h => ?_⟩
  rw [show (runEval 9 [.exprStmt (.prefixExpr "-" (.floatLit (3 / 2)))]).2 =
    .ok (.error "unknown operator: -FLOAT") from rfl] at h
  exact Value.noConfusion (Except.ok.inj h)

/-- **C4** (amended): for `-x`, an `Integer` operand is negated as a Go
`int64` (`-1 * x` with two's-complement wrap-around: for every
representable value except `-2^63` this is true negation, while negating
`-2^63` yields `-2^63` again); *every* other (non-nil, non-`Error`)
operand — `Float` included — yields `Error("unknown operator: -T")` where
`T` is the operand's type name. -/
theorem C4_minus_operator (fuel : Nat) (s : Store) (env : Nat) (x : Expr) (s1 : Store) :
    (∀ i : Int, evalExpr fuel s env x = (s1, .ok (.integer i)) →
      evalExpr (fuel + 1) s env (.prefixExpr "-" x) =
        (s1, .ok (.integer (wrap64 (-1 * i))))) ∧
    (∀ i : Int, -9223372036854775808 < i → i < 9223372036854775808 →
      wrap64 (-1 * i) = -i) ∧
    (wrap64 (-1 * (-9223372036854775808 : Int)) = -9223372036854775808) ∧
    (∀ q : Rat, evalExpr fuel s env x = (s1, .ok (.float q)) →
      evalExpr (fuel + 1) s env (.prefixExpr "-" x) =
        (s1, .ok (.error "unknown operator: -FLOAT"))) ∧
    (∀ v : Value, evalExpr fuel s env x = (s1, .ok v) → isError v = false → v ≠ .nilObj →
      goType v ≠ some .INTEGER →
      evalExpr (fuel + 1) s env (.prefixExpr "-" x) =
        (s1, .ok (.error ("unknown operator: -" ++ typeNameOf v)))) := by
  refine ⟨fun i h => ?_, fun i h1 h2 => ?_, ?_, fun q h => ?_, fun v h he hn ht => ?_⟩
  · simp [evalExpr, h, isError, evalPrefixExpression, evalMinusPrefixOperatorExpression]
  · simp only [wrap64]
    omega
  · simp only [wrap64]
    omega
  · simp [evalExpr, h, isError, evalPrefixExpression, evalMinusPrefixOperatorExpression,
      typeNameOf, goType, typeName]
  · simp only [evalExpr, h]
    cases v <;> simp_all [isError, evalPrefixExpression, evalMinusPrefixOperatorExpression,
      typeNameOf, goType, typeName]

/-- **C4** (witness): the amended theorem applied at `-7` (true negation in
range), at `-(-2^63)` (which wraps back to `-2^63`), and at `-1.5` and
`-true` (unknown-operator errors). -/
theorem C4_minus_operator_witness :
    evalExpr 2 initialStore 0 (.prefixExpr "-" (.integerLit 7)) =
      (initialStore, .ok (.integer (-7))) ∧
    evalExpr 2 initialStore 0 (.prefixExpr "-" (.integerLit (-9223372036854775808))) =
      (initialStore, .ok (.integer (-9223372036854775808))) ∧
    evalExpr 2 initialStore 0 (.prefixExpr "-" (.floatLit (3 / 2))) =
      (initialStore, .ok (.error "unknown operator: -FLOAT")) ∧
    evalExpr 2 initialStore 0 (.prefixExpr "-" (.boolLit true)) =
      (initialStore, .ok (.error ("unknown operator: -" ++ typeNameOf (.bool true)))) := by
  refine ⟨?_, ?_,
    (C4_minus_operator 1 initialStore 0 (.floatLit (3 / 2)) initialStore).2.2.2.1 (3 / 2) rfl,
    (C4_minus_operator 1 initialStore 0 (.boolLit true) initialStore).2.2.2.2 (.bool true)
      rfl rfl (fun h => Value.noConfusion h) (fun h => by simp [goType] at h)⟩
  · have h := (C4_minus_operator 1 initialStore 0 (.integerLit 7) initialStore).1 7 rfl
    rwa [(C4_minus_operator 1 initialStore 0 (.integerLit 7) initialStore).2.1 7
      (by decide) (by decide)] at h
  · have h := (C4_minus_operator 1 initialStore 0
      (.integerLit (-9223372036854775808)) initialStore).1 (-9223372036854775808) rfl
    rwa [(C4_minus_operator 1 initialStore 0
      (.integerLit (-9223372036854775808)) initialStore).2.2.1] at h

/-- **C7** (counterexample): the two-pair hash `{1: 2, 3: 4}` inspects as
`"{1: 23: 4}"` — `Hash.Inspect` writes no `", "` between consecutive pairs,
refuting the claimed `join(", ")`. -/
theorem C7_counterexample :
    inspect (.hash [(.integer 1, .integer 2), (.integer 3, .integer 4)]) =
      .ok "\x7b1: 23: 4\x7d" ∧
    inspect (.hash [(.integer 1, .integer 2), (.integer 3, .integer 4)]) ≠
      .ok "\x7b1: 2, 3: 4\x7d" := by
  refine ⟨rfl, fun h => ?_⟩
  rw [show inspect (.hash [(.integer 1, .integer 2), (.integer 3, .integer 4)]) =
    .ok "\x7b1: 23: 4\x7d" from rfl] at h
  exact absurd (Except.ok.inj h) (by decide)

/-- **C7** (amended): a `Hash`'s inspect string is `"{"`, then for each pair
(in order) `k.Inspect() ++ ": " ++ v.Inspect()` *concatenated directly, with
no separator between consecutive pairs*, then `"}"`. -/
theorem C7_hash_inspect (pairs : List (Value × Value)) (f g : Value → String) :
    (∀ p ∈ pairs, inspect p.1 = .ok (f p.1) ∧ inspect p.2 = .ok (g p.2)) →
    inspect (.hash pairs) =
      .ok ("\x7b" ++
        ((pairs.map fun p => f p.1 ++ ": " ++ g p.2).foldr (fun a b => a ++ b) "") ++
        "\x7d") := by
  intro h
  have key : ∀ ps, (∀ p ∈ ps, inspect p.1 = .ok (f p.1) ∧ inspect p.2 = .ok (g p.2)) →
      inspectPairs ps =
        .ok ((ps.map fun p => f p.1 ++ ": " ++ g p.2).foldr (fun a b => a ++ b) "") := by
    intro ps
    induction ps with
    | nil => intro _; simp [inspectPairs]
    | cons hd tl ih =>
      intro hmem
      obtain ⟨h1, h2⟩ := hmem hd (List.mem_cons_self hd tl)
      have htl := ih fun p hp => hmem p (List.mem_cons_of_mem hd hp)
      obtain ⟨k, v⟩ := hd
      simp only at h1 h2
      simp [inspectPairs, h1, h2, htl]
  simp [inspect, key pairs h]

/-- **C7** (witness): the amended theorem applied to `{1: 2, 3: 4}`. -/
theorem C7_hash_inspect_witness :
    inspect (.hash [(.integer 1, .integer 2), (.integer 3, .integer 4)]) =
      .ok ("\x7b" ++
        (([((.integer 1 : Value), (.integer 2 : Value)),
           (.integer 3, .integer 4)].map fun p =>
             (fun v : Value => (inspect v).toOption.getD "") p.1 ++ ": " ++
             (fun v : Value => (inspect v).toOption.getD "") p.2).foldr
          (fun a b => a ++ b) "") ++ "\x7d") :=
  C7_hash_inspect [(.integer 1, .integer 2), (.integer 3, .integer 4)]
    (fun v => (inspect v).toOption.getD "") (fun v => (inspect v).toOption.getD "")
    (by
      intro p hp
      simp only [List.mem_cons, List.not_mem_nil, or_false] at hp
      rcases hp with h | h <;> subst h <;> exact ⟨rfl, rfl⟩)

/-- **C9** (confirmed): applying a user `Function` with fewer arguments than
parameters is a Go index-out-of-range panic from `extendFunctionEnv`'s
`args[paramIdx]` — not an `Error` value and not `Null` padding — while
surplus arguments beyond the parameter count are never read. -/
theorem C9_arity (fuel : Nat) (s : Store) (params : List String) (body : List Stmt)
    (envRef : Nat) (args : List Value) :
    (args.length < params.length →
      (applyFunction (fuel + 1) s (.function params body envRef) args).2 =
        .error indexOutOfRangeMsg) ∧
    (args.length < params.length →
      ∀ v, (applyFunction (fuel + 1) s (.function params body envRef) args).2 ≠ .ok v) ∧
    (params.length ≤ args.length →
      applyFunction (fuel + 1) s (.function params body envRef) args =
        applyFunction (fuel + 1) s (.function params body envRef)
          (args.take params.length)) := by
  have main : args.length < params.length →
      (applyFunction (fuel + 1) s (.function params body envRef) args).2 =
        .error indexOutOfRangeMsg := by
    intro h
    have hs := setParams_short params (s ++ [{ table := [], parent := some envRef }])
      s.length args h
    rcases heq : setParams (s ++ [{ table := [], parent := some envRef }]) s.length params args
      with ⟨s2, r⟩
    rw [heq] at hs
    simp only at hs
    subst hs
    simp [applyFunction, extendFunctionEnv, newEnclosedEnvironment, heq]
  refine ⟨main, fun h v hv => ?_, fun h => ?_⟩
  · rw [main h] at hv
    exact Except.noConfusion hv
  · have hs := setParams_take params (s ++ [{ table := [], parent := some envRef }])
      s.length args h
    simp only [applyFunction, extendFunctionEnv, newEnclosedEnvironment, hs]

/-- **C9** (witness): a two-parameter function applied to one argument
panics; applied to three arguments it behaves as with the first two. -/
theorem C9_arity_witness :
    (applyFunction 5 initialStore
      (.function ["a", "b"] [.exprStmt (.identifier "a")] 0) [.integer 1]).2 =
      .error indexOutOfRangeMsg ∧
    applyFunction 5 initialStore
      (.function ["a", "b"] [.exprStmt (.identifier "a")] 0)
        [.integer 1, .integer 2, .integer 3] =
    applyFunction 5 initialStore
      (.function ["a", "b"] [.exprStmt (.identifier "a")] 0)
        ([.integer 1, .integer 2, .integer 3].take 2) :=
  ⟨(C9_arity 4 initialStore ["a", "b"] [.exprStmt (.identifier "a")] 0 [.integer 1]).1
      (by decide),
   (C9_arity 4 initialStore ["a", "b"] [.exprStmt (.identifier "a")] 0
      [.integer 1, .integer 2, .integer 3]).2.2 (by decide)⟩

/-- **C10** (confirmed): a `let` statement whose right-hand side evaluates
to a non-`Error` value produces the Go nil interface (no Monkey value); the
program loop keeps running with that nil as "last result", so a program
ending in such a `let` evaluates to nil; and calling `Inspect` on that nil
result panics. -/
theorem C10_let_produces_nil :
    (∀ (fuel : Nat) (s : Store) (env : Nat) (name : String) (rhs : Expr) (s1 : Store) (v : Value),
      evalExpr fuel s env rhs = (s1, .ok v) → isError v = false →
      evalStmt (fuel + 1) s env (.letStmt name rhs) = (envSet s1 env name v, .ok .nilObj)) ∧
    (∀ (fuel : Nat) (s : Store) (env : Nat) (prior : Value) (st : Stmt) (rest : List Stmt)
        (s1 : Store) (r : Value),
      evalStmt fuel s env st = (s1, .ok r) →
      (∀ v, r ≠ .returnValue v) → (∀ m, r ≠ .error m) →
      evalProgramLoop (fuel + 1) s env prior (st :: rest) = evalProgramLoop fuel s1 env r rest) ∧
    (∀ (fuel : Nat) (s : Store) (env : Nat) (r : Value),
      evalProgramLoop (fuel + 1) s env r [] = (s, .ok r)) ∧
    inspect .nilObj = .error nilDerefMsg := by
  refine ⟨fun fuel s env name rhs s1 v h he => ?_,
    fun fuel s env prior st rest s1 r h hrv herr => ?_,
    fun fuel s env r => rfl, rfl⟩
  · simp [evalStmt, h, he]
  · cases r <;> simp_all [evalProgramLoop]

/-- **C10** (witness): the program `let x = 5;` evaluates to the nil
interface. -/
theorem C10_let_produces_nil_witness :
    evalStmt 2 initialStore 0 (.letStmt "x" (.integerLit 5)) =
      (envSet initialStore 0 "x" (.integer 5), .ok .nilObj) ∧
    evalProgramLoop 3 initialStore 0 .nilObj [.letStmt "x" (.integerLit 5)] =
      evalProgramLoop 2 (envSet initialStore 0 "x" (.integer 5)) 0 .nilObj [] :=
  ⟨C10_let_produces_nil.1 1 initialStore 0 "x" (.integerLit 5) initialStore (.integer 5) rfl rfl,
   C10_let_produces_nil.2.1 2 initialStore 0 .nilObj (.letStmt "x" (.integerLit 5)) []
     (envSet initialStore 0 "x" (.integer 5)) .nilObj rfl
     (fun v h => Value.noConfusion h) (fun m h => Value.noConfusion h)⟩


/-- **C6** (counterexample): the input `1e` lexes as a *valid* `FLOAT` token
with literal `"1e"` — `lexNumber` requires no digit after the exponent
marker, refuting the claim that such input does not lex as a number. -/
theorem C6_counterexample :
    lexNumber 0 ['1', 'e'] = .ok (.FLOAT, ['1', 'e'], []) := rfl

/-- **C6** (amended): the numeric literal grammar the lexer accepts, at each
shape, is: decimal digits, optionally `.` followed by *one or more* digits,
optionally `e`/`E` with an optional sign followed by *zero or more* digits;
the token type is `FLOAT` exactly when a `.` or an exponent marker is
present (visible in each conjunct), a `.` not followed by a digit is an
error at that position — but an exponent marker not followed by a digit
still lexes as a valid `FLOAT` token (conjuncts three and four with no
trailing digits). -/
theorem C6_lexNumber_grammar :
    (∀ (pos : Nat) (d r : List Char), d ≠ [] →
      (∀ c ∈ d, isDecimal c = true) → isDecimal (peekC r) = false →
      peekC r ≠ '.' → peekC r ≠ 'e' → peekC r ≠ 'E' →
      lexNumber pos (d ++ r) = .ok (.INT, d, r)) ∧
    (∀ (pos : Nat) (d1 d2 r : List Char),
      (∀ c ∈ d1, isDecimal c = true) → (∀ c ∈ d2, isDecimal c = true) →
      d2 ≠ [] → isDecimal (peekC r) = false → peekC r ≠ 'e' → peekC r ≠ 'E' →
      lexNumber pos (d1 ++ '.' :: (d2 ++ r)) = .ok (.FLOAT, d1 ++ '.' :: d2, r)) ∧
    (∀ (pos : Nat) (d1 : List Char) (ec : Char) (sg d3 r : List Char),
      (∀ c ∈ d1, isDecimal c = true) →
      ec = 'e' ∨ ec = 'E' →
      sg = [] ∨ sg = ['+'] ∨ sg = ['-'] →
      (∀ c ∈ d3, isDecimal c = true) → isDecimal (peekC r) = false →
      (sg = [] → d3 = [] → peekC r ≠ '+' ∧ peekC r ≠ '-') →
      lexNumber pos (d1 ++ ec :: (sg ++ (d3 ++ r))) =
        .ok (.FLOAT, d1 ++ ec :: (sg ++ d3), r)) ∧
    (∀ (pos : Nat) (d1 d2 : List Char) (ec : Char) (sg d3 r : List Char),
      (∀ c ∈ d1, isDecimal c = true) → (∀ c ∈ d2, isDecimal c = true) →
      d2 ≠ [] →
      ec = 'e' ∨ ec = 'E' →
      sg = [] ∨ sg = ['+'] ∨ sg = ['-'] →
      (∀ c ∈ d3, isDecimal c = true) → isDecimal (peekC r) = false →
      (sg = [] → d3 = [] → peekC r ≠ '+' ∧ peekC r ≠ '-') →
      lexNumber pos (d1 ++ '.' :: (d2 ++ ec :: (sg ++ (d3 ++ r)))) =
        .ok (.FLOAT, d1 ++ '.' :: (d2 ++ ec :: (sg ++ d3)), r)) ∧
    (∀ (pos : Nat) (d1 r : List Char),
      (∀ c ∈ d1, isDecimal c = true) → isDecimal (peekC r) = false →
      lexNumber pos (d1 ++ '.' :: r) =
        .error ("Illegal character '" ++ String.mk [peekC r] ++ "' after . at position " ++
          toString (pos + d1.length + 1))) := by
  refine ⟨?_, ?_, ?_, ?_, ?_⟩
  · intro pos d r hne hd hr h1 h2 h3
    obtain ⟨ht, hdrop⟩ := spanDigits d r hd hr
    simp only [lexNumber, ht, hdrop, if_neg h1]
    simp [h2, h3, Nat.add_sub_cancel, List.take_left]
  · intro pos d1 d2 r hd1 hd2 hne2 hr h2 h3
    obtain ⟨ht1, hdrop1⟩ := spanDigits d1 ('.' :: (d2 ++ r)) hd1 (by rw [peekC_cons]; decide)
    obtain ⟨ht2, hdrop2⟩ := spanDigits d2 r hd2 hr
    obtain ⟨c, t, rfl⟩ := List.exists_cons_of_ne_nil hne2
    have hc : isDecimal c = true := hd2 c (List.mem_cons_self c t)
    simp only [List.cons_append] at ht1 hdrop1 ht2 hdrop2 ⊢
    simp only [lexNumber, ht1, hdrop1, peekC_cons, List.tail_cons, if_pos rfl, hc, if_true,
      ht2, hdrop2]
    rw [if_neg (by simp [h2, h3])]
    have htake : List.take ((d1 ++ '.' :: c :: (t ++ r)).length - r.length)
        (d1 ++ '.' :: c :: (t ++ r)) = d1 ++ '.' :: c :: t := by
      rw [show d1 ++ '.' :: c :: (t ++ r) = (d1 ++ '.' :: c :: t) ++ r from by simp,
        List.length_append, Nat.add_sub_cancel, List.take_left]
    rw [htake]
  · intro pos d1 ec sg d3 r hd1 hec hsg hd3 hr hedge
    have hecd : isDecimal (peekC (ec :: (sg ++ (d3 ++ r)))) = false := by
      rw [peekC_cons]; rcases hec with h | h <;> subst h <;> decide
    have hecdot : ¬ (peekC (ec :: (sg ++ (d3 ++ r))) = '.') := by
      rw [peekC_cons]; rcases hec with h | h <;> subst h <;> decide
    have hcond : (decide (peekC (ec :: (sg ++ (d3 ++ r))) = 'e') ||
        decide (peekC (ec :: (sg ++ (d3 ++ r))) = 'E')) = true := by
      rw [peekC_cons]; rcases hec with h | h <;> subst h <;> simp
    obtain ⟨ht1, hdrop1⟩ := spanDigits d1 (ec :: (sg ++ (d3 ++ r))) hd1 hecd
    have hexp := lexExpTail sg d3 r hsg hd3 hr hedge
    simp only [lexNumber, ht1, hdrop1, if_neg hecdot, hcond, if_true, List.tail_cons, hexp]
    have htake : List.take ((d1 ++ ec :: (sg ++ (d3 ++ r))).length - r.length)
        (d1 ++ ec :: (sg ++ (d3 ++ r))) = d1 ++ ec :: (sg ++ d3) := by
      rw [show d1 ++ ec :: (sg ++ (d3 ++ r)) = (d1 ++ ec :: (sg ++ d3)) ++ r from by simp,
        List.length_append, Nat.add_sub_cancel, List.take_left]
    rw [htake]
  · intro pos d1 d2 ec sg d3 r hd1 hd2 hne2 hec hsg hd3 hr hedge
    have hecd : isDecimal (peekC (ec :: (sg ++ (d3 ++ r)))) = false := by
      rw [peekC_cons]; rcases hec with h | h <;> subst h <;> decide
    have hcond : (decide (ec = 'e') || decide (ec = 'E')) = true := by
      rcases hec with h | h <;> subst h <;> simp
    obtain ⟨ht1, hdrop1⟩ :=
      spanDigits d1 ('.' :: (d2 ++ ec :: (sg ++ (d3 ++ r)))) hd1 (by rw [peekC_cons]; decide)
    obtain ⟨ht2, hdrop2⟩ := spanDigits d2 (ec :: (sg ++ (d3 ++ r))) hd2 hecd
    have hexp := lexExpTail sg d3 r hsg hd3 hr hedge
    obtain ⟨c, t, rfl⟩ := List.exists_cons_of_ne_nil hne2
    have hc : isDecimal c = true := hd2 c (List.mem_cons_self c t)
    simp only [List.cons_append] at ht1 hdrop1 ht2 hdrop2 ⊢
    simp only [lexNumber, ht1, hdrop1, peekC_cons, List.tail_cons, if_pos rfl, hc, if_true,
      ht2, hdrop2, hcond, hexp]
    have htake : List.take ((d1 ++ '.' :: c :: (t ++ ec :: (sg ++ (d3 ++ r)))).length - r.length)
        (d1 ++ '.' :: c :: (t ++ ec :: (sg ++ (d3 ++ r)))) =
        d1 ++ '.' :: c :: (t ++ ec :: (sg ++ d3)) := by
      rw [show d1 ++ '.' :: c :: (t ++ ec :: (sg ++ (d3 ++ r))) =
          (d1 ++ '.' :: c :: (t ++ ec :: (sg ++ d3))) ++ r from by simp,
        List.length_append, Nat.add_sub_cancel, List.take_left]
    rw [htake]
  · intro pos d1 r hd1 hr
    obtain ⟨ht1, hdrop1⟩ := spanDigits d1 ('.' :: r) hd1 (by rw [peekC_cons]; decide)
    simp [lexNumber, ht1, hdrop1, peekC_cons, List.tail_cons, hr]

/-- **C6** (witness): the grammar theorem applied to the concrete inputs
`123;`, `1.5)`, `1e`, `2.5E+7,` and the erroneous `12.x`. -/
theorem C6_lexNumber_grammar_witness :
    lexNumber 0 (['1', '2', '3'] ++ [';']) = .ok (.INT, ['1', '2', '3'], [';']) ∧
    lexNumber 0 (['1'] ++ '.' :: (['5'] ++ [')'])) = .ok (.FLOAT, ['1'] ++ '.' :: ['5'], [')']) ∧
    lexNumber 0 (['1'] ++ 'e' :: ([] ++ ([] ++ []))) = .ok (.FLOAT, ['1'] ++ 'e' :: ([] ++ []), []) ∧
    lexNumber 0 (['2'] ++ '.' :: (['5'] ++ 'E' :: (['+'] ++ (['7'] ++ [','])))) =
      .ok (.FLOAT, ['2'] ++ '.' :: (['5'] ++ 'E' :: (['+'] ++ ['7'])), [',']) ∧
    lexNumber 3 (['1', '2'] ++ '.' :: ['x']) =
      .error ("Illegal character '" ++ String.mk [peekC ['x']] ++ "' after . at position " ++
        toString (3 + ['1', '2'].length + 1)) :=
  ⟨C6_lexNumber_grammar.1 0 ['1', '2', '3'] [';'] (by decide) (by decide) (by decide)
      (by decide) (by decide) (by decide),
   C6_lexNumber_grammar.2.1 0 ['1'] ['5'] [')'] (by decide) (by decide) (by decide)
      (by decide) (by decide) (by decide),
   C6_lexNumber_grammar.2.2.1 0 ['1'] 'e' [] [] [] (by decide) (Or.inl rfl) (Or.inl rfl)
      (by decide) (by decide) (fun _ _ => by decide),
   C6_lexNumber_grammar.2.2.2.1 0 ['2'] ['5'] 'E' ['+'] ['7'] [','] (by decide) (by decide)
      (by decide) (Or.inr rfl) (Or.inr (Or.inl rfl)) (by decide) (by decide)
      (fun h _ => List.noConfusion h),
   C6_lexNumber_grammar.2.2.2.2 3 ['1', '2'] ['x'] (by decide) (by decide)⟩


/-- **C5** (counterexample): the hash literal `{if (false) {}: 1}` has a key
that evaluates to `Null` — not `Hashable` — yet evaluating the literal
yields a `Hash` value, not an `Error`: `evalHashLiteral` never consults the
`Hashable` predicate. -/
theorem C5_counterexample :
    (runEval 10 [.exprStmt (.hashLit [(.ifExpr (.boolLit false) [] none, .integerLit 1)])]).2 =
      .ok (.hash [(.null, .integer 1)]) ∧
    hashableChk .null = .ok false := ⟨rfl, rfl⟩

/-- **C5** (amended): the `Hashable` predicate is checked only at *lookup*
(indexing a `Hash` with any non-hashable key is an
`unusable as hash key` error); at *insertion* a hash literal produces the
recovered `unhashable key` error exactly when hashing the inserted key's Go
value reaches a Go map — the key is a `Hash` itself, or a chain of
`ReturnValue` struct wrappers around one (`goMapKeyPanics`) — while every
other key, hashable or not (`Null`, `*Function`, `*Array` included), is
inserted without error. -/
theorem C5_hash_keys :
    (∀ (pairs : List (Value × Value)) (key : Value), hashableChk key = .ok false →
      evalIndexExpression (.hash pairs) key =
        .ok (.error ("unusable as hash key: " ++ typeNameOf key))) ∧
    (∀ (m : List (Value × Value)) (h : List (Value × Value)) (v : Value),
      hashInsert m (.hash h) v = .error unhashableKeyMsg) ∧
    (∀ (m : List (Value × Value)) (k v : Value), goMapKeyPanics k = true →
      hashInsert m k v = .error unhashableKeyMsg) ∧
    (∀ (m : List (Value × Value)) (k v : Value), goMapKeyPanics k = false →
      hashInsert m k v = .ok (pairsSet m k v)) ∧
    (∀ (fuel : Nat) (s : Store) (env : Nat) (pairs : List (Expr × Expr)) (s1 : Store)
        (m : String),
      evalHashPairs fuel s env [] pairs = (s1, .error m) → m ≠ stackOverflowMsg →
      evalExpr (fuel + 1) s env (.hashLit pairs) =
        (s1, .ok (.error ("unhashable key: " ++ m)))) ∧
    (∀ (fuel : Nat) (s : Store) (env : Nat) (pairs : List (Expr × Expr)) (s1 : Store)
        (v : Value),
      evalHashPairs fuel s env [] pairs = (s1, .ok v) →
      evalExpr (fuel + 1) s env (.hashLit pairs) = (s1, .ok v)) ∧
    (∀ (fuel : Nat) (s : Store) (env : Nat) (m : List (Value × Value)) (kExp vExp : Expr)
        (rest : List (Expr × Expr)) (s1 : Store) (k : Value) (s2 : Store) (v : Value),
      evalExpr fuel s env kExp = (s1, .ok k) → isError k = false →
      evalExpr fuel s1 env vExp = (s2, .ok v) → isError v = false →
      ((goMapKeyPanics k = true →
        evalHashPairs (fuel + 1) s env m ((kExp, vExp) :: rest) =
          (s2, .error unhashableKeyMsg)) ∧
       (goMapKeyPanics k = false →
        evalHashPairs (fuel + 1) s env m ((kExp, vExp) :: rest) =
          evalHashPairs fuel s2 env (pairsSet m k v) rest))) := by
  refine ⟨fun pairs key hkey => ?_, fun m h v => rfl, fun m k v hk => ?_, fun m k v hk => ?_,
    fun fuel s env pairs s1 m h hm => ?_, fun fuel s env pairs s1 v h => ?_,
    fun fuel s env m kExp vExp rest s1 k s2 v hk hke hv hve => ⟨fun hkh => ?_, fun hkh => ?_⟩⟩
  · cases key <;> simp_all [evalIndexExpression, goType, evalHashIndexExpression, hashableChk,
      typeNameOf, typeName]
  · simp [hashInsert, hk]
  · simp [hashInsert, hk]
  · simp [evalExpr, h, hm]
  · simp [evalExpr, h]
  · simp [evalHashPairs, hk, hke, hv, hve, hashInsert, hkh]
  · simp [evalHashPairs, hk, hke, hv, hve, hashInsert, hkh]

/-- **C5** (witness): the amended theorem applied to indexing with a `Null`
key, inserting a `Hash` key, inserting a `ReturnValue`-wrapped `Hash` key
(which also panics), inserting a `Function` key (which does not), the
literal `{{}: 1}`, and the literal
`{if (true) { return {} }: 2}`, whose key evaluates to a
`ReturnValue`-wrapped `Hash` and whose insertion panic is recovered into an
error value. -/
theorem C5_hash_keys_witness :
    evalIndexExpression (.hash []) .null =
      .ok (.error ("unusable as hash key: " ++ typeNameOf .null)) ∧
    hashInsert [] (.hash []) (.integer 1) = .error unhashableKeyMsg ∧
    hashInsert [] (.returnValue (.hash [])) (.integer 1) = .error unhashableKeyMsg ∧
    hashInsert [] (.function [] [] 0) (.integer 1) =
      .ok (pairsSet [] (.function [] [] 0) (.integer 1)) ∧
    evalExpr 4 initialStore 0 (.hashLit [(.hashLit [], .integerLit 1)]) =
      (initialStore, .ok (.error ("unhashable key: " ++ unhashableKeyMsg))) ∧
    evalExpr 9 initialStore 0
      (.hashLit [(.ifExpr (.boolLit true) [.returnStmt (.hashLit [])] none, .integerLit 2)]) =
      (initialStore, .ok (.error ("unhashable key: " ++ unhashableKeyMsg))) :=
  ⟨C5_hash_keys.1 [] .null rfl,
   C5_hash_keys.2.1 [] [] (.integer 1),
   C5_hash_keys.2.2.1 [] (.returnValue (.hash [])) (.integer 1) rfl,
   C5_hash_keys.2.2.2.1 [] (.function [] [] 0) (.integer 1) rfl,
   C5_hash_keys.2.2.2.2.1 3 initialStore 0 [(.hashLit [], .integerLit 1)] initialStore
     unhashableKeyMsg rfl (by decide),
   C5_hash_keys.2.2.2.2.1 8 initialStore 0
     [(.ifExpr (.boolLit true) [.returnStmt (.hashLit [])] none, .integerLit 2)] initialStore
     unhashableKeyMsg rfl (by decide)⟩


/-- **C3** (confirmed): an `Error` value produced by a subexpression is
returned unchanged as the value of the enclosing expression: prefix
operands, infix operands (left; right when the left succeeded), if
conditions, index operands, the elements/arguments evaluated by
`evalExpressions` (array elements and call arguments), and hash literal
keys and values. -/
theorem C3_error_containment :
    (∀ (fuel : Nat) (s : Store) (env : Nat) (op : String) (x : Expr) (s1 : Store) (m : String),
      evalExpr fuel s env x = (s1, .ok (.error m)) →
      evalExpr (fuel + 1) s env (.prefixExpr op x) = (s1, .ok (.error m))) ∧
    (∀ (fuel : Nat) (s : Store) (env : Nat) (op : String) (l r : Expr) (s1 : Store) (m : String),
      evalExpr fuel s env l = (s1, .ok (.error m)) →
      evalExpr (fuel + 1) s env (.infixExpr op l r) = (s1, .ok (.error m))) ∧
    (∀ (fuel : Nat) (s : Store) (env : Nat) (op : String) (l r : Expr) (s1 : Store) (lv : Value)
        (s2 : Store) (m : String),
      evalExpr fuel s env l = (s1, .ok lv) → isError lv = false →
      evalExpr fuel s1 env r = (s2, .ok (.error m)) →
      evalExpr (fuel + 1) s env (.infixExpr op l r) = (s2, .ok (.error m))) ∧
    (∀ (fuel : Nat) (s : Store) (env : Nat) (c : Expr) (cons : List Stmt)
        (alt : Option (List Stmt)) (s1 : Store) (m : String),
      evalExpr fuel s env c = (s1, .ok (.error m)) →
      evalExpr (fuel + 1) s env (.ifExpr c cons alt) = (s1, .ok (.error m))) ∧
    (∀ (fuel : Nat) (s : Store) (env : Nat) (l i : Expr) (s1 : Store) (m : String),
      evalExpr fuel s env l = (s1, .ok (.error m)) →
      evalExpr (fuel + 1) s env (.indexExpr l i) = (s1, .ok (.error m))) ∧
    (∀ (fuel : Nat) (s : Store) (env : Nat) (l i : Expr) (s1 : Store) (lv : Value)
        (s2 : Store) (m : String),
      evalExpr fuel s env l = (s1, .ok lv) → isError lv = false →
      evalExpr fuel s1 env i = (s2, .ok (.error m)) →
      evalExpr (fuel + 1) s env (.indexExpr l i) = (s2, .ok (.error m))) ∧
    (∀ (fuel : Nat) (s : Store) (env : Nat) (acc : List Value) (e : Expr) (rest : List Expr)
        (s1 : Store) (m : String),
      evalExpr fuel s env e = (s1, .ok (.error m)) →
      evalExpressions (fuel + 1) s env acc (e :: rest) = (s1, .ok [.error m])) ∧
    (∀ (fuel : Nat) (s : Store) (env : Nat) (acc : List Value) (e : Expr) (rest : List Expr)
        (s1 : Store) (v : Value),
      evalExpr fuel s env e = (s1, .ok v) → isError v = false →
      evalExpressions (fuel + 1) s env acc (e :: rest) =
        evalExpressions fuel s1 env (acc ++ [v]) rest) ∧
    (∀ (fuel : Nat) (s : Store) (env : Nat) (elems : List Expr) (s1 : Store) (m : String),
      evalExpressions fuel s env [] elems = (s1, .ok [.error m]) →
      evalExpr (fuel + 1) s env (.arrayLit elems) = (s1, .ok (.error m))) ∧
    (∀ (fuel : Nat) (s : Store) (env : Nat) (fnExp : Expr) (args : List Expr) (s1 : Store)
        (fv : Value) (s2 : Store) (m : String),
      evalExpr fuel s env fnExp = (s1, .ok fv) → isError fv = false →
      evalExpressions fuel s1 env [] args = (s2, .ok [.error m]) →
      evalExpr (fuel + 1) s env (.callExpr fnExp args) = (s2, .ok (.error m))) ∧
    (∀ (fuel : Nat) (s : Store) (env : Nat) (macc : List (Value × Value)) (kExp vExp : Expr)
        (rest : List (Expr × Expr)) (s1 : Store) (m : String),
      evalExpr fuel s env kExp = (s1, .ok (.error m)) →
      evalHashPairs (fuel + 1) s env macc ((kExp, vExp) :: rest) = (s1, .ok (.error m))) ∧
    (∀ (fuel : Nat) (s : Store) (env : Nat) (macc : List (Value × Value)) (kExp vExp : Expr)
        (rest : List (Expr × Expr)) (s1 : Store) (k : Value) (s2 : Store) (m : String),
      evalExpr fuel s env kExp = (s1, .ok k) → isError k = false →
      evalExpr fuel s1 env vExp = (s2, .ok (.error m)) →
      evalHashPairs (fuel + 1) s env macc ((kExp, vExp) :: rest) = (s2, .ok (.error m))) ∧
    (∀ (fuel : Nat) (s : Store) (env : Nat) (pairs : List (Expr × Expr)) (s1 : Store)
        (m : String),
      evalHashPairs fuel s env [] pairs = (s1, .ok (.error m)) →
      evalExpr (fuel + 1) s env (.hashLit pairs) = (s1, .ok (.error m))) := by
  refine ⟨fun fuel s env op x s1 m h => ?_,
    fun fuel s env op l r s1 m h => ?_,
    fun fuel s env op l r s1 lv s2 m hl hle hr => ?_,
    fun fuel s env c cons alt s1 m h => ?_,
    fun fuel s env l i s1 m h => ?_,
    fun fuel s env l i s1 lv s2 m hl hle hi => ?_,
    fun fuel s env acc e rest s1 m h => ?_,
    fun fuel s env acc e rest s1 v h hv => ?_,
    fun fuel s env elems s1 m h => ?_,
    fun fuel s env fnExp args s1 fv s2 m hf hfe ha => ?_,
    fun fuel s env macc kExp vExp rest s1 m h => ?_,
    fun fuel s env macc kExp vExp rest s1 k s2 m hk hke hv => ?_,
    fun fuel s env pairs s1 m h => ?_⟩
  · simp [evalExpr, h, isError]
  · simp [evalExpr, h, isError]
  · simp only [evalExpr, hl, hle, Bool.false_eq_true, if_false]
    simp [hr, isError]
  · simp [evalExpr, h, isError]
  · simp [evalExpr, h, isError]
  · simp only [evalExpr, hl, hle, Bool.false_eq_true, if_false]
    simp [hi, isError]
  · simp [evalExpressions, h, isError]
  · simp only [evalExpressions, h, hv, Bool.false_eq_true, if_false]
  · simp [evalExpr, h, isError]
  · simp only [evalExpr, hf, hfe, Bool.false_eq_true, if_false]
    simp [ha, isError]
  · simp [evalHashPairs, h, isError]
  · simp only [evalHashPairs, hk, hke, Bool.false_eq_true, if_false]
    simp [hv, isError]
  · simp [evalExpr, h]

/-- **C3** (witness): containment exercised on `!nope`, `nope + 1`,
`1 + nope`, `[nope]` and `{nope: 1}` where `nope` is an unbound
identifier. -/
theorem C3_error_containment_witness :
    evalExpr 2 initialStore 0 (.prefixExpr "!" (.identifier "nope")) =
      (initialStore, .ok (.error "identifier not found: nope")) ∧
    evalExpr 2 initialStore 0 (.infixExpr "+" (.identifier "nope") (.integerLit 1)) =
      (initialStore, .ok (.error "identifier not found: nope")) ∧
    evalExpr 2 initialStore 0 (.infixExpr "+" (.integerLit 1) (.identifier "nope")) =
      (initialStore, .ok (.error "identifier not found: nope")) ∧
    evalExpr 3 initialStore 0 (.arrayLit [.identifier "nope"]) =
      (initialStore, .ok (.error "identifier not found: nope")) ∧
    evalHashPairs 2 initialStore 0 [] [(.identifier "nope", .integerLit 1)] =
      (initialStore, .ok (.error "identifier not found: nope")) :=
  ⟨C3_error_containment.1 1 initialStore 0 "!" (.identifier "nope") initialStore
      "identifier not found: nope" rfl,
   C3_error_containment.2.1 1 initialStore 0 "+" (.identifier "nope") (.integerLit 1)
      initialStore "identifier not found: nope" rfl,
   C3_error_containment.2.2.1 1 initialStore 0 "+" (.integerLit 1) (.identifier "nope")
      initialStore (.integer 1) initialStore "identifier not found: nope" rfl rfl rfl,
   C3_error_containment.2.2.2.2.2.2.2.2.1 2 initialStore 0 [.identifier "nope"]
      initialStore "identifier not found: nope"
      (C3_error_containment.2.2.2.2.2.2.1 1 initialStore 0 [] (.identifier "nope") []
        initialStore "identifier not found: nope" rfl),
   C3_error_containment.2.2.2.2.2.2.2.2.2.2.1 1 initialStore 0 [] (.identifier "nope")
      (.integerLit 1) [] initialStore "identifier not found: nope" rfl⟩


/-- `tableGet` after `tableSet` of the same name finds the new value. -/
theorem tableGet_tableSet (t : List (String × Value)) (name : String) (v : Value) :
    tableGet (tableSet t name v) name = some v := by
  induction t with
  | nil => simp [tableSet, tableGet]
  | cons hd tl ih =>
    obtain ⟨k, w⟩ := hd
    by_cases hk : k == name
    · simp [tableSet, hk, tableGet]
    · simp [tableSet, hk, tableGet, ih]

/-- `Environment.Set` followed by `Environment.Get` of the same name in the
same frame observes the new binding. -/
theorem envGet_envSet (s : Store) (env : Nat) (name : String) (v : Value)
    (h : env < s.length) : envGet (envSet s env name v) env name = some v := by
  obtain ⟨f, hf⟩ : ∃ f, s[env]? = some f := ⟨s[env], List.getElem?_eq_getElem h⟩
  simp only [envGet, envSet, hf, envGetGo]
  rw [List.getElem?_set_self (by simpa using h)]
  simp [tableGet_tableSet]

/-- Frames appended to the store do not change lookups through references
into the original store. -/
theorem envGetGo_append (steps : Nat) : ∀ (s ext : Store) (r : Nat) (name : String),
    r < s.length → envGetGo steps (s ++ ext) r name = envGetGo steps s r name := by
  induction steps with
  | zero => intro s ext r name _; rfl
  | succ n ih =>
    intro s ext r name hr
    have hacc : (s ++ ext)[r]? = s[r]? := by rw [List.getElem?_append, if_pos hr]
    simp only [envGetGo, hacc]
    rcases hsr : s[r]? with _ | f
    · rfl
    · simp only
      rcases htg : tableGet f.table name with _ | w
      · simp only
        rcases hp : f.parent with _ | p
        · rfl
        · simp only
          by_cases hpr : p < r
          · rw [if_pos hpr, if_pos hpr, ih s ext p name (hpr.trans hr)]
          · rw [if_neg hpr, if_neg hpr]
      · rfl

/-- `envGetGo` does not depend on its step budget once it exceeds the frame
reference (parent references strictly decrease). -/
theorem envGetGo_eq_of_lt : ∀ (r steps1 steps2 : Nat) (s : Store) (name : String),
    r < steps1 → r < steps2 → envGetGo steps1 s r name = envGetGo steps2 s r name := by
  intro r
  induction r using Nat.strong_induction_on with
  | _ r ih =>
    intro steps1 steps2 s name h1 h2
    obtain ⟨a, rfl⟩ : ∃ a, steps1 = a + 1 := ⟨steps1 - 1, by omega⟩
    obtain ⟨b, rfl⟩ : ∃ b, steps2 = b + 1 := ⟨steps2 - 1, by omega⟩
    simp only [envGetGo]
    rcases s[r]? with _ | f
    · rfl
    · simp only
      rcases tableGet f.table name with _ | w
      · simp only
        rcases f.parent with _ | p
        · rfl
        · simp only
          by_cases hpr : p < r
          · rw [if_pos hpr, if_pos hpr, ih p hpr a b s name (by omega) (by omega)]
          · rw [if_neg hpr, if_neg hpr]
      · rfl

/-- **C8** (confirmed): closures capture their defining environment by
reference. Evaluating a function literal stores the current environment
reference unchanged; a binding `Set` into that environment later is
observed by `Get`; calling the function evaluates its body in a fresh frame
whose parent chain reaches the *current* contents of the captured
environment, so the call-time binding is returned; and in the end-to-end
program `let f = fn() { a }; let a = 5; f();` the call observes the binding
made after `f` was constructed. -/
theorem C8_closure_capture :
    (∀ (fuel : Nat) (s : Store) (env : Nat) (params : List String) (body : List Stmt),
      evalExpr (fuel + 1) s env (.functionLit params body) =
        (s, .ok (.function params body env))) ∧
    (∀ (s : Store) (env : Nat) (name : String) (v : Value), env < s.length →
      envGet (envSet s env name v) env name = some v) ∧
    (∀ (fuel : Nat) (s : Store) (env : Nat) (name : String) (v : Value),
      env < s.length → envGet s env name = some v → goType v ≠ some .RETURN_VALUE →
      applyFunction (fuel + 5) s (.function [] [.exprStmt (.identifier name)] env) [] =
        (s ++ [{ table := [], parent := some env }], .ok v)) ∧
    (runEval 12 [.letStmt "f" (.functionLit [] [.exprStmt (.identifier "a")]),
      .letStmt "a" (.integerLit 5),
      .exprStmt (.callExpr (.identifier "f") [])]).2 = .ok (.integer 5) := by
  refine ⟨fun fuel s env params body => rfl, envGet_envSet,
    fun fuel s env name v henv hget hrv => ?_, rfl⟩
  set fr : Frame := { table := [], parent := some env } with hfr
  have hacc : (s ++ [fr])[s.length]? = some fr := by
    rw [List.getElem?_append_right (Nat.le_refl _)]
    simp
  have hgo : envGet (s ++ [fr]) s.length name = some v := by
    unfold envGet
    simp only [envGetGo, hacc, hfr, tableGet]
    rw [if_pos henv]
    rw [envGetGo_eq_of_lt env s.length (env + 1) (s ++ [fr]) name henv (Nat.lt_succ_self env)]
    rw [envGetGo_append (env + 1) s [fr] env name henv]
    exact hget
  have hidv : evalIdentifier (s ++ [fr]) s.length name = v := by
    unfold evalIdentifier
    rw [hgo]
  simp only [applyFunction, extendFunctionEnv, newEnclosedEnvironment, setParams, ← hfr]
  simp only [evalBlock, evalBlockLoop, evalStmt, evalExpr, hidv]
  rcases v <;> simp_all [goType, unwrapReturnValue]

/-- **C8** (witness): the capture theorem applied to a concrete store where
`a ↦ 7` lives in the captured frame, and `Set`-then-`Get` at a concrete
binding. -/
theorem C8_closure_capture_witness :
    envGet (envSet initialStore 0 "x" (.integer 3)) 0 "x" = some (.integer 3) ∧
    applyFunction 5 [{ table := [("a", .integer 7)], parent := none }]
      (.function [] [.exprStmt (.identifier "a")] 0) [] =
      ([{ table := [("a", .integer 7)], parent := none }] ++
        [{ table := [], parent := some 0 }], .ok (.integer 7)) :=
  ⟨C8_closure_capture.2.1 initialStore 0 "x" (.integer 3) (by decide),
   C8_closure_capture.2.2.1 0 [{ table := [("a", .integer 7)], parent := none }] 0 "a"
     (.integer 7) (by decide) rfl (fun h => ObjectType.noConfusion (Option.some.inj h))⟩


mutual
/-- An expression is *value-safe* when its evaluation can never produce a
`ReturnValue`-typed result: every construct is allowed except an
if-expression whose blocks could yield a `ReturnValue` (i.e. contain a
`return`). Function literals are safe — application unwraps the one layer a
body's `return` produces — provided their bodies are `safeBlock`. -/
def exprSafe : Expr → Bool
  | .integerLit _ => true
  | .floatLit _ => true
  | .stringLit _ => true
  | .boolLit _ => true
  | .identifier _ => true
  | .prefixExpr _ r => exprSafe r
  | .infixExpr _ l r => exprSafe l && exprSafe r
  | .ifExpr c cons alt =>
    exprSafe c && pureBlock cons &&
      (match alt with
       | some b => pureBlock b
       | none => true)
  | .functionLit _ body => safeBlock body
  | .arrayLit es => exprListSafe es
  | .hashLit ps => exprPairsSafe ps
  | .callExpr f args => exprSafe f && exprListSafe args
  | .indexExpr l i => exprSafe l && exprSafe i

/-- An expression in *statement position* may additionally be an
if-expression whose blocks contain `return`s (of value-safe operands): its
result then carries at most one `ReturnValue` layer, which the enclosing
block/program/function boundary handles. -/
def topSafe : Expr → Bool
  | .ifExpr c cons alt =>
    exprSafe c && safeBlock cons &&
      (match alt with
       | some b => safeBlock b
       | none => true)
  | e => exprSafe e

/-- A block with no `return` statements at its own level and value-safe
constituent expressions: its evaluation result is never `ReturnValue`
typed. -/
def pureBlock : List Stmt → Bool
  | [] => true
  | .returnStmt _ :: _ => false
  | .letStmt _ v :: rest => exprSafe v && pureBlock rest
  | .exprStmt e :: rest => exprSafe e && pureBlock rest

/-- A block as it appears in programs, function bodies and
statement-position ifs: `return` allowed (with a value-safe operand),
`let` right-hand sides value-safe, expression statements
statement-position safe. -/
def safeBlock : List Stmt → Bool
  | [] => true
  | .returnStmt v :: rest => exprSafe v && safeBlock rest
  | .letStmt _ v :: rest => exprSafe v && safeBlock rest
  | .exprStmt e :: rest => topSafe e && safeBlock rest

/-- All expressions of a list value-safe. -/
def exprListSafe : List Expr → Bool
  | [] => true
  | e :: rest => exprSafe e && exprListSafe rest

/-- All key and value expressions of a pair list value-safe. -/
def exprPairsSafe : List (Expr × Expr) → Bool
  | [] => true
  | (k, v) :: rest => exprSafe k && exprSafe v && exprPairsSafe rest
end

mutual
/-- A runtime value that carries no `ReturnValue` wrapper anywhere, and
whose function bodies are `safeBlock`. -/
def valueSafe : Value → Bool
  | .returnValue _ => false
  | .array elems => valueListSafe elems
  | .hash pairs => valuePairsSafe pairs
  | .function _ body _ => safeBlock body
  | _ => true

/-- All values of a list `valueSafe`. -/
def valueListSafe : List Value → Bool
  | [] => true
  | v :: rest => valueSafe v && valueListSafe rest

/-- All keys and values of a pair list `valueSafe`. -/
def valuePairsSafe : List (Value × Value) → Bool
  | [] => true
  | (k, v) :: rest => valueSafe k && valueSafe v && valuePairsSafe rest
end

/-- A statement-position result: at most one `ReturnValue` layer, with a
`valueSafe` payload. -/
def topOk : Value → Bool
  | .returnValue w => valueSafe w
  | v => valueSafe v

/-- Every binding in every frame of the store is `valueSafe`. -/
def StoreOk (s : Store) : Prop :=
  ∀ f ∈ s, ∀ p ∈ f.table, valueSafe p.2 = true

end Monkey
namespace Monkey

theorem valueListSafe_mem {l : List Value} (h : valueListSafe l = true) {v : Value}
    (hv : v ∈ l) : valueSafe v = true := by
  induction l with
  | nil => cases hv
  | cons a t ih =>
    simp only [valueListSafe, Bool.and_eq_true] at h
    rcases List.mem_cons.mp hv with rfl | hm
    · exact h.1
    · exact ih h.2 hm

theorem valueSafe_getD {l : List Value} (h : valueListSafe l = true) (i : Nat) :
    valueSafe (l.getD i .nilObj) = true := by
  by_cases hi : i < l.length
  · have : l.getD i .nilObj = l[i] := by
      simp [List.getD, List.getElem?_eq_getElem hi]
    rw [this]
    exact valueListSafe_mem h (List.getElem_mem hi)
  · have : l.getD i .nilObj = .nilObj := by
      simp [List.getD, List.getElem?_eq_none (Nat.le_of_not_lt hi)]
    rw [this]
    rfl

theorem valuePairsSafe_hashGet {ps : List (Value × Value)} (h : valuePairsSafe ps = true)
    {k v : Value} (hg : hashGet ps k = some v) : valueSafe v = true := by
  induction ps with
  | nil => cases hg
  | cons a t ih =>
    obtain ⟨ka, va⟩ := a
    simp only [valuePairsSafe, Bool.and_eq_true] at h
    simp only [hashGet] at hg
    by_cases hb : Value.beq ka k
    · rw [if_pos hb] at hg
      cases hg
      exact h.1.2
    · rw [if_neg hb] at hg
      exact ih h.2 hg

theorem valuePairsSafe_pairsSet {ps : List (Value × Value)} (h : valuePairsSafe ps = true)
    {k v : Value} (hk : valueSafe k = true) (hv : valueSafe v = true) :
    valuePairsSafe (pairsSet ps k v) = true := by
  induction ps with
  | nil => simp [pairsSet, valuePairsSafe, hk, hv]
  | cons a t ih =>
    obtain ⟨ka, va⟩ := a
    simp only [valuePairsSafe, Bool.and_eq_true] at h
    by_cases hb : Value.beq ka k
    · simp [pairsSet, hb, valuePairsSafe, h.1.1, hv, h.2]
    · simp [pairsSet, hb, valuePairsSafe, h.1.1, h.1.2, ih h.2]

theorem valueSafe_evalPrefixExpression (op : String) (r : Value) (v : Value)
    (h : evalPrefixExpression op r = .ok v) : valueSafe v = true := by
  unfold evalPrefixExpression evalMinusPrefixOperatorExpression at h
  split_ifs at h
  · cases h
    cases r <;> rfl
  · cases r <;> simp_all <;> (subst h; rfl)
  · cases r <;> simp_all [goType] <;> (subst h; rfl)

theorem valueSafe_evalIntegerInfixExpression (op : String) (a b : Int) (v : Value)
    (h : evalIntegerInfixExpression op a b = .ok v) : valueSafe v = true := by
  unfold evalIntegerInfixExpression at h
  split_ifs at h <;> simp_all <;> (subst h; rfl)

theorem valueSafe_evalFloatInfixExpression (op : String) (a b : Rat) :
    valueSafe (evalFloatInfixExpression op a b) = true := by
  unfold evalFloatInfixExpression
  split_ifs <;> rfl

theorem valueSafe_evalStringInfixExpression (op : String) (a b : String) :
    valueSafe (evalStringInfixExpression op a b) = true := by
  unfold evalStringInfixExpression
  split_ifs <;> rfl

theorem valueSafe_evalInfixExpression (op : String) (l r : Value) (v : Value)
    (h : evalInfixExpression op l r = .ok v) : valueSafe v = true := by
  unfold evalInfixExpression at h
  split at h
  · cases h
  · cases h
  · cases h; exact valueSafe_evalFloatInfixExpression _ _ _
  · cases h; exact valueSafe_evalFloatInfixExpression _ _ _
  · exact valueSafe_evalIntegerInfixExpression _ _ _ _ h
  · cases h; exact valueSafe_evalFloatInfixExpression _ _ _
  · cases h; exact valueSafe_evalStringInfixExpression _ _ _
  · split_ifs at h
    · rcases hq : goEq l r with m | b <;> simp only [hq, Except.map] at h
      · cases h
      · cases h; rfl
    · rcases hq : goEq l r with m | b <;> simp only [hq, Except.map] at h
      · cases h
      · cases h; rfl
    · cases h; rfl
    · cases h; rfl

end Monkey
namespace Monkey

theorem valueSafe_evalArrayIndexExpression {elems : List Value} (h : valueListSafe elems = true)
    (idx : Int) : valueSafe (evalArrayIndexExpression elems idx) = true := by
  by_cases hc : (decide (idx < 0) || decide (idx > (elems.length : Int) - 1)) = true <;>
    simp only [evalArrayIndexExpression, hc, if_true, if_false, Bool.false_eq_true]
  · rfl
  · simpa [List.getD] using valueSafe_getD h idx.toNat

theorem valueSafe_evalIndexExpression (l i : Value) (v : Value)
    (hl : valueSafe l = true) (hi : valueSafe i = true)
    (h : evalIndexExpression l i = .ok v) : valueSafe v = true := by
  unfold evalIndexExpression at h
  split at h
  · cases h
  · split_ifs at h with h1 h2
    · split at h
      · cases h
      · split_ifs at h with h3
        · cases h
          split
          · rename_i elems ii heq hne
            exact valueSafe_evalArrayIndexExpression (by simp_all [valueSafe]) ii
          · rfl
        · cases h; rfl
    · split at h
      · unfold evalHashIndexExpression at h
        split at h
        · cases h
        · split_ifs at h
          · cases h; rfl
          · split at h
            · cases h; rfl
            · rename_i w hg
              cases h
              exact valuePairsSafe_hashGet (by simpa [valueSafe] using hl) hg
      · cases h; rfl
    · cases h; rfl

end Monkey
namespace Monkey

theorem valueSafe_headD {l : List Value} (h : valueListSafe l = true) :
    valueSafe (l.headD .null) = true := by
  cases l with
  | nil => rfl
  | cons a t => simp_all [valueListSafe]

theorem valueSafe_getLastD {l : List Value} (h : valueListSafe l = true) :
    valueSafe (l.getLastD .null) = true := by
  induction l with
  | nil => rfl
  | cons a t ih =>
    cases t with
    | nil => simp_all [valueListSafe, List.getLastD]
    | cons b t2 =>
      simp only [valueListSafe, Bool.and_eq_true] at h
      simpa [List.getLastD] using ih (by simp [valueListSafe, h.2.1, h.2.2])

theorem valueListSafe_append {l1 l2 : List Value} (h1 : valueListSafe l1 = true)
    (h2 : valueListSafe l2 = true) : valueListSafe (l1 ++ l2) = true := by
  induction l1 with
  | nil => simpa
  | cons a t ih =>
    simp only [valueListSafe, Bool.and_eq_true] at h1 ⊢
    exact ⟨h1.1, by simpa [valueListSafe] using ih h1.2⟩

theorem valueSafe_applyBuiltin (name : String) (args : List Value) (v : Value)
    (hargs : valueListSafe args = true) (heq : applyBuiltin name args = .ok v) :
    valueSafe v = true := by
  unfold applyBuiltin at heq
  rcases args with _ | ⟨a, _ | ⟨b, rest⟩⟩
  · split_ifs at heq <;> (rw [← Except.ok.inj heq]; rfl)
  · simp only [valueListSafe, Bool.and_eq_true] at hargs
    split_ifs at heq <;> cases a <;>
      first
        | (rw [← Except.ok.inj heq]; rfl)
        | (rw [← Except.ok.inj heq]; exact valueSafe_headD (by simpa [valueSafe] using hargs.1))
        | (rw [← Except.ok.inj heq];
           exact valueSafe_getLastD (by simpa [valueSafe] using hargs.1))
        | (rename_i elems
           rcases elems with _ | ⟨e0, es⟩
           · rw [← Except.ok.inj heq]; rfl
           · rw [← Except.ok.inj heq]
             simp only [valueSafe]
             have h1 := hargs.1
             simp only [valueSafe, valueListSafe, Bool.and_eq_true] at h1
             exact h1.2)
        | exact Except.noConfusion heq
  · simp only [valueListSafe, Bool.and_eq_true] at hargs
    rcases rest with _ | ⟨c, rest2⟩
    · split_ifs at heq <;> cases a <;>
        first
          | (rw [← Except.ok.inj heq]; rfl)
          | (rw [← Except.ok.inj heq]
             simp only [valueSafe]
             exact valueListSafe_append (by simpa [valueSafe] using hargs.1)
               (by simp [valueListSafe, hargs.2.1]))
          | (rename_i elems
             rcases elems with _ | ⟨e0, es⟩ <;> (rw [← Except.ok.inj heq]; rfl))
          | exact Except.noConfusion heq
    · split_ifs at heq <;> cases a <;>
        first
          | (rw [← Except.ok.inj heq]; rfl)
          | (rename_i elems
             rcases elems with _ | ⟨e0, es⟩ <;> (rw [← Except.ok.inj heq]; rfl))
          | exact Except.noConfusion heq

end Monkey
namespace Monkey

theorem StoreOk_initial : StoreOk initialStore := by
  intro f hf p hp
  simp [initialStore] at hf
  subst hf
  simp at hp

theorem tableGet_safe {t : List (String × Value)} (h : ∀ p ∈ t, valueSafe p.2 = true)
    {n : String} {v : Value} (hg : tableGet t n = some v) : valueSafe v = true := by
  induction t with
  | nil => cases hg
  | cons a rest ih =>
    obtain ⟨k, w⟩ := a
    simp only [tableGet] at hg
    by_cases hk : k == n
    · rw [if_pos hk] at hg
      cases hg
      exact h (k, v) (List.mem_cons_self _ _)
    · rw [if_neg hk] at hg
      exact ih (fun p hp => h p (List.mem_cons_of_mem _ hp)) hg

theorem tableSet_safe {t : List (String × Value)} (h : ∀ p ∈ t, valueSafe p.2 = true)
    {n : String} {v : Value} (hv : valueSafe v = true) :
    ∀ p ∈ tableSet t n v, valueSafe p.2 = true := by
  induction t with
  | nil =>
    intro p hp
    simp [tableSet] at hp
    subst hp
    exact hv
  | cons a rest ih =>
    obtain ⟨k, w⟩ := a
    intro p hp
    simp only [tableSet] at hp
    by_cases hk : k == n
    · rw [if_pos hk] at hp
      rcases List.mem_cons.mp hp with rfl | hm
      · exact hv
      · exact h p (List.mem_cons_of_mem _ hm)
    · rw [if_neg hk] at hp
      rcases List.mem_cons.mp hp with rfl | hm
      · exact h (k, w) (List.mem_cons_self _ _)
      · exact ih (fun q hq => h q (List.mem_cons_of_mem _ hq)) p hm

theorem StoreOk_envSet {s : Store} (h : StoreOk s) (env : Nat) (n : String) {v : Value}
    (hv : valueSafe v = true) : StoreOk (envSet s env n v) := by
  unfold envSet
  rcases hs : s[env]? with _ | f
  · exact h
  · intro fr hfr p hp
    rcases List.mem_or_eq_of_mem_set hfr with hm | rfl
    · exact h fr hm p hp
    · exact tableSet_safe (h f (List.getElem?_mem hs)) hv p hp

theorem StoreOk_append {s : Store} (h : StoreOk s) (parent : Option Nat) :
    StoreOk (s ++ [{ table := [], parent := parent }]) := by
  intro f hf p hp
  rcases List.mem_append.mp hf with hm | hm
  · exact h f hm p hp
  · simp at hm
    subst hm
    simp at hp

theorem StoreOk_setParams (params : List String) : ∀ (s : Store) (r : Nat) (args : List Value),
    StoreOk s → valueListSafe args = true →
    StoreOk (setParams s r params args).1 := by
  induction params with
  | nil => intro s r args hs _; exact hs
  | cons p ps ih =>
    intro s r args hs hargs
    cases args with
    | nil => exact hs
    | cons a rest =>
      simp only [valueListSafe, Bool.and_eq_true] at hargs
      exact ih (envSet s r p a) r rest (StoreOk_envSet hs r p hargs.1) hargs.2

theorem envGetGo_safe (steps : Nat) : ∀ (s : Store) (r : Nat) (n : String) (v : Value),
    StoreOk s → envGetGo steps s r n = some v → valueSafe v = true := by
  induction steps with
  | zero => intro s r n v _ hg; cases hg
  | succ k ih =>
    intro s r n v hs hg
    simp only [envGetGo] at hg
    rcases hf : s[r]? with _ | f <;> simp only [hf] at hg
    · cases hg
    · rcases htg : tableGet f.table n with _ | w <;> simp only [htg] at hg
      · rcases hpar : f.parent with _ | p <;> simp only [hpar] at hg
        · cases hg
        · by_cases hp : p < r
          · rw [if_pos hp] at hg
            exact ih s p n v hs hg
          · rw [if_neg hp] at hg
            cases hg
      · cases hg
        exact tableGet_safe (hs f (List.getElem?_mem hf)) htg

theorem evalIdentifier_safe {s : Store} (hs : StoreOk s) (env : Nat) (n : String) :
    valueSafe (evalIdentifier s env n) = true := by
  unfold evalIdentifier
  rcases hg : envGet s env n with _ | v
  · split_ifs <;> rfl
  · exact envGetGo_safe (env + 1) s env n v hs hg

theorem topOk_unwrap {r : Value} (h : topOk r = true) :
    valueSafe (unwrapReturnValue r) = true := by
  cases r <;> simpa [topOk, unwrapReturnValue] using h

theorem valueSafe_topOk {r : Value} (h : valueSafe r = true) : topOk r = true := by
  cases r <;> simp_all [topOk, valueSafe]

end Monkey
namespace Monkey

theorem extendFunctionEnv_eq (s : Store) (fnEnv : Nat) (params : List String)
    (args : List Value) :
    extendFunctionEnv s fnEnv params args =
      (((setParams (s ++ [{ table := [], parent := some fnEnv }]) s.length params args).1,
        s.length),
       (setParams (s ++ [{ table := [], parent := some fnEnv }]) s.length params args).2) := by
  rcases hsp : setParams (s ++ [{ table := [], parent := some fnEnv }]) s.length params args
    with ⟨s2, r⟩
  simp [extendFunctionEnv, newEnclosedEnvironment, hsp]

theorem valueSafe_headD_nilObj {l : List Value} (h : valueListSafe l = true) :
    valueSafe (l.headD .nilObj) = true := by
  cases l with
  | nil => rfl
  | cons a t => simp_all [valueListSafe]

theorem hashInsert_ok {m : List (Value × Value)} {k v : Value} {m2 : List (Value × Value)}
    (h : hashInsert m k v = .ok m2) : m2 = pairsSet m k v := by
  unfold hashInsert at h
  split_ifs at h
  exact (Except.ok.inj h).symm

/-- Statement safety in `safeBlock` position. -/
def stmtSafe : Stmt → Bool
  | .letStmt _ v => exprSafe v
  | .returnStmt v => exprSafe v
  | .exprStmt e => topSafe e

/-- Statement safety in `pureBlock` position (no `return`). -/
def pureStmt : Stmt → Bool
  | .letStmt _ v => exprSafe v
  | .returnStmt _ => false
  | .exprStmt e => exprSafe e

theorem evalSafe : ∀ fuel : Nat,
    (∀ (s : Store) (env : Nat) (e : Expr) (s' : Store) (r : Except String Value),
      StoreOk s → exprSafe e = true → evalExpr fuel s env e = (s', r) →
      StoreOk s' ∧ ∀ v, r = .ok v → valueSafe v = true) ∧
    (∀ (s : Store) (env : Nat) (e : Expr) (s' : Store) (r : Except String Value),
      StoreOk s → topSafe e = true → evalExpr fuel s env e = (s', r) →
      StoreOk s' ∧ ∀ v, r = .ok v → topOk v = true) ∧
    (∀ (s : Store) (env : Nat) (st : Stmt) (s' : Store) (r : Except String Value),
      StoreOk s → pureStmt st = true → evalStmt fuel s env st = (s', r) →
      StoreOk s' ∧ ∀ v, r = .ok v → valueSafe v = true) ∧
    (∀ (s : Store) (env : Nat) (st : Stmt) (s' : Store) (r : Except String Value),
      StoreOk s → stmtSafe st = true → evalStmt fuel s env st = (s', r) →
      StoreOk s' ∧ ∀ v, r = .ok v → topOk v = true) ∧
    (∀ (s : Store) (env : Nat) (prior : Value) (stmts : List Stmt) (s' : Store)
        (r : Except String Value),
      StoreOk s → pureBlock stmts = true → valueSafe prior = true →
      evalBlockLoop fuel s env prior stmts = (s', r) →
      StoreOk s' ∧ ∀ v, r = .ok v → valueSafe v = true) ∧
    (∀ (s : Store) (env : Nat) (prior : Value) (stmts : List Stmt) (s' : Store)
        (r : Except String Value),
      StoreOk s → safeBlock stmts = true → topOk prior = true →
      evalBlockLoop fuel s env prior stmts = (s', r) →
      StoreOk s' ∧ ∀ v, r = .ok v → topOk v = true) ∧
    (∀ (s : Store) (env : Nat) (stmts : List Stmt) (s' : Store) (r : Except String Value),
      StoreOk s → pureBlock stmts = true → evalBlock fuel s env stmts = (s', r) →
      StoreOk s' ∧ ∀ v, r = .ok v → valueSafe v = true) ∧
    (∀ (s : Store) (env : Nat) (stmts : List Stmt) (s' : Store) (r : Except String Value),
      StoreOk s → safeBlock stmts = true → evalBlock fuel s env stmts = (s', r) →
      StoreOk s' ∧ ∀ v, r = .ok v → topOk v = true) ∧
    (∀ (s : Store) (env : Nat) (acc : List Value) (exps : List Expr) (s' : Store)
        (r : Except String (List Value)),
      StoreOk s → exprListSafe exps = true → valueListSafe acc = true →
      evalExpressions fuel s env acc exps = (s', r) →
      StoreOk s' ∧ ∀ vs, r = .ok vs → valueListSafe vs = true) ∧
    (∀ (s : Store) (env : Nat) (m : List (Value × Value)) (pairs : List (Expr × Expr))
        (s' : Store) (r : Except String Value),
      StoreOk s → exprPairsSafe pairs = true → valuePairsSafe m = true →
      evalHashPairs fuel s env m pairs = (s', r) →
      StoreOk s' ∧ ∀ v, r = .ok v → valueSafe v = true) ∧
    (∀ (s : Store) (fn : Value) (args : List Value) (s' : Store) (r : Except String Value),
      StoreOk s → valueSafe fn = true → valueListSafe args = true →
      applyFunction fuel s fn args = (s', r) →
      StoreOk s' ∧ ∀ v, r = .ok v → valueSafe v = true) := by
  intro fuel
  induction fuel with
  | zero =>
    refine ⟨?_, ?_, ?_, ?_, ?_, ?_, ?_, ?_, ?_, ?_, ?_⟩ <;>
      (intros
       rename_i heval
       injection heval with j1 j2
       subst j1
       subst j2
       constructor
       · assumption
       · exact fun v hv => by cases hv)
  | succ k ih =>
    obtain ⟨ih1, ih2, ih3, ih4, ih5, ih6, ih7, ih8, ih9, ih10, ih11⟩ := ih
    have H1 : ∀ (s : Store) (env : Nat) (e : Expr) (s' : Store) (r : Except String Value),
        StoreOk s → exprSafe e = true → evalExpr (k + 1) s env e = (s', r) →
        StoreOk s' ∧ ∀ v, r = .ok v → valueSafe v = true := by
      intro s env e s' r hs hsafe heval
      cases e with
      | integerLit i =>
        injection heval with j1 j2
        subst j1; subst j2
        exact ⟨hs, fun v hv => by injection hv with h; subst h; rfl⟩
      | floatLit q =>
        injection heval with j1 j2
        subst j1; subst j2
        exact ⟨hs, fun v hv => by injection hv with h; subst h; rfl⟩
      | stringLit str =>
        injection heval with j1 j2
        subst j1; subst j2
        exact ⟨hs, fun v hv => by injection hv with h; subst h; rfl⟩
      | boolLit b =>
        injection heval with j1 j2
        subst j1; subst j2
        exact ⟨hs, fun v hv => by injection hv with h; subst h; rfl⟩
      | functionLit params body =>
        simp only [exprSafe] at hsafe
        injection heval with j1 j2
        subst j1; subst j2
        exact ⟨hs, fun v hv => by
          injection hv with h
          subst h
          simpa [valueSafe] using hsafe⟩
      | identifier name =>
        injection heval with j1 j2
        subst j1; subst j2
        exact ⟨hs, fun v hv => by
          injection hv with h
          subst h
          exact evalIdentifier_safe hs env name⟩
      | prefixExpr op right =>
        simp only [exprSafe] at hsafe
        simp only [evalExpr] at heval
        rcases h1 : evalExpr k s env right with ⟨s1, r1⟩
        obtain ⟨hs1, hv1⟩ := ih1 s env right s1 r1 hs hsafe h1
        rcases r1 with m | rv
        · simp only [h1] at heval
          injection heval with j1 j2
          subst j1; subst j2
          exact ⟨hs1, fun v hv => by cases hv⟩
        · simp only [h1] at heval
          by_cases he : isError rv
          · rw [if_pos he] at heval
            injection heval with j1 j2
            subst j1; subst j2
            exact ⟨hs1, fun v hv => by
              injection hv with h
              subst h
              exact hv1 _ rfl⟩
          · rw [if_neg he] at heval
            injection heval with j1 j2
            subst j1; subst j2
            exact ⟨hs1, fun v hv => valueSafe_evalPrefixExpression op rv v hv⟩
      | infixExpr op l ri =>
        simp only [exprSafe, Bool.and_eq_true] at hsafe
        simp only [evalExpr] at heval
        rcases h1 : evalExpr k s env l with ⟨s1, r1⟩
        obtain ⟨hs1, hv1⟩ := ih1 s env l s1 r1 hs hsafe.1 h1
        rcases r1 with m | lv
        · simp only [h1] at heval
          injection heval with j1 j2
          subst j1; subst j2
          exact ⟨hs1, fun v hv => by cases hv⟩
        · simp only [h1] at heval
          by_cases he : isError lv
          · rw [if_pos he] at heval
            injection heval with j1 j2
            subst j1; subst j2
            exact ⟨hs1, fun v hv => by
              injection hv with h
              subst h
              exact hv1 _ rfl⟩
          · rw [if_neg he] at heval
            rcases h2 : evalExpr k s1 env ri with ⟨s2, r2⟩
            obtain ⟨hs2, hv2⟩ := ih1 s1 env ri s2 r2 hs1 hsafe.2 h2
            rcases r2 with m | rv
            · simp only [h2] at heval
              injection heval with j1 j2
              subst j1; subst j2
              exact ⟨hs2, fun v hv => by cases hv⟩
            · simp only [h2] at heval
              by_cases he2 : isError rv
              · rw [if_pos he2] at heval
                injection heval with j1 j2
                subst j1; subst j2
                exact ⟨hs2, fun v hv => by
                  injection hv with h
                  subst h
                  exact hv2 _ rfl⟩
              · rw [if_neg he2] at heval
                injection heval with j1 j2
                subst j1; subst j2
                exact ⟨hs2, fun v hv => valueSafe_evalInfixExpression op lv rv v hv⟩
      | ifExpr c cons alt =>
        rcases alt with _ | b <;>
          simp only [exprSafe, Bool.and_eq_true, Bool.and_true] at hsafe <;>
          simp only [evalExpr] at heval
        · rcases h1 : evalExpr k s env c with ⟨s1, r1⟩
          obtain ⟨hs1, hv1⟩ := ih1 s env c s1 r1 hs hsafe.1 h1
          rcases r1 with m | cv
          · simp only [h1] at heval
            injection heval with j1 j2
            subst j1; subst j2
            exact ⟨hs1, fun v hv => by cases hv⟩
          · simp only [h1] at heval
            by_cases he : isError cv
            · rw [if_pos he] at heval
              injection heval with j1 j2
              subst j1; subst j2
              exact ⟨hs1, fun v hv => by
                injection hv with h
                subst h
                exact hv1 _ rfl⟩
            · rw [if_neg he] at heval
              by_cases ht : isTruthy cv
              · rw [if_pos ht] at heval
                exact ih7 s1 env cons s' r hs1 hsafe.2 heval
              · rw [if_neg ht] at heval
                injection heval with j1 j2
                subst j1; subst j2
                exact ⟨hs1, fun v hv => by
                  injection hv with h
                  subst h
                  rfl⟩
        · rcases h1 : evalExpr k s env c with ⟨s1, r1⟩
          obtain ⟨hs1, hv1⟩ := ih1 s env c s1 r1 hs hsafe.1.1 h1
          rcases r1 with m | cv
          · simp only [h1] at heval
            injection heval with j1 j2
            subst j1; subst j2
            exact ⟨hs1, fun v hv => by cases hv⟩
          · simp only [h1] at heval
            by_cases he : isError cv
            · rw [if_pos he] at heval
              injection heval with j1 j2
              subst j1; subst j2
              exact ⟨hs1, fun v hv => by
                injection hv with h
                subst h
                exact hv1 _ rfl⟩
            · rw [if_neg he] at heval
              by_cases ht : isTruthy cv
              · rw [if_pos ht] at heval
                exact ih7 s1 env cons s' r hs1 hsafe.1.2 heval
              · rw [if_neg ht] at heval
                exact ih7 s1 env b s' r hs1 hsafe.2 heval
      | arrayLit elemExps =>
        simp only [exprSafe] at hsafe
        simp only [evalExpr] at heval
        rcases h1 : evalExpressions k s env [] elemExps with ⟨s1, r1⟩
        obtain ⟨hs1, hv1⟩ := ih9 s env [] elemExps s1 r1 hs hsafe rfl h1
        rcases r1 with m | vs
        · simp only [h1] at heval
          injection heval with j1 j2
          subst j1; subst j2
          exact ⟨hs1, fun v hv => by cases hv⟩
        · simp only [h1] at heval
          have hvs := hv1 vs rfl
          by_cases hb : (vs.length == 1 && isError (vs.headD .nilObj)) = true
          · rw [if_pos hb] at heval
            injection heval with j1 j2
            subst j1; subst j2
            exact ⟨hs1, fun v hv => by
              injection hv with h
              subst h
              exact valueSafe_headD_nilObj hvs⟩
          · rw [if_neg hb] at heval
            injection heval with j1 j2
            subst j1; subst j2
            exact ⟨hs1, fun v hv => by
              injection hv with h
              subst h
              simpa [valueSafe] using hvs⟩
      | hashLit pairs =>
        simp only [exprSafe] at hsafe
        simp only [evalExpr] at heval
        rcases h1 : evalHashPairs k s env [] pairs with ⟨s1, r1⟩
        obtain ⟨hs1, hv1⟩ := ih10 s env [] pairs s1 r1 hs hsafe rfl h1
        rcases r1 with m | hvv
        · simp only [h1] at heval
          by_cases hb : (m == stackOverflowMsg) = true
          · rw [if_pos hb] at heval
            injection heval with j1 j2
            subst j1; subst j2
            exact ⟨hs1, fun v hv => by cases hv⟩
          · rw [if_neg hb] at heval
            injection heval with j1 j2
            subst j1; subst j2
            exact ⟨hs1, fun v hv => by
              injection hv with h
              subst h
              rfl⟩
        · simp only [h1] at heval
          injection heval with j1 j2
          subst j1; subst j2
          exact ⟨hs1, fun v hv => by
            injection hv with h
            subst h
            exact hv1 _ rfl⟩
      | callExpr fnExp argExps =>
        simp only [exprSafe, Bool.and_eq_true] at hsafe
        simp only [evalExpr] at heval
        rcases h1 : evalExpr k s env fnExp with ⟨s1, r1⟩
        obtain ⟨hs1, hv1⟩ := ih1 s env fnExp s1 r1 hs hsafe.1 h1
        rcases r1 with m | fv
        · simp only [h1] at heval
          injection heval with j1 j2
          subst j1; subst j2
          exact ⟨hs1, fun v hv => by cases hv⟩
        · simp only [h1] at heval
          by_cases he : isError fv
          · rw [if_pos he] at heval
            injection heval with j1 j2
            subst j1; subst j2
            exact ⟨hs1, fun v hv => by
              injection hv with h
              subst h
              exact hv1 _ rfl⟩
          · rw [if_neg he] at heval
            rcases h2 : evalExpressions k s1 env [] argExps with ⟨s2, r2⟩
            obtain ⟨hs2, hv2⟩ := ih9 s1 env [] argExps s2 r2 hs1 hsafe.2 rfl h2
            rcases r2 with m | args
            · simp only [h2] at heval
              injection heval with j1 j2
              subst j1; subst j2
              exact ⟨hs2, fun v hv => by cases hv⟩
            · simp only [h2] at heval
              have hargs := hv2 args rfl
              by_cases hb : (args.length == 1 && isError (args.headD .nilObj)) = true
              · rw [if_pos hb] at heval
                injection heval with j1 j2
                subst j1; subst j2
                exact ⟨hs2, fun v hv => by
                  injection hv with h
                  subst h
                  exact valueSafe_headD_nilObj hargs⟩
              · rw [if_neg hb] at heval
                exact ih11 s2 fv args s' r hs2 (hv1 fv rfl) hargs heval
      | indexExpr l i =>
        simp only [exprSafe, Bool.and_eq_true] at hsafe
        simp only [evalExpr] at heval
        rcases h1 : evalExpr k s env l with ⟨s1, r1⟩
        obtain ⟨hs1, hv1⟩ := ih1 s env l s1 r1 hs hsafe.1 h1
        rcases r1 with m | lv
        · simp only [h1] at heval
          injection heval with j1 j2
          subst j1; subst j2
          exact ⟨hs1, fun v hv => by cases hv⟩
        · simp only [h1] at heval
          by_cases he : isError lv
          · rw [if_pos he] at heval
            injection heval with j1 j2
            subst j1; subst j2
            exact ⟨hs1, fun v hv => by
              injection hv with h
              subst h
              exact hv1 _ rfl⟩
          · rw [if_neg he] at heval
            rcases h2 : evalExpr k s1 env i with ⟨s2, r2⟩
            obtain ⟨hs2, hv2⟩ := ih1 s1 env i s2 r2 hs1 hsafe.2 h2
            rcases r2 with m | iv
            · simp only [h2] at heval
              injection heval with j1 j2
              subst j1; subst j2
              exact ⟨hs2, fun v hv => by cases hv⟩
            · simp only [h2] at heval
              by_cases he2 : isError iv
              · rw [if_pos he2] at heval
                injection heval with j1 j2
                subst j1; subst j2
                exact ⟨hs2, fun v hv => by
                  injection hv with h
                  subst h
                  exact hv2 _ rfl⟩
              · rw [if_neg he2] at heval
                injection heval with j1 j2
                subst j1; subst j2
                exact ⟨hs2, fun v hv =>
                  valueSafe_evalIndexExpression lv iv v (hv1 lv rfl) (hv2 iv rfl) hv⟩
    have H2 : ∀ (s : Store) (env : Nat) (e : Expr) (s' : Store) (r : Except String Value),
        StoreOk s → topSafe e = true → evalExpr (k + 1) s env e = (s', r) →
        StoreOk s' ∧ ∀ v, r = .ok v → topOk v = true := by
      intro s env e s' r hs hsafe heval
      cases e
      case ifExpr c cons alt =>
        rcases alt with _ | b <;>
          simp only [topSafe, Bool.and_eq_true, Bool.and_true] at hsafe <;>
          simp only [evalExpr] at heval
        · rcases h1 : evalExpr k s env c with ⟨s1, r1⟩
          obtain ⟨hs1, hv1⟩ := ih1 s env c s1 r1 hs hsafe.1 h1
          rcases r1 with m | cv
          · simp only [h1] at heval
            injection heval with j1 j2
            subst j1; subst j2
            exact ⟨hs1, fun v hv => by cases hv⟩
          · simp only [h1] at heval
            by_cases he : isError cv
            · rw [if_pos he] at heval
              injection heval with j1 j2
              subst j1; subst j2
              exact ⟨hs1, fun v hv => by
                injection hv with h
                subst h
                exact valueSafe_topOk (hv1 _ rfl)⟩
            · rw [if_neg he] at heval
              by_cases ht : isTruthy cv
              · rw [if_pos ht] at heval
                exact ih8 s1 env cons s' r hs1 hsafe.2 heval
              · rw [if_neg ht] at heval
                injection heval with j1 j2
                subst j1; subst j2
                exact ⟨hs1, fun v hv => by
                  injection hv with h
                  subst h
                  rfl⟩
        · rcases h1 : evalExpr k s env c with ⟨s1, r1⟩
          obtain ⟨hs1, hv1⟩ := ih1 s env c s1 r1 hs hsafe.1.1 h1
          rcases r1 with m | cv
          · simp only [h1] at heval
            injection heval with j1 j2
            subst j1; subst j2
            exact ⟨hs1, fun v hv => by cases hv⟩
          · simp only [h1] at heval
            by_cases he : isError cv
            · rw [if_pos he] at heval
              injection heval with j1 j2
              subst j1; subst j2
              exact ⟨hs1, fun v hv => by
                injection hv with h
                subst h
                exact valueSafe_topOk (hv1 _ rfl)⟩
            · rw [if_neg he] at heval
              by_cases ht : isTruthy cv
              · rw [if_pos ht] at heval
                exact ih8 s1 env cons s' r hs1 hsafe.1.2 heval
              · rw [if_neg ht] at heval
                exact ih8 s1 env b s' r hs1 hsafe.2 heval
      all_goals
        simp only [topSafe] at hsafe
        obtain ⟨hs2, hv⟩ := H1 _ _ _ _ _ hs hsafe heval
        exact ⟨hs2, fun v hv2 => valueSafe_topOk (hv v hv2)⟩
    have H3 : ∀ (s : Store) (env : Nat) (st : Stmt) (s' : Store) (r : Except String Value),
        StoreOk s → pureStmt st = true → evalStmt (k + 1) s env st = (s', r) →
        StoreOk s' ∧ ∀ v, r = .ok v → valueSafe v = true := by
      intro s env st s' r hs hsafe heval
      cases st with
      | exprStmt e =>
        simp only [evalStmt] at heval
        exact ih1 s env e s' r hs hsafe heval
      | letStmt name vExp =>
        simp only [pureStmt] at hsafe
        simp only [evalStmt] at heval
        rcases h1 : evalExpr k s env vExp with ⟨s1, r1⟩
        obtain ⟨hs1, hv1⟩ := ih1 s env vExp s1 r1 hs hsafe h1
        rcases r1 with m | v0
        · simp only [h1] at heval
          injection heval with j1 j2
          subst j1; subst j2
          exact ⟨hs1, fun v hv => by cases hv⟩
        · simp only [h1] at heval
          by_cases he : isError v0
          · rw [if_pos he] at heval
            injection heval with j1 j2
            subst j1; subst j2
            exact ⟨hs1, fun v hv => by
              injection hv with h
              subst h
              exact hv1 _ rfl⟩
          · rw [if_neg he] at heval
            injection heval with j1 j2
            subst j1; subst j2
            exact ⟨StoreOk_envSet hs1 env name (hv1 _ rfl), fun v hv => by
              injection hv with h
              subst h
              rfl⟩
      | returnStmt vExp => simp [pureStmt] at hsafe
    have H4 : ∀ (s : Store) (env : Nat) (st : Stmt) (s' : Store) (r : Except String Value),
        StoreOk s → stmtSafe st = true → evalStmt (k + 1) s env st = (s', r) →
        StoreOk s' ∧ ∀ v, r = .ok v → topOk v = true := by
      intro s env st s' r hs hsafe heval
      cases st with
      | exprStmt e =>
        simp only [evalStmt] at heval
        exact ih2 s env e s' r hs hsafe heval
      | letStmt name vExp =>
        simp only [stmtSafe] at hsafe
        simp only [evalStmt] at heval
        rcases h1 : evalExpr k s env vExp with ⟨s1, r1⟩
        obtain ⟨hs1, hv1⟩ := ih1 s env vExp s1 r1 hs hsafe h1
        rcases r1 with m | v0
        · simp only [h1] at heval
          injection heval with j1 j2
          subst j1; subst j2
          exact ⟨hs1, fun v hv => by cases hv⟩
        · simp only [h1] at heval
          by_cases he : isError v0
          · rw [if_pos he] at heval
            injection heval with j1 j2
            subst j1; subst j2
            exact ⟨hs1, fun v hv => by
              injection hv with h
              subst h
              exact valueSafe_topOk (hv1 _ rfl)⟩
          · rw [if_neg he] at heval
            injection heval with j1 j2
            subst j1; subst j2
            exact ⟨StoreOk_envSet hs1 env name (hv1 _ rfl), fun v hv => by
              injection hv with h
              subst h
              rfl⟩
      | returnStmt vExp =>
        simp only [stmtSafe] at hsafe
        simp only [evalStmt] at heval
        rcases h1 : evalExpr k s env vExp with ⟨s1, r1⟩
        obtain ⟨hs1, hv1⟩ := ih1 s env vExp s1 r1 hs hsafe h1
        rcases r1 with m | v0
        · simp only [h1] at heval
          injection heval with j1 j2
          subst j1; subst j2
          exact ⟨hs1, fun v hv => by cases hv⟩
        · simp only [h1] at heval
          by_cases he : isError v0
          · rw [if_pos he] at heval
            injection heval with j1 j2
            subst j1; subst j2
            exact ⟨hs1, fun v hv => by
              injection hv with h
              subst h
              exact valueSafe_topOk (hv1 _ rfl)⟩
          · rw [if_neg he] at heval
            injection heval with j1 j2
            subst j1; subst j2
            exact ⟨hs1, fun v hv => by
              injection hv with h
              subst h
              simpa [topOk] using hv1 _ rfl⟩
    have H5 : ∀ (s : Store) (env : Nat) (prior : Value) (stmts : List Stmt) (s' : Store)
        (r : Except String Value),
        StoreOk s → pureBlock stmts = true → valueSafe prior = true →
        evalBlockLoop (k + 1) s env prior stmts = (s', r) →
        StoreOk s' ∧ ∀ v, r = .ok v → valueSafe v = true := by
      intro s env prior stmts s' r hs hsafe hprior heval
      cases stmts with
      | nil =>
        injection heval with j1 j2
        subst j1; subst j2
        exact ⟨hs, fun v hv => by
          injection hv with h
          subst h
          exact hprior⟩
      | cons st rest =>
        have hsp : pureStmt st = true ∧ pureBlock rest = true := by
          cases st with
          | letStmt n v => simpa [pureBlock, pureStmt, Bool.and_eq_true] using hsafe
          | returnStmt v => exact absurd hsafe (by simp [pureBlock])
          | exprStmt e => simpa [pureBlock, pureStmt, Bool.and_eq_true] using hsafe
        obtain ⟨hst, hrest⟩ := hsp
        simp only [evalBlockLoop] at heval
        rcases h1 : evalStmt k s env st with ⟨s1, r1⟩
        obtain ⟨hs1, hv1⟩ := ih3 s env st s1 r1 hs hst h1
        rcases r1 with m | v0
        · simp only [h1] at heval
          injection heval with j1 j2
          subst j1; subst j2
          exact ⟨hs1, fun v hv => by cases hv⟩
        · simp only [h1] at heval
          have hv0 := hv1 v0 rfl
          cases v0
          case returnValue w => simp [valueSafe] at hv0
          case error msg =>
            simp only [goType] at heval
            injection heval with j1 j2
            subst j1; subst j2
            exact ⟨hs1, fun v hv => by
              injection hv with h
              subst h
              exact hv0⟩
          all_goals
            simp only [goType] at heval
            exact ih5 _ _ _ _ _ _ hs1 hrest hv0 heval
    have H6 : ∀ (s : Store) (env : Nat) (prior : Value) (stmts : List Stmt) (s' : Store)
        (r : Except String Value),
        StoreOk s → safeBlock stmts = true → topOk prior = true →
        evalBlockLoop (k + 1) s env prior stmts = (s', r) →
        StoreOk s' ∧ ∀ v, r = .ok v → topOk v = true := by
      intro s env prior stmts s' r hs hsafe hprior heval
      cases stmts with
      | nil =>
        injection heval with j1 j2
        subst j1; subst j2
        exact ⟨hs, fun v hv => by
          injection hv with h
          subst h
          exact hprior⟩
      | cons st rest =>
        have hsp : stmtSafe st = true ∧ safeBlock rest = true := by
          cases st with
          | letStmt n v => simpa [safeBlock, stmtSafe, Bool.and_eq_true] using hsafe
          | returnStmt v => simpa [safeBlock, stmtSafe, Bool.and_eq_true] using hsafe
          | exprStmt e => simpa [safeBlock, stmtSafe, Bool.and_eq_true] using hsafe
        obtain ⟨hst, hrest⟩ := hsp
        simp only [evalBlockLoop] at heval
        rcases h1 : evalStmt k s env st with ⟨s1, r1⟩
        obtain ⟨hs1, hv1⟩ := ih4 s env st s1 r1 hs hst h1
        rcases r1 with m | v0
        · simp only [h1] at heval
          injection heval with j1 j2
          subst j1; subst j2
          exact ⟨hs1, fun v hv => by cases hv⟩
        · simp only [h1] at heval
          have hv0 := hv1 v0 rfl
          cases v0
          case returnValue w =>
            simp only [goType] at heval
            injection heval with j1 j2
            subst j1; subst j2
            exact ⟨hs1, fun v hv => by
              injection hv with h
              subst h
              exact hv0⟩
          case error msg =>
            simp only [goType] at heval
            injection heval with j1 j2
            subst j1; subst j2
            exact ⟨hs1, fun v hv => by
              injection hv with h
              subst h
              exact hv0⟩
          all_goals
            simp only [goType] at heval
            exact ih6 _ _ _ _ _ _ hs1 hrest hv0 heval
    have H7 : ∀ (s : Store) (env : Nat) (stmts : List Stmt) (s' : Store)
        (r : Except String Value),
        StoreOk s → pureBlock stmts = true → evalBlock (k + 1) s env stmts = (s', r) →
        StoreOk s' ∧ ∀ v, r = .ok v → valueSafe v = true := by
      intro s env stmts s' r hs hsafe heval
      simp only [evalBlock] at heval
      exact ih5 s env .nilObj stmts s' r hs hsafe rfl heval
    have H8 : ∀ (s : Store) (env : Nat) (stmts : List Stmt) (s' : Store)
        (r : Except String Value),
        StoreOk s → safeBlock stmts = true → evalBlock (k + 1) s env stmts = (s', r) →
        StoreOk s' ∧ ∀ v, r = .ok v → topOk v = true := by
      intro s env stmts s' r hs hsafe heval
      simp only [evalBlock] at heval
      exact ih6 s env .nilObj stmts s' r hs hsafe rfl heval
    have H9 : ∀ (s : Store) (env : Nat) (acc : List Value) (exps : List Expr) (s' : Store)
        (r : Except String (List Value)),
        StoreOk s → exprListSafe exps = true → valueListSafe acc = true →
        evalExpressions (k + 1) s env acc exps = (s', r) →
        StoreOk s' ∧ ∀ vs, r = .ok vs → valueListSafe vs = true := by
      intro s env acc exps s' r hs hsafe hacc heval
      cases exps with
      | nil =>
        injection heval with j1 j2
        subst j1; subst j2
        exact ⟨hs, fun vs hv => by
          injection hv with h
          subst h
          exact hacc⟩
      | cons e rest =>
        simp only [exprListSafe, Bool.and_eq_true] at hsafe
        simp only [evalExpressions] at heval
        rcases h1 : evalExpr k s env e with ⟨s1, r1⟩
        obtain ⟨hs1, hv1⟩ := ih1 s env e s1 r1 hs hsafe.1 h1
        rcases r1 with m | v0
        · simp only [h1] at heval
          injection heval with j1 j2
          subst j1; subst j2
          exact ⟨hs1, fun vs hv => by cases hv⟩
        · simp only [h1] at heval
          have hv0 := hv1 v0 rfl
          by_cases he : isError v0
          · rw [if_pos he] at heval
            injection heval with j1 j2
            subst j1; subst j2
            exact ⟨hs1, fun vs hv => by
              injection hv with h
              subst h
              simp [valueListSafe, hv0]⟩
          · rw [if_neg he] at heval
            exact ih9 s1 env (acc ++ [v0]) rest s' r hs1 hsafe.2
              (valueListSafe_append hacc (by simp [valueListSafe, hv0])) heval
    have H10 : ∀ (s : Store) (env : Nat) (m : List (Value × Value))
        (pairs : List (Expr × Expr)) (s' : Store) (r : Except String Value),
        StoreOk s → exprPairsSafe pairs = true → valuePairsSafe m = true →
        evalHashPairs (k + 1) s env m pairs = (s', r) →
        StoreOk s' ∧ ∀ v, r = .ok v → valueSafe v = true := by
      intro s env m pairs s' r hs hsafe hm heval
      cases pairs with
      | nil =>
        injection heval with j1 j2
        subst j1; subst j2
        exact ⟨hs, fun v hv => by
          injection hv with h
          subst h
          simpa [valueSafe] using hm⟩
      | cons kv rest =>
        obtain ⟨kExp, vExp⟩ := kv
        simp only [exprPairsSafe, Bool.and_eq_true] at hsafe
        simp only [evalHashPairs] at heval
        rcases h1 : evalExpr k s env kExp with ⟨s1, r1⟩
        obtain ⟨hs1, hv1⟩ := ih1 s env kExp s1 r1 hs hsafe.1.1 h1
        rcases r1 with msg | kv0
        · simp only [h1] at heval
          injection heval with j1 j2
          subst j1; subst j2
          exact ⟨hs1, fun v hv => by cases hv⟩
        · simp only [h1] at heval
          by_cases he : isError kv0
          · rw [if_pos he] at heval
            injection heval with j1 j2
            subst j1; subst j2
            exact ⟨hs1, fun v hv => by
              injection hv with h
              subst h
              exact hv1 _ rfl⟩
          · rw [if_neg he] at heval
            rcases h2 : evalExpr k s1 env vExp with ⟨s2, r2⟩
            obtain ⟨hs2, hv2⟩ := ih1 s1 env vExp s2 r2 hs1 hsafe.1.2 h2
            rcases r2 with msg | vv0
            · simp only [h2] at heval
              injection heval with j1 j2
              subst j1; subst j2
              exact ⟨hs2, fun v hv => by cases hv⟩
            · simp only [h2] at heval
              by_cases he2 : isError vv0
              · rw [if_pos he2] at heval
                injection heval with j1 j2
                subst j1; subst j2
                exact ⟨hs2, fun v hv => by
                  injection hv with h
                  subst h
                  exact hv2 _ rfl⟩
              · rw [if_neg he2] at heval
                rcases h3 : hashInsert m kv0 vv0 with msg | m2
                · simp only [h3] at heval
                  injection heval with j1 j2
                  subst j1; subst j2
                  exact ⟨hs2, fun v hv => by cases hv⟩
                · simp only [h3] at heval
                  have hm2 : valuePairsSafe m2 = true := by
                    rw [hashInsert_ok h3]
                    exact valuePairsSafe_pairsSet hm (hv1 _ rfl) (hv2 _ rfl)
                  exact ih10 s2 env m2 rest s' r hs2 hsafe.2 hm2 heval
    have H11 : ∀ (s : Store) (fn : Value) (args : List Value) (s' : Store)
        (r : Except String Value),
        StoreOk s → valueSafe fn = true → valueListSafe args = true →
        applyFunction (k + 1) s fn args = (s', r) →
        StoreOk s' ∧ ∀ v, r = .ok v → valueSafe v = true := by
      intro s fn args s' r hs hfn hargs heval
      cases fn
      case function params body envRef =>
        simp only [valueSafe] at hfn
        simp only [applyFunction, extendFunctionEnv_eq] at heval
        rcases hsp : setParams (s ++ [{ table := [], parent := some envRef }])
            s.length params args with ⟨s2, r2⟩
        have hs2 : StoreOk s2 := by
          have h := StoreOk_setParams params
            (s ++ [{ table := [], parent := some envRef }]) s.length args
            (StoreOk_append hs _) hargs
          rwa [hsp] at h
        rcases r2 with m | u
        · simp only [hsp] at heval
          injection heval with j1 j2
          subst j1; subst j2
          exact ⟨hs2, fun v hv => by cases hv⟩
        · simp only [hsp] at heval
          rcases hb : evalBlock k s2 s.length body with ⟨s3, r3⟩
          obtain ⟨hs3, hv3⟩ := ih8 s2 s.length body s3 r3 hs2 hfn hb
          rcases r3 with m | v0
          · simp only [hb] at heval
            injection heval with j1 j2
            subst j1; subst j2
            exact ⟨hs3, fun v hv => by cases hv⟩
          · simp only [hb] at heval
            injection heval with j1 j2
            subst j1; subst j2
            exact ⟨hs3, fun v hv => by
              injection hv with h
              subst h
              exact topOk_unwrap (hv3 v0 rfl)⟩
      case builtinFn name =>
        simp only [applyFunction] at heval
        injection heval with j1 j2
        subst j1; subst j2
        exact ⟨hs, fun v hv => valueSafe_applyBuiltin name args v hargs hv⟩
      case nilObj =>
        simp only [applyFunction] at heval
        injection heval with j1 j2
        subst j1; subst j2
        exact ⟨hs, fun v hv => by cases hv⟩
      all_goals
        simp only [applyFunction] at heval
        injection heval with j1 j2
        subst j1; subst j2
        exact ⟨hs, fun v hv => by
          injection hv with h
          subst h
          rfl⟩
    exact ⟨H1, H2, H3, H4, H5, H6, H7, H8, H9, H10, H11⟩


theorem evalProgramLoop_safe : ∀ (fuel : Nat) (s : Store) (env : Nat) (prior : Value)
    (stmts : List Stmt) (s' : Store) (r : Except String Value),
    StoreOk s → safeBlock stmts = true → valueSafe prior = true →
    evalProgramLoop fuel s env prior stmts = (s', r) →
    ∀ v, r = .ok v → valueSafe v = true := by
  intro fuel
  induction fuel with
  | zero =>
    intro s env prior stmts s' r _ _ _ heval v hv
    injection heval with j1 j2
    subst j2
    cases hv
  | succ k ih =>
    intro s env prior stmts s' r hs hsafe hprior heval
    cases stmts with
    | nil =>
      injection heval with j1 j2
      subst j2
      intro v hv
      injection hv with h
      subst h
      exact hprior
    | cons st rest =>
      have hsp : stmtSafe st = true ∧ safeBlock rest = true := by
        cases st with
        | letStmt n v => simpa [safeBlock, stmtSafe, Bool.and_eq_true] using hsafe
        | returnStmt v => simpa [safeBlock, stmtSafe, Bool.and_eq_true] using hsafe
        | exprStmt e => simpa [safeBlock, stmtSafe, Bool.and_eq_true] using hsafe
      obtain ⟨hst, hrest⟩ := hsp
      simp only [evalProgramLoop] at heval
      rcases h1 : evalStmt k s env st with ⟨s1, r1⟩
      obtain ⟨hs1, hv1⟩ := (evalSafe k).2.2.2.1 s env st s1 r1 hs hst h1
      rcases r1 with m | v0
      · simp only [h1] at heval
        injection heval with j1 j2
        subst j2
        intro v hv
        cases hv
      · simp only [h1] at heval
        have hv0 := hv1 v0 rfl
        cases v0
        case returnValue w =>
          injection heval with j1 j2
          subst j2
          intro v hv
          injection hv with h
          subst h
          simpa [topOk] using hv0
        case error msg =>
          injection heval with j1 j2
          subst j2
          intro v hv
          injection hv with h
          subst h
          rfl
        all_goals exact ih _ _ _ _ _ _ hs1 hrest (by simpa [topOk] using hv0) heval

/-- C2 counterexample: the program `return if (true) { return 5; };` evaluates to a
value of type `RETURN_VALUE` — the `return` statement wraps a result that is already
a `ReturnValue`, and `evalProgram` unwraps only one layer, so a `ReturnValue` DOES
escape to the caller of program evaluation. -/
theorem C2_counterexample :
    (runEval 12 [Stmt.returnStmt
        (.ifExpr (.boolLit true) [.returnStmt (.integerLit 5)] none)]).2
      = .ok (.returnValue (.integer 5)) ∧
    goType (Value.returnValue (.integer 5)) = some .RETURN_VALUE := ⟨rfl, rfl⟩

/-- C2 (amended): program and function boundaries unwrap exactly one `ReturnValue`
layer, so the claimed containment DOES hold for programs in which if-expressions
containing `return` statements appear only in statement position (predicate
`safeBlock`, which in particular covers every program where `return` operands and
expression values are return-free): the result of evaluating such a program carries
no `ReturnValue` wrapper anywhere and in particular is never of type `RETURN_VALUE`. -/
theorem C2_return_containment (fuel : Nat) (prog : Program) (s' : Store) (v : Value)
    (hsafe : safeBlock prog = true)
    (heval : runEval fuel prog = (s', .ok v)) :
    valueSafe v = true ∧ goType v ≠ some .RETURN_VALUE := by
  cases fuel with
  | zero => simp [runEval, evalProgram] at heval
  | succ k =>
    have hv : valueSafe v = true :=
      evalProgramLoop_safe k initialStore 0 .nilObj prog s' (.ok v) StoreOk_initial hsafe rfl
        (by simpa [runEval, evalProgram] using heval) v rfl
    refine ⟨hv, ?_⟩
    cases v <;> simp_all [goType, valueSafe]

/-- Witness for C2 (amended): the safe program `if (true) { return 5; }` (the
if in statement position) evaluates to the plain integer 5, not a RETURN_VALUE. -/
theorem C2_return_containment_witness :
    safeBlock [Stmt.exprStmt (.ifExpr (.boolLit true) [.returnStmt (.integerLit 5)] none)]
      = true ∧
    (valueSafe (Value.integer 5) = true ∧ goType (Value.integer 5) ≠ some .RETURN_VALUE) :=
  ⟨by simp [safeBlock, topSafe, exprSafe], C2_return_containment 12
    [Stmt.exprStmt (.ifExpr (.boolLit true) [.returnStmt (.integerLit 5)] none)]
    (runEval 12 [Stmt.exprStmt (.ifExpr (.boolLit true) [.returnStmt (.integerLit 5)] none)]).1
    (.integer 5) (by simp [safeBlock, topSafe, exprSafe]) rfl⟩


/-- Modelled from the spec: the compiler and VM packages are absent from src/
(only vm_test.go survives), so the bytecode backend of sections 4.4-4.5 is
modelled from the spec's words. Instructions are a structured list with
decoded operands (the spec's u16/u8 big-endian byte encoding is abstracted,
as section 4.5 allows: "behavior must not depend on dispatch mechanism");
jump targets are absolute instruction indices as in the spec's
`set ip = target`. -/
inductive Instr where
  | constant (idx : Nat)
  | pop
  | add
  | sub
  | mul
  | div
  | tru
  | fls
  | null
  | eq
  | neq
  | gt
  | minus
  | bang
  | jump (target : Nat)
  | jumpNotTruthy (target : Nat)
  | setGlobal (idx : Nat)
  | getGlobal (idx : Nat)
  | setLocal (idx : Nat)
  | getLocal (idx : Nat)
  | array (n : Nat)
  | hash (n : Nat)
  | index
  | call (numArgs : Nat)
  | returnValue
  | ret
deriving Repr

/-- Modelled from the spec: a VM-side value is either an ordinary runtime
`Value` or a `CompiledFunction{instructions, num_locals, num_params}`
(section 3's value list names it as the VM backend's extra variant). -/
inductive VmValue where
  | val (v : Value)
  | compiledFn (instrs : List Instr) (numLocals numParams : Nat)
deriving Repr

/-- Index of the LAST definition of `n` in one symbol-table scope (defining a
name again shadows the earlier slot, as a map write would). -/
def lastIdxOf : List String → String → Option Nat
  | [], _ => none
  | a :: rest, n =>
    match lastIdxOf rest n with
    | some i => some (i + 1)
    | none => if a == n then some 0 else none

/-- Modelled from the spec: symbol resolution "walks outward; the current
minimum spec supports `Global` and `Local` scopes" (section 4.4) — the head
scope is the innermost, the last is global, and a hit is `Global` exactly when
it is in the outermost scope. There is no free-variable scope: a hit in an
enclosing function's scope is still reported as a plain `Local` slot. -/
def symResolve : List (List String) → String → Option (Bool × Nat)
  | [], _ => none
  | sc :: rest, n =>
    match lastIdxOf sc n with
    | some i => some (rest.isEmpty, i)
    | none => symResolve rest n

/-- Modelled from the spec: compiler state — the growing constant pool and the
symbol-table scope stack (head innermost; "the top scope is global; entering a
function literal pushes a new scope whose parameters occupy the first local
slots", section 4.4). -/
structure CState where
  constants : List VmValue
  scopes : List (List String)
deriving Repr

/-- The infix operators compiled directly to a VM opcode (section 4.5's
table); `<` is instead "compiled by swapping operands and using
`OpGreaterThan`". -/
def binInstrOf (op : String) : Option Instr :=
  if op == "+" then some .add
  else if op == "-" then some .sub
  else if op == "*" then some .mul
  else if op == "/" then some .div
  else if op == ">" then some .gt
  else if op == "==" then some .eq
  else if op == "!=" then some .neq
  else none

/-- Drop a trailing `OpPop` (section 4.4's peephole rule for `If` branches:
"if its last emitted instruction is `OpPop`, remove it"). -/
def stripPop (c : List Instr) : List Instr :=
  match c.getLast? with
  | some .pop => c.dropLast
  | _ => c

/-- Define a new symbol in the innermost scope; returns its slot index, the
instruction that stores into it, and the updated scope stack. -/
def symDefine (scopes : List (List String)) (name : String) : Nat × Instr × List (List String) :=
  let sc := scopes.head?.getD []
  let idx := sc.length
  let ins := if scopes.length ≤ 1 then Instr.setGlobal idx else Instr.setLocal idx
  (idx, ins, (sc ++ [name]) :: scopes.tail)

mutual
/-- Modelled from the spec: compile an expression at absolute offset `off`
(used only to compute jump targets), threading the compiler state. Fuel is
consumed one unit per recursion level exactly as in the evaluator. -/
def compileExpr : Nat → Nat → CState → Expr → Except String (List Instr × CState)
  | 0, _, _, _ => .error stackOverflowMsg
  | fuel + 1, off, st, e =>
    match e with
    | .integerLit i =>
      .ok ([.constant st.constants.length],
           { st with constants := st.constants ++ [.val (.integer i)] })
    | .floatLit q =>
      .ok ([.constant st.constants.length],
           { st with constants := st.constants ++ [.val (.float q)] })
    | .stringLit s =>
      .ok ([.constant st.constants.length],
           { st with constants := st.constants ++ [.val (.str s)] })
    | .boolLit b => .ok ([if b then .tru else .fls], st)
    | .identifier name =>
      match symResolve st.scopes name with
      | some (true, i) => .ok ([.getGlobal i], st)
      | some (false, i) => .ok ([.getLocal i], st)
      | none => .error ("undefined variable " ++ name)
    | .prefixExpr op r =>
      match compileExpr fuel off st r with
      | .error m => .error m
      | .ok (rcode, st2) =>
        if op == "!" then .ok (rcode ++ [.bang], st2)
        else if op == "-" then .ok (rcode ++ [.minus], st2)
        else .error ("unknown operator " ++ op)
    | .infixExpr op l r =>
      if op == "<" then
        match compileExpr fuel off st r with
        | .error m => .error m
        | .ok (rcode, st2) =>
          match compileExpr fuel (off + rcode.length) st2 l with
          | .error m => .error m
          | .ok (lcode, st3) => .ok (rcode ++ lcode ++ [.gt], st3)
      else
        match binInstrOf op with
        | none => .error ("unknown operator " ++ op)
        | some ins =>
          match compileExpr fuel off st l with
          | .error m => .error m
          | .ok (lcode, st2) =>
            match compileExpr fuel (off + lcode.length) st2 r with
            | .error m => .error m
            | .ok (rcode, st3) => .ok (lcode ++ rcode ++ [ins], st3)
    | .ifExpr c cons alt =>
      match compileExpr fuel off st c with
      | .error m => .error m
      | .ok (condCode, st2) =>
        let jntPos := off + condCode.length
        match compileStmts fuel (jntPos + 1) st2 cons with
        | .error m => .error m
        | .ok (consRaw, st3) =>
          let consCode := stripPop consRaw
          let jumpPos := jntPos + 1 + consCode.length
          let altOff := jumpPos + 1
          match
            (match alt with
             | none => .ok ([Instr.null], st3)
             | some b =>
               match compileStmts fuel altOff st3 b with
               | .error m => .error m
               | .ok (altRaw, st4) => .ok (stripPop altRaw, st4)
             : Except String (List Instr × CState)) with
          | .error m => .error m
          | .ok (altCode, st4) =>
            .ok (condCode ++ [.jumpNotTruthy altOff] ++ consCode
                   ++ [.jump (altOff + altCode.length)] ++ altCode, st4)
    | .functionLit params body =>
      match compileStmts fuel 0 { st with scopes := params :: st.scopes } body with
      | .error m => .error m
      | .ok (raw, st2) =>
        let bodyCode :=
          match raw.getLast? with
          | some .pop => raw.dropLast ++ [.returnValue]
          | _ => raw ++ [.ret]
        let numLocals := (st2.scopes.head?.getD []).length
        let st3 : CState := { constants := st2.constants, scopes := st2.scopes.tail }
        .ok ([.constant st3.constants.length],
             { st3 with constants :=
                st3.constants ++ [.compiledFn bodyCode numLocals params.length] })
    | .arrayLit es =>
      match compileExprList fuel off st es with
      | .error m => .error m
      | .ok (code, st2) => .ok (code ++ [.array es.length], st2)
    | .hashLit ps =>
      match compileExprPairs fuel off st ps with
      | .error m => .error m
      | .ok (code, st2) => .ok (code ++ [.hash (2 * ps.length)], st2)
    | .callExpr f args =>
      match compileExpr fuel off st f with
      | .error m => .error m
      | .ok (fcode, st2) =>
        match compileExprList fuel (off + fcode.length) st2 args with
        | .error m => .error m
        | .ok (acode, st3) => .ok (fcode ++ acode ++ [.call args.length], st3)
    | .indexExpr l i =>
      match compileExpr fuel off st l with
      | .error m => .error m
      | .ok (lcode, st2) =>
        match compileExpr fuel (off + lcode.length) st2 i with
        | .error m => .error m
        | .ok (icode, st3) => .ok (lcode ++ icode ++ [.index], st3)
termination_by structural fuel _ _ _ => fuel

/-- Modelled from the spec: compile one statement (expression statements keep
their trailing `OpPop`; `let` compiles its value and then defines the symbol;
`return` emits `OpReturnValue`). -/
def compileStmt : Nat → Nat → CState → Stmt → Except String (List Instr × CState)
  | 0, _, _, _ => .error stackOverflowMsg
  | fuel + 1, off, st, stmt =>
    match stmt with
    | .exprStmt e =>
      match compileExpr fuel off st e with
      | .error m => .error m
      | .ok (code, st2) => .ok (code ++ [.pop], st2)
    | .letStmt name v =>
      match compileExpr fuel off st v with
      | .error m => .error m
      | .ok (code, st2) =>
        match symDefine st2.scopes name with
        | (_, ins, scopes2) => .ok (code ++ [ins], { st2 with scopes := scopes2 })
    | .returnStmt v =>
      match compileExpr fuel off st v with
      | .error m => .error m
      | .ok (code, st2) => .ok (code ++ [.returnValue], st2)
termination_by structural fuel _ _ _ => fuel

/-- Compile a statement sequence, accumulating code and offsets. -/
def compileStmts : Nat → Nat → CState → List Stmt → Except String (List Instr × CState)
  | 0, _, _, _ => .error stackOverflowMsg
  | _ + 1, _, st, [] => .ok ([], st)
  | fuel + 1, off, st, s :: rest =>
    match compileStmt fuel off st s with
    | .error m => .error m
    | .ok (code, st2) =>
      match compileStmts fuel (off + code.length) st2 rest with
      | .error m => .error m
      | .ok (code2, st3) => .ok (code ++ code2, st3)
termination_by structural fuel _ _ _ => fuel

/-- Compile an expression list left to right (call arguments, array
elements). -/
def compileExprList : Nat → Nat → CState → List Expr → Except String (List Instr × CState)
  | 0, _, _, _ => .error stackOverflowMsg
  | _ + 1, _, st, [] => .ok ([], st)
  | fuel + 1, off, st, e :: rest =>
    match compileExpr fuel off st e with
    | .error m => .error m
    | .ok (code, st2) =>
      match compileExprList fuel (off + code.length) st2 rest with
      | .error m => .error m
      | .ok (code2, st3) => .ok (code ++ code2, st3)
termination_by structural fuel _ _ _ => fuel

/-- Compile hash-literal pairs in source order, key then value. -/
def compileExprPairs : Nat → Nat → CState → List (Expr × Expr) →
    Except String (List Instr × CState)
  | 0, _, _, _ => .error stackOverflowMsg
  | _ + 1, _, st, [] => .ok ([], st)
  | fuel + 1, off, st, (k, v) :: rest =>
    match compileExpr fuel off st k with
    | .error m => .error m
    | .ok (kcode, st2) =>
      match compileExpr fuel (off + kcode.length) st2 v with
      | .error m => .error m
      | .ok (vcode, st3) =>
        match compileExprPairs fuel (off + kcode.length + vcode.length) st3 rest with
        | .error m => .error m
        | .ok (code2, st4) => .ok (kcode ++ vcode ++ code2, st4)
termination_by structural fuel _ _ _ => fuel
end

/-- Modelled from the spec: compile a whole program in a fresh compiler state
(empty constant pool, a single empty global scope), producing the main-frame
instructions and the final constant pool. -/
def compileProgram : Nat → Program → Except String (List Instr × List VmValue)
  | 0, _ => .error stackOverflowMsg
  | fuel + 1, prog =>
    match compileStmts fuel 0 { constants := [], scopes := [[]] } prog with
    | .error m => .error m
    | .ok (code, st) => .ok (code, st.constants)


/-- Outcome of one straight-line VM step: continue with a new stack and
last-popped element, halt the whole run with a result (an `Error` value is
surfaced as the final result, section 7's discipline), or crash (a fatal VM
error, the analogue of an unrecovered Go panic). -/
inductive SStep where
  | cont (σ : List VmValue) (lp : VmValue)
  | halt (res : VmValue)
  | crash (msg : String)

/-- Pop two operands: returns (rest, left, right) with `right` the top. -/
def vmPop2 (σ : List VmValue) : Option (List VmValue × VmValue × VmValue) :=
  match σ.getLast? with
  | none => none
  | some r =>
    match σ.dropLast.getLast? with
    | none => none
    | some l => some (σ.dropLast.dropLast, l, r)

/-- Modelled from the spec: a VM unary operator reuses the evaluator's
section-4.3 semantics (`OpMinus`/`OpBang`; "truthiness in the VM matches the
evaluator"). -/
def unaryStep (op : String) (σ : List VmValue) (lp : VmValue) : SStep :=
  match σ.getLast? with
  | none => .crash "stack underflow"
  | some (.compiledFn _ _ _) =>
    if op == "!" then .cont (σ.dropLast ++ [.val (.bool false)]) lp
    else .crash "unsupported operand for unary operator"
  | some (.val v) =>
    match evalPrefixExpression op v with
    | .error m => .crash m
    | .ok r => if isError r then .halt (.val r) else .cont (σ.dropLast ++ [.val r]) lp

/-- Modelled from the spec: a VM binary operator pops two operands and applies
the evaluator's section-4.3 infix semantics ("type rules as in 4.3"); an
`Error` value halts the run with that value as the result. -/
def binStep (op : String) (σ : List VmValue) (lp : VmValue) : SStep :=
  match vmPop2 σ with
  | none => .crash "stack underflow"
  | some (σ2, .val l, .val r) =>
    match evalInfixExpression op l r with
    | .error m => .crash m
    | .ok v => if isError v then .halt (.val v) else .cont (σ2 ++ [.val v]) lp
  | some _ => .crash "unsupported operand for binary operator"

/-- Execute one straight-line (position-independent) instruction; `none` for
the instructions that inspect the instruction pointer, frames, globals or
locals. -/
def straightStep (K : List VmValue) : Instr → List VmValue → VmValue → Option SStep
  | .constant idx, σ, lp =>
    some (match K[idx]? with
      | none => .crash "constant index out of range"
      | some v => .cont (σ ++ [v]) lp)
  | .pop, σ, _ =>
    some (match σ.getLast? with
      | none => .crash "stack underflow"
      | some v => .cont σ.dropLast v)
  | .tru, σ, lp => some (.cont (σ ++ [.val (.bool true)]) lp)
  | .fls, σ, lp => some (.cont (σ ++ [.val (.bool false)]) lp)
  | .null, σ, lp => some (.cont (σ ++ [.val .null]) lp)
  | .minus, σ, lp => some (unaryStep "-" σ lp)
  | .bang, σ, lp => some (unaryStep "!" σ lp)
  | .add, σ, lp => some (binStep "+" σ lp)
  | .sub, σ, lp => some (binStep "-" σ lp)
  | .mul, σ, lp => some (binStep "*" σ lp)
  | .div, σ, lp => some (binStep "/" σ lp)
  | .eq, σ, lp => some (binStep "==" σ lp)
  | .neq, σ, lp => some (binStep "!=" σ lp)
  | .gt, σ, lp => some (binStep ">" σ lp)
  | _, _, _ => none

/-- The instructions `straightStep` handles. -/
def isStraightInstr : Instr → Bool
  | .constant _ | .pop | .tru | .fls | .null | .minus | .bang
  | .add | .sub | .mul | .div | .eq | .neq | .gt => true
  | _ => false

/-- A code block of straight-line instructions only. -/
def straightCode (c : List Instr) : Bool := c.all isStraightInstr

/-- Result of the straight-line reference machine. -/
inductive SRes where
  | done (σ : List VmValue) (lp : VmValue)
  | halt (res : VmValue)
  | crash (msg : String)

/-- The straight-line reference machine: run a position-independent code list
left to right on a stack and last-popped register. -/
def vmStraight (K : List VmValue) : List Instr → List VmValue → VmValue → SRes
  | [], σ, lp => .done σ lp
  | i :: rest, σ, lp =>
    match straightStep K i σ lp with
    | some (.cont σ2 lp2) => vmStraight K rest σ2 lp2
    | some (.halt v) => .halt v
    | some (.crash m) => .crash m
    | none => .crash "not a straight-line instruction"

/-- Modelled from the spec: a call frame `{function, ip, base_pointer}`
(section 4.5); the function is carried as its instruction list. -/
structure VFrame where
  instrs : List Instr
  ip : Nat
  bp : Nat

/-- Write global slot `i`, growing the (conceptually pre-allocated, nil-filled)
globals array on demand. -/
def padSetGlobal (g : List VmValue) (i : Nat) (v : VmValue) : List VmValue :=
  if i < g.length then g.set i v
  else g ++ List.replicate (i - g.length) (.val .nilObj) ++ [v]

/-- Project a stack slice to plain runtime values (for `OpArray`/`OpHash`). -/
def vmToValues : List VmValue → Option (List Value)
  | [] => some []
  | .val v :: rest =>
    match vmToValues rest with
    | some vs => some (v :: vs)
    | none => none
  | .compiledFn _ _ _ :: _ => none

/-- Build a hash from an even-length key/value list in source order, with the
evaluator's Go-map insertion (whose `Hash`-typed keys panic; in the VM no
`recover` is installed, so the panic is fatal). -/
def vmBuildHash : List Value → List (Value × Value) → Except String (List (Value × Value))
  | [], m => .ok m
  | [_], _ => .error "odd number of hash operands"
  | k :: v :: rest, m =>
    match hashInsert m k v with
    | .error msg => .error msg
    | .ok m2 => vmBuildHash rest m2

/-- Modelled from the spec: VM truthiness "matches the evaluator"; a compiled
function, like any other non-false non-null object, is truthy. -/
def vmTruthy : VmValue → Bool
  | .val v => isTruthy v
  | .compiledFn _ _ _ => true

/-- Modelled from the spec: the VM dispatch loop (section 4.5). State is the
value stack (top at the back), the globals array, the last-popped element, and
the frame stack (current frame first). Execution halts normally when the
instruction pointer exits the main frame; the exposed result is the final
stack top, or the last popped element once the program's trailing `OpPop` has
emptied the stack (the spec's "last popped stack element" test observable).
One unit of fuel is consumed per instruction. -/
def vmLoop : Nat → List VmValue → List VmValue → List VmValue → VmValue → List VFrame →
    Except String VmValue
  | 0, _, _, _, _, _ => .error stackOverflowMsg
  | fuel + 1, K, σ, g, lp, frames =>
    match frames with
    | [] => .error "no call frames"
    | fr :: rest =>
      match fr.instrs[fr.ip]? with
      | none =>
        match rest with
        | [] => .ok (σ.getLast?.getD lp)
        | _ :: _ => .error "instruction pointer overran a function body"
      | some ins =>
        match straightStep K ins σ lp with
        | some (.cont σ2 lp2) => vmLoop fuel K σ2 g lp2 ({ fr with ip := fr.ip + 1 } :: rest)
        | some (.halt v) => .ok v
        | some (.crash m) => .error m
        | none =>
          match ins with
          | .jump t => vmLoop fuel K σ g lp ({ fr with ip := t } :: rest)
          | .jumpNotTruthy t =>
            match σ.getLast? with
            | none => .error "stack underflow"
            | some c =>
              if vmTruthy c then
                vmLoop fuel K σ.dropLast g lp ({ fr with ip := fr.ip + 1 } :: rest)
              else
                vmLoop fuel K σ.dropLast g lp ({ fr with ip := t } :: rest)
          | .setGlobal i =>
            match σ.getLast? with
            | none => .error "stack underflow"
            | some v =>
              vmLoop fuel K σ.dropLast (padSetGlobal g i v) lp
                ({ fr with ip := fr.ip + 1 } :: rest)
          | .getGlobal i =>
            vmLoop fuel K (σ ++ [g.getD i (.val .nilObj)]) g lp
              ({ fr with ip := fr.ip + 1 } :: rest)
          | .setLocal i =>
            match σ.getLast? with
            | none => .error "stack underflow"
            | some v =>
              vmLoop fuel K (σ.dropLast.set (fr.bp + i) v) g lp
                ({ fr with ip := fr.ip + 1 } :: rest)
          | .getLocal i =>
            vmLoop fuel K (σ ++ [σ.getD (fr.bp + i) (.val .nilObj)]) g lp
              ({ fr with ip := fr.ip + 1 } :: rest)
          | .array n =>
            if n ≤ σ.length then
              match vmToValues (σ.drop (σ.length - n)) with
              | none => .error "array element is not a runtime value"
              | some vs =>
                vmLoop fuel K (σ.take (σ.length - n) ++ [.val (.array vs)]) g lp
                  ({ fr with ip := fr.ip + 1 } :: rest)
            else .error "stack underflow"
          | .hash n =>
            if n ≤ σ.length then
              match vmToValues (σ.drop (σ.length - n)) with
              | none => .error "hash element is not a runtime value"
              | some vs =>
                match vmBuildHash vs [] with
                | .error m => .error m
                | .ok m =>
                  vmLoop fuel K (σ.take (σ.length - n) ++ [.val (.hash m)]) g lp
                    ({ fr with ip := fr.ip + 1 } :: rest)
            else .error "stack underflow"
          | .index =>
            match vmPop2 σ with
            | none => .error "stack underflow"
            | some (σ2, .val l, .val i) =>
              match evalIndexExpression l i with
              | .error m => .error m
              | .ok r =>
                if isError r then .ok (.val r)
                else vmLoop fuel K (σ2 ++ [.val r]) g lp ({ fr with ip := fr.ip + 1 } :: rest)
            | some _ => .error "unsupported operand for index operator"
          | .call n =>
            match σ[σ.length - 1 - n]? with
            | some (.compiledFn ins2 nl np) =>
              if n == np then
                vmLoop fuel K (σ ++ List.replicate (nl - n) (.val .nilObj)) g lp
                  (⟨ins2, 0, σ.length - n⟩ :: { fr with ip := fr.ip + 1 } :: rest)
              else .error "wrong number of arguments"
            | some (.val _) => .error "calling non-function"
            | none => .error "stack underflow"
          | .returnValue =>
            match σ.getLast? with
            | none => .error "stack underflow"
            | some v =>
              match rest with
              | [] => .error "cannot pop the main frame"
              | fr2 :: rest2 =>
                vmLoop fuel K (σ.take (fr.bp - 1) ++ [v]) g lp (fr2 :: rest2)
          | .ret =>
            match rest with
            | [] => .error "cannot pop the main frame"
            | fr2 :: rest2 =>
              vmLoop fuel K (σ.take (fr.bp - 1) ++ [.val .null]) g lp (fr2 :: rest2)
          | _ => .error "unreachable: straight instruction fell through"
termination_by structural fuel _ _ _ _ _ => fuel

/-- Compile a program and run it on a fresh VM (empty stack and globals, the
last-popped register initially the Go nil interface), with separate compiler
and VM fuel. -/
def runVm (cfuel vfuel : Nat) (prog : Program) : Except String VmValue :=
  match compileProgram cfuel prog with
  | .error m => .error m
  | .ok (code, consts) => vmLoop vfuel consts [] [] (.val .nilObj) [⟨code, 0, 0⟩]


/-- The straight-line expression fragment: literals, unary `!`/`-`, and the
directly-compiled binary operators (`<` is excluded: its operand swap makes
the VM evaluate the right operand first, so the two backends can surface
different `Error` values). -/
def vmExprOk : Expr → Bool
  | .integerLit _ => true
  | .floatLit _ => true
  | .stringLit _ => true
  | .boolLit _ => true
  | .prefixExpr op r => (op == "!" || op == "-") && vmExprOk r
  | .infixExpr op l r =>
    (op == "+" || op == "-" || op == "*" || op == "/" || op == ">"
      || op == "==" || op == "!=") && vmExprOk l && vmExprOk r
  | _ => false

/-- A straight-line program: a sequence of fragment expression statements. -/
def vmProgOk : Program → Bool
  | [] => true
  | .exprStmt e :: rest => vmExprOk e && vmProgOk rest
  | _ => false


theorem vmStraight_append (K : List VmValue) (A B : List Instr) :
    ∀ σ lp, vmStraight K (A ++ B) σ lp =
      match vmStraight K A σ lp with
      | .done σ2 lp2 => vmStraight K B σ2 lp2
      | .halt v => .halt v
      | .crash m => .crash m := by
  induction A with
  | nil =>
    intro σ lp
    rfl
  | cons i A ih =>
    intro σ lp
    simp only [List.cons_append, vmStraight]
    cases straightStep K i σ lp with
    | none => rfl
    | some s =>
      cases s with
      | cont σ2 lp2 => exact ih σ2 lp2
      | halt v => rfl
      | crash m => rfl

theorem straightStep_isSome {i : Instr} (h : isStraightInstr i = true)
    (K : List VmValue) (σ : List VmValue) (lp : VmValue) :
    straightStep K i σ lp ≠ none := by
  cases i <;> simp [straightStep, isStraightInstr] at h ⊢

theorem vmLoop_shift (K : List VmValue) :
    ∀ (fuel : Nat) (A B : List Instr) (j : Nat) (σ g : List VmValue) (lp : VmValue) (bp : Nat),
    straightCode B = true →
    vmLoop fuel K σ g lp [⟨A ++ B, A.length + j, bp⟩] = vmLoop fuel K σ g lp [⟨B, j, bp⟩] := by
  intro fuel
  induction fuel with
  | zero => intro A B j σ g lp bp _; rfl
  | succ k ih =>
    intro A B j σ g lp bp hB
    have hfetch : (A ++ B)[A.length + j]? = B[j]? := by
      rw [List.getElem?_append_right (Nat.le_add_right _ _)]
      congr 1
      omega
    simp only [vmLoop, hfetch]
    cases hj : B[j]? with
    | none => rfl
    | some i =>
      dsimp only
      have hstr : isStraightInstr i = true :=
        List.all_eq_true.mp hB i (List.getElem?_mem hj)
      cases hss : straightStep K i σ lp with
      | none => exact absurd hss (straightStep_isSome hstr K σ lp)
      | some s =>
        cases s with
        | cont σ2 lp2 =>
          have : A.length + j + 1 = A.length + (j + 1) := by omega
          rw [this]
          exact ih A B (j + 1) σ2 g lp2 bp hB
        | halt v => rfl
        | crash m => rfl

theorem vmLoop_straight (K : List VmValue) :
    ∀ (B : List Instr) (fuel : Nat) (σ g : List VmValue) (lp : VmValue) (bp : Nat),
    straightCode B = true → B.length < fuel →
    vmLoop fuel K σ g lp [⟨B, 0, bp⟩] =
      (match vmStraight K B σ lp with
       | .done σ2 lp2 => .ok (σ2.getLast?.getD lp2)
       | .halt v => .ok v
       | .crash m => .error m) := by
  intro B
  induction B with
  | nil =>
    intro fuel σ g lp bp _ hf
    obtain ⟨f, rfl⟩ : ∃ f, fuel = f + 1 := ⟨fuel - 1, by omega⟩
    rfl
  | cons i B ih =>
    intro fuel σ g lp bp hB hf
    obtain ⟨f, rfl⟩ : ∃ f, fuel = f + 1 := ⟨fuel - 1, by omega⟩
    have hstr : isStraightInstr i = true :=
      List.all_eq_true.mp hB i (List.mem_cons_self _ _)
    have hBtail : straightCode B = true := by
      simp only [straightCode, List.all_cons, Bool.and_eq_true] at hB
      exact hB.2
    simp only [vmLoop, vmStraight]
    have hfetch : (i :: B)[0]? = some i := by simp
    simp only [hfetch]
    cases hss : straightStep K i σ lp with
    | none => exact absurd hss (straightStep_isSome hstr K σ lp)
    | some s =>
      cases s with
      | cont σ2 lp2 =>
        simp only [hss]
        simp only [Nat.zero_add]
        have hshift := vmLoop_shift K f [i] B 0 σ2 g lp2 bp hBtail
        simp only [List.singleton_append, List.length_singleton, Nat.add_zero] at hshift
        rw [hshift]
        exact ih f σ2 g lp2 bp hBtail (Nat.lt_of_succ_lt_succ (by simpa using hf))
      | halt v => rfl
      | crash m => rfl

theorem vmPop2_append (σ : List VmValue) (a b : VmValue) :
    vmPop2 (σ ++ [a, b]) = some (σ, a, b) := by
  have h : σ ++ [a, b] = (σ ++ [a]) ++ [b] := by simp
  rw [h]
  simp only [vmPop2, List.getLast?_concat, List.dropLast_concat]

theorem prefixGet {P K : List VmValue} (h : P <+: K) {i : Nat} (hi : i < P.length) :
    K[i]? = P[i]? := by
  obtain ⟨t, rfl⟩ := h
  rw [List.getElem?_append, if_pos hi]

theorem prefixConstAt {cst : List VmValue} {x : VmValue} {K : List VmValue}
    (h : (cst ++ [x]) <+: K) : K[cst.length]? = some x := by
  rw [prefixGet h (by simp)]
  simp


theorem straightCode_append1 {A : List Instr} {i : Instr} (hA : straightCode A = true)
    (hi : isStraightInstr i = true) : straightCode (A ++ [i]) = true := by
  simp only [straightCode, List.all_append, List.all_cons, List.all_nil,
    Bool.and_true, Bool.and_eq_true]
  exact ⟨hA, hi⟩

theorem straightCode_append2 {A B : List Instr} (hA : straightCode A = true)
    (hB : straightCode B = true) : straightCode (A ++ B) = true := by
  simp only [straightCode, List.all_append, Bool.and_eq_true]
  exact ⟨hA, hB⟩

theorem vmStraight_constant (K : List VmValue) (cst : List VmValue) (x : Value)
    (hK : (cst ++ [.val x]) <+: K) (σ : List VmValue) (lp : VmValue) :
    vmStraight K [.constant cst.length] σ lp = .done (σ ++ [.val x]) lp := by
  have hc := prefixConstAt hK
  simp [vmStraight, straightStep, hc]

/-- Recursion depth of a fragment expression (drives compiler fuel). -/
def fragSize : Expr → Nat
  | .prefixExpr _ r => fragSize r + 1
  | .infixExpr _ l r => max (fragSize l) (fragSize r) + 1
  | _ => 0

theorem vmCompileProps : ∀ g : Nat, ∀ (e : Expr) (off : Nat) (st : CState)
    (code : List Instr) (st2 : CState),
    vmExprOk e = true → compileExpr g off st e = .ok (code, st2) →
    st.constants <+: st2.constants ∧ st2.scopes = st.scopes ∧ straightCode code = true := by
  intro g
  induction g with
  | zero =>
    intro e off st code st2 _ hc
    exact Except.noConfusion hc
  | succ k ih =>
    intro e off st code st2 hok hc
    cases e with
    | integerLit i =>
      injection hc with hc
      injection hc with hc1 hc2
      subst hc1
      subst hc2
      exact ⟨List.prefix_append _ _, rfl, rfl⟩
    | floatLit q =>
      injection hc with hc
      injection hc with hc1 hc2
      subst hc1
      subst hc2
      exact ⟨List.prefix_append _ _, rfl, rfl⟩
    | stringLit s =>
      injection hc with hc
      injection hc with hc1 hc2
      subst hc1
      subst hc2
      exact ⟨List.prefix_append _ _, rfl, rfl⟩
    | boolLit b =>
      injection hc with hc
      injection hc with hc1 hc2
      subst hc1
      subst hc2
      cases b
      · exact ⟨List.prefix_rfl, rfl, rfl⟩
      · exact ⟨List.prefix_rfl, rfl, rfl⟩
    | prefixExpr op r =>
      simp only [vmExprOk, Bool.and_eq_true] at hok
      have hop : op = "!" ∨ op = "-" := by
        have h := hok.1
        simp only [Bool.or_eq_true, beq_iff_eq] at h
        exact h
      simp only [compileExpr] at hc
      rcases hcr : compileExpr k off st r with m | ⟨rcode, st2r⟩
      · rw [hcr] at hc
        exact Except.noConfusion hc
      · simp only [hcr] at hc
        obtain ⟨hpre, hsc, hstr⟩ := ih r off st rcode st2r hok.2 hcr
        rcases hop with rfl | rfl
        · simp at hc
          obtain ⟨hc1, hc2⟩ := hc
          subst hc1
          subst hc2
          exact ⟨hpre, hsc, straightCode_append1 hstr rfl⟩
        · simp at hc
          obtain ⟨hc1, hc2⟩ := hc
          subst hc1
          subst hc2
          exact ⟨hpre, hsc, straightCode_append1 hstr rfl⟩
    | infixExpr op l r =>
      simp only [vmExprOk, Bool.and_eq_true] at hok
      have hop : op = "+" ∨ op = "-" ∨ op = "*" ∨ op = "/" ∨ op = ">"
          ∨ op = "==" ∨ op = "!=" := by
        have h := hok.1.1
        simp only [Bool.or_eq_true, beq_iff_eq] at h
        tauto
      have hne : (op == "<") = false := by
        rcases hop with rfl | rfl | rfl | rfl | rfl | rfl | rfl <;> rfl
      simp only [compileExpr, hne, Bool.false_eq_true, if_false] at hc
      have hbin : ∃ ins, binInstrOf op = some ins ∧ isStraightInstr ins = true := by
        rcases hop with rfl | rfl | rfl | rfl | rfl | rfl | rfl <;>
          exact ⟨_, rfl, rfl⟩
      obtain ⟨ins, hins, hstr_ins⟩ := hbin
      rw [hins] at hc
      rcases hcl : compileExpr k off st l with m | ⟨lcode, st2l⟩
      · rw [hcl] at hc
        exact Except.noConfusion hc
      · simp only [hcl] at hc
        rcases hcr : compileExpr k (off + lcode.length) st2l r with m | ⟨rcode, st2r⟩
        · rw [hcr] at hc
          exact Except.noConfusion hc
        · simp only [hcr] at hc
          injection hc with hc
          injection hc with hc1 hc2
          subst hc1
          subst hc2
          obtain ⟨hpre_l, hsc_l, hstr_l⟩ := ih l off st lcode st2l hok.1.2 hcl
          obtain ⟨hpre_r, hsc_r, hstr_r⟩ := ih r (off + lcode.length) st2l rcode st2r hok.2 hcr
          exact ⟨hpre_l.trans hpre_r, hsc_r.trans hsc_l,
            straightCode_append1 (straightCode_append2 hstr_l hstr_r) hstr_ins⟩
    | identifier name => simp [vmExprOk] at hok
    | ifExpr c cons alt => simp [vmExprOk] at hok
    | functionLit params body => simp [vmExprOk] at hok
    | arrayLit es => simp [vmExprOk] at hok
    | hashLit ps => simp [vmExprOk] at hok
    | callExpr f args => simp [vmExprOk] at hok
    | indexExpr l i => simp [vmExprOk] at hok

theorem vmCompileTotal : ∀ g : Nat, ∀ (e : Expr) (off : Nat) (st : CState),
    vmExprOk e = true → fragSize e < g →
    ∃ code st2, compileExpr g off st e = .ok (code, st2) := by
  intro g
  induction g with
  | zero =>
    intro e off st _ hsz
    omega
  | succ k ih =>
    intro e off st hok hsz
    cases e with
    | integerLit i => exact ⟨_, _, rfl⟩
    | floatLit q => exact ⟨_, _, rfl⟩
    | stringLit s => exact ⟨_, _, rfl⟩
    | boolLit b => exact ⟨_, _, rfl⟩
    | prefixExpr op r =>
      simp only [vmExprOk, Bool.and_eq_true] at hok
      have hop : op = "!" ∨ op = "-" := by
        have h := hok.1
        simp only [Bool.or_eq_true, beq_iff_eq] at h
        exact h
      have hsz2 : fragSize r < k := by
        simp only [fragSize] at hsz
        omega
      obtain ⟨rcode, st2, hcr⟩ := ih r off st hok.2 hsz2
      rcases hop with rfl | rfl
      · exact ⟨rcode ++ [.bang], st2, by simp [compileExpr, hcr]⟩
      · exact ⟨rcode ++ [.minus], st2, by simp [compileExpr, hcr]⟩
    | infixExpr op l r =>
      simp only [vmExprOk, Bool.and_eq_true] at hok
      have hop : op = "+" ∨ op = "-" ∨ op = "*" ∨ op = "/" ∨ op = ">"
          ∨ op = "==" ∨ op = "!=" := by
        have h := hok.1.1
        simp only [Bool.or_eq_true, beq_iff_eq] at h
        tauto
      have hne : (op == "<") = false := by
        rcases hop with rfl | rfl | rfl | rfl | rfl | rfl | rfl <;> rfl
      have hbin : ∃ ins, binInstrOf op = some ins := by
        rcases hop with rfl | rfl | rfl | rfl | rfl | rfl | rfl <;> exact ⟨_, rfl⟩
      obtain ⟨ins, hins⟩ := hbin
      have hszl : fragSize l < k := by
        simp only [fragSize] at hsz
        omega
      have hszr : fragSize r < k := by
        simp only [fragSize] at hsz
        omega
      obtain ⟨lcode, st2, hcl⟩ := ih l off st hok.1.2 hszl
      obtain ⟨rcode, st3, hcr⟩ := ih r (off + lcode.length) st2 hok.2 hszr
      refine ⟨lcode ++ rcode ++ [ins], st3, ?_⟩
      simp only [compileExpr, hne, Bool.false_eq_true, if_false, hins, hcl, hcr]
    | identifier name => simp [vmExprOk] at hok
    | ifExpr c cons alt => simp [vmExprOk] at hok
    | functionLit params body => simp [vmExprOk] at hok
    | arrayLit es => simp [vmExprOk] at hok
    | hashLit ps => simp [vmExprOk] at hok
    | callExpr f args => simp [vmExprOk] at hok
    | indexExpr l i => simp [vmExprOk] at hok


theorem vmSimExpr : ∀ fuel : Nat, ∀ (s : Store) (env : Nat) (e : Expr) (s' : Store)
    (v : Value) (g off : Nat) (st : CState) (code : List Instr) (st2 : CState),
    vmExprOk e = true → evalExpr fuel s env e = (s', .ok v) →
    compileExpr g off st e = .ok (code, st2) →
    valueSafe v = true ∧
    ∀ K σ lp, st2.constants <+: K →
      (isError v = true → vmStraight K code σ lp = .halt (.val v)) ∧
      (isError v = false → vmStraight K code σ lp = .done (σ ++ [.val v]) lp) := by
  intro fuel
  induction fuel with
  | zero =>
    intro s env e s' v g off st code st2 hok heval hc
    injection heval with j1 j2
    cases j2
  | succ f ih =>
    intro s env e s' v g off st code st2 hok heval hc
    rcases g with _ | g
    · exact Except.noConfusion hc
    cases e with
    | integerLit i =>
      injection heval with j1 j2
      injection j2 with j2
      subst j2
      injection hc with hc
      injection hc with hc1 hc2
      subst hc1
      subst hc2
      refine ⟨rfl, fun K σ lp hK => ⟨fun hv => (by cases hv), fun _ => ?_⟩⟩
      exact vmStraight_constant K st.constants (.integer i) hK σ lp
    | floatLit q =>
      injection heval with j1 j2
      injection j2 with j2
      subst j2
      injection hc with hc
      injection hc with hc1 hc2
      subst hc1
      subst hc2
      refine ⟨rfl, fun K σ lp hK => ⟨fun hv => (by cases hv), fun _ => ?_⟩⟩
      exact vmStraight_constant K st.constants (.float q) hK σ lp
    | stringLit str =>
      injection heval with j1 j2
      injection j2 with j2
      subst j2
      injection hc with hc
      injection hc with hc1 hc2
      subst hc1
      subst hc2
      refine ⟨rfl, fun K σ lp hK => ⟨fun hv => (by cases hv), fun _ => ?_⟩⟩
      exact vmStraight_constant K st.constants (.str str) hK σ lp
    | boolLit b =>
      injection heval with j1 j2
      injection j2 with j2
      subst j2
      injection hc with hc
      injection hc with hc1 hc2
      subst hc1
      subst hc2
      cases b
      · exact ⟨rfl, fun K σ lp hK => ⟨fun hv => (by cases hv), fun _ => rfl⟩⟩
      · exact ⟨rfl, fun K σ lp hK => ⟨fun hv => (by cases hv), fun _ => rfl⟩⟩
    | prefixExpr op r =>
      simp only [vmExprOk, Bool.and_eq_true] at hok
      have hop : op = "!" ∨ op = "-" := by
        have h := hok.1
        simp only [Bool.or_eq_true, beq_iff_eq] at h
        exact h
      simp only [evalExpr] at heval
      simp only [compileExpr] at hc
      rcases hcr : compileExpr g off st r with m | ⟨rcode, st2r⟩
      · rw [hcr] at hc
        exact Except.noConfusion hc
      simp only [hcr] at hc
      rcases h1 : evalExpr f s env r with ⟨s1, r1⟩
      rcases r1 with m | rv
      · simp only [h1] at heval
        injection heval with j1 j2
        cases j2
      simp only [h1] at heval
      obtain ⟨hsafe_r, hexec_r⟩ := ih s env r s1 rv g off st rcode st2r hok.2 h1 hcr
      rcases hop with rfl | rfl
      all_goals
        simp at hc
        obtain ⟨hc1, hc2⟩ := hc
        subst hc1
        subst hc2
      case _ =>
        -- op = "!"
        by_cases he : isError rv
        · rw [if_pos he] at heval
          injection heval with j1 j2
          injection j2 with j2
          subst j2
          refine ⟨hsafe_r, fun K σ lp hK => ⟨fun hv => ?_, fun hv => ?_⟩⟩
          · rw [vmStraight_append, (hexec_r K σ lp hK).1 he]
          · rw [he] at hv
            cases hv
        · rw [if_neg he] at heval
          injection heval with j1 j2
          refine ⟨valueSafe_evalPrefixExpression "!" rv v j2,
            fun K σ lp hK => ⟨fun hv => ?_, fun hv => ?_⟩⟩
          · rw [vmStraight_append, (hexec_r K σ lp hK).2 (Bool.not_eq_true _ ▸ he)]
            simp only [vmStraight, straightStep, unaryStep, List.getLast?_concat,
              List.dropLast_concat]
            rw [j2]
            simp [hv]
          · rw [vmStraight_append, (hexec_r K σ lp hK).2 (Bool.not_eq_true _ ▸ he)]
            simp only [vmStraight, straightStep, unaryStep, List.getLast?_concat,
              List.dropLast_concat]
            rw [j2]
            simp [hv]
      case _ =>
        -- op = "-"
        by_cases he : isError rv
        · rw [if_pos he] at heval
          injection heval with j1 j2
          injection j2 with j2
          subst j2
          refine ⟨hsafe_r, fun K σ lp hK => ⟨fun hv => ?_, fun hv => ?_⟩⟩
          · rw [vmStraight_append, (hexec_r K σ lp hK).1 he]
          · rw [he] at hv
            cases hv
        · rw [if_neg he] at heval
          injection heval with j1 j2
          refine ⟨valueSafe_evalPrefixExpression "-" rv v j2,
            fun K σ lp hK => ⟨fun hv => ?_, fun hv => ?_⟩⟩
          · rw [vmStraight_append, (hexec_r K σ lp hK).2 (Bool.not_eq_true _ ▸ he)]
            simp only [vmStraight, straightStep, unaryStep, List.getLast?_concat,
              List.dropLast_concat]
            rw [j2]
            simp [hv]
          · rw [vmStraight_append, (hexec_r K σ lp hK).2 (Bool.not_eq_true _ ▸ he)]
            simp only [vmStraight, straightStep, unaryStep, List.getLast?_concat,
              List.dropLast_concat]
            rw [j2]
            simp [hv]
    | infixExpr op l r =>
      simp only [vmExprOk, Bool.and_eq_true] at hok
      have hop : op = "+" ∨ op = "-" ∨ op = "*" ∨ op = "/" ∨ op = ">"
          ∨ op = "==" ∨ op = "!=" := by
        have h := hok.1.1
        simp only [Bool.or_eq_true, beq_iff_eq] at h
        tauto
      have hne : (op == "<") = false := by
        rcases hop with rfl | rfl | rfl | rfl | rfl | rfl | rfl <;> rfl
      have hbin : ∃ ins, binInstrOf op = some ins ∧
          (∀ K σ2 lp2, straightStep K ins σ2 lp2 = some (binStep op σ2 lp2)) := by
        rcases hop with rfl | rfl | rfl | rfl | rfl | rfl | rfl <;>
          exact ⟨_, rfl, fun K σ2 lp2 => rfl⟩
      obtain ⟨ins, hins, hstep⟩ := hbin
      simp only [evalExpr] at heval
      simp only [compileExpr, hne, Bool.false_eq_true, if_false, hins] at hc
      rcases hcl : compileExpr g off st l with m | ⟨lcode, st2l⟩
      · rw [hcl] at hc
        exact Except.noConfusion hc
      simp only [hcl] at hc
      rcases hcr : compileExpr g (off + lcode.length) st2l r with m | ⟨rcode, st2r⟩
      · rw [hcr] at hc
        exact Except.noConfusion hc
      simp only [hcr] at hc
      injection hc with hc
      injection hc with hc1 hc2
      subst hc1
      subst hc2
      obtain ⟨hpre_r, _, _⟩ := vmCompileProps g r (off + lcode.length) st2l rcode st2r hok.2 hcr
      rcases h1 : evalExpr f s env l with ⟨s1, r1⟩
      rcases r1 with m | lv
      · simp only [h1] at heval
        injection heval with j1 j2
        cases j2
      simp only [h1] at heval
      obtain ⟨hsafe_l, hexec_l⟩ := ih s env l s1 lv g off st lcode st2l hok.1.2 h1 hcl
      by_cases he : isError lv
      · rw [if_pos he] at heval
        injection heval with j1 j2
        injection j2 with j2
        subst j2
        refine ⟨hsafe_l, fun K σ lp hK => ⟨fun hv => ?_, fun hv => ?_⟩⟩
        · rw [vmStraight_append, vmStraight_append,
            (hexec_l K σ lp (hpre_r.trans hK)).1 he]
        · rw [he] at hv
          cases hv
      · rw [if_neg he] at heval
        rcases h2 : evalExpr f s1 env r with ⟨s2, r2⟩
        rcases r2 with m | rv
        · simp only [h2] at heval
          injection heval with j1 j2
          cases j2
        simp only [h2] at heval
        obtain ⟨hsafe_r, hexec_r⟩ :=
          ih s1 env r s2 rv g (off + lcode.length) st2l rcode st2r hok.2 h2 hcr
        by_cases he2 : isError rv
        · rw [if_pos he2] at heval
          injection heval with j1 j2
          injection j2 with j2
          subst j2
          refine ⟨hsafe_r, fun K σ lp hK => ⟨fun hv => ?_, fun hv => ?_⟩⟩
          · rw [vmStraight_append, vmStraight_append,
              (hexec_l K σ lp (hpre_r.trans hK)).2 (Bool.not_eq_true _ ▸ he)]
            dsimp only
            rw [(hexec_r K (σ ++ [VmValue.val lv]) lp hK).1 he2]
          · rw [he2] at hv
            cases hv
        · rw [if_neg he2] at heval
          injection heval with j1 j2
          refine ⟨valueSafe_evalInfixExpression op lv rv v j2,
            fun K σ lp hK => ⟨fun hv => ?_, fun hv => ?_⟩⟩
          · rw [vmStraight_append, vmStraight_append,
              (hexec_l K σ lp (hpre_r.trans hK)).2 (Bool.not_eq_true _ ▸ he)]
            dsimp only
            rw [(hexec_r K (σ ++ [VmValue.val lv]) lp hK).2 (Bool.not_eq_true _ ▸ he2)]
            have hσ : σ ++ [VmValue.val lv] ++ [VmValue.val rv]
                = σ ++ [VmValue.val lv, VmValue.val rv] := by simp
            simp only [vmStraight, hstep, binStep, hσ, vmPop2_append]
            rw [j2]
            simp [hv]
          · rw [vmStraight_append, vmStraight_append,
              (hexec_l K σ lp (hpre_r.trans hK)).2 (Bool.not_eq_true _ ▸ he)]
            dsimp only
            rw [(hexec_r K (σ ++ [VmValue.val lv]) lp hK).2 (Bool.not_eq_true _ ▸ he2)]
            have hσ : σ ++ [VmValue.val lv] ++ [VmValue.val rv]
                = σ ++ [VmValue.val lv, VmValue.val rv] := by simp
            simp only [vmStraight, hstep, binStep, hσ, vmPop2_append]
            rw [j2]
            simp [hv]
    | identifier name => simp [vmExprOk] at hok
    | ifExpr c cons alt => simp [vmExprOk] at hok
    | functionLit params body => simp [vmExprOk] at hok
    | arrayLit es => simp [vmExprOk] at hok
    | hashLit ps => simp [vmExprOk] at hok
    | callExpr f2 args => simp [vmExprOk] at hok
    | indexExpr l i => simp [vmExprOk] at hok


/-- Compiler fuel needed for a fragment program. -/
def fragProgSize : Program → Nat
  | [] => 0
  | .exprStmt e :: rest => max (fragSize e + 2) (fragProgSize rest) + 1
  | _ :: rest => fragProgSize rest + 1

theorem vmCompileProgTotal : ∀ (prog : Program) (g off : Nat) (st : CState),
    vmProgOk prog = true → fragProgSize prog < g →
    ∃ code st2, compileStmts g off st prog = .ok (code, st2) := by
  intro prog
  induction prog with
  | nil =>
    intro g off st _ hsz
    obtain ⟨g2, rfl⟩ : ∃ g2, g = g2 + 1 := ⟨g - 1, by omega⟩
    exact ⟨[], st, rfl⟩
  | cons s0 rest ih =>
    intro g off st hok hsz
    cases s0 with
    | letStmt n v0 => simp [vmProgOk] at hok
    | returnStmt v0 => simp [vmProgOk] at hok
    | exprStmt e =>
      simp only [vmProgOk, Bool.and_eq_true] at hok
      simp only [fragProgSize] at hsz
      obtain ⟨g2, rfl⟩ : ∃ g2, g = g2 + 1 := ⟨g - 1, by omega⟩
      obtain ⟨g3, rfl⟩ : ∃ g3, g2 = g3 + 1 := ⟨g2 - 1, by omega⟩
      obtain ⟨ecode, st2, hce⟩ := vmCompileTotal g3 e off st hok.1 (by omega)
      obtain ⟨rcode2, st3, hcr⟩ :=
        ih (g3 + 1) (off + (ecode ++ [Instr.pop]).length) st2 hok.2 (by omega)
      refine ⟨(ecode ++ [Instr.pop]) ++ rcode2, st3, ?_⟩
      simp only [compileStmts, compileStmt, hce, hcr]

theorem vmCompileStmtsProps : ∀ (prog : Program) (g off : Nat) (st : CState)
    (code : List Instr) (st2 : CState),
    vmProgOk prog = true → compileStmts g off st prog = .ok (code, st2) →
    st.constants <+: st2.constants ∧ st2.scopes = st.scopes ∧ straightCode code = true := by
  intro prog
  induction prog with
  | nil =>
    intro g off st code st2 _ hcomp
    rcases g with _ | g2
    · exact Except.noConfusion hcomp
    injection hcomp with hcomp
    injection hcomp with hc1 hc2
    subst hc1
    subst hc2
    exact ⟨List.prefix_rfl, rfl, rfl⟩
  | cons s0 rest ih =>
    intro g off st code st2 hok hcomp
    cases s0 with
    | letStmt n v0 => simp [vmProgOk] at hok
    | returnStmt v0 => simp [vmProgOk] at hok
    | exprStmt e =>
      simp only [vmProgOk, Bool.and_eq_true] at hok
      rcases g with _ | g
      · exact Except.noConfusion hcomp
      rcases g with _ | g2
      · exact Except.noConfusion hcomp
      simp only [compileStmts, compileStmt] at hcomp
      rcases hce : compileExpr g2 off st e with m | ⟨ecode, stE⟩
      · rw [hce] at hcomp
        exact Except.noConfusion hcomp
      simp only [hce] at hcomp
      rcases hcr : compileStmts (g2 + 1)
          (off + (ecode ++ [Instr.pop]).length) stE rest with m | ⟨rcode2, stR⟩
      · rw [hcr] at hcomp
        exact Except.noConfusion hcomp
      simp only [hcr] at hcomp
      injection hcomp with hcomp
      injection hcomp with hc1 hc2
      subst hc1
      subst hc2
      obtain ⟨hpre_e, hsc_e, hstr_e⟩ := vmCompileProps g2 e off st ecode stE hok.1 hce
      obtain ⟨hpre_r, hsc_r, hstr_r⟩ := ih (g2 + 1)
        (off + (ecode ++ [Instr.pop]).length) stE rcode2 stR hok.2 hcr
      exact ⟨hpre_e.trans hpre_r, hsc_r.trans hsc_e,
        straightCode_append2 (straightCode_append1 hstr_e rfl) hstr_r⟩

theorem vmSimProgLoop : ∀ fuel : Nat, ∀ (s : Store) (env : Nat) (prog : Program)
    (s' : Store) (v : Value) (g off : Nat) (st : CState) (code : List Instr)
    (st2 : CState) (prior : Value),
    vmProgOk prog = true → isError prior = false →
    evalProgramLoop fuel s env prior prog = (s', .ok v) →
    compileStmts g off st prog = .ok (code, st2) →
    st.constants <+: st2.constants ∧ straightCode code = true ∧
    ∀ K σ, st2.constants <+: K →
      (isError v = true → vmStraight K code σ (.val prior) = .halt (.val v)) ∧
      (isError v = false → vmStraight K code σ (.val prior) = .done σ (.val v)) := by
  intro fuel
  induction fuel with
  | zero =>
    intro s env prog s' v g off st code st2 prior _ _ heval _
    injection heval with j1 j2
    cases j2
  | succ f ih =>
    intro s env prog s' v g off st code st2 prior hok hprior heval hcomp
    cases prog with
    | nil =>
      rcases g with _ | g2
      · exact Except.noConfusion hcomp
      injection heval with j1 j2
      injection j2 with j2
      subst j2
      injection hcomp with hcomp
      injection hcomp with hc1 hc2
      subst hc1
      subst hc2
      refine ⟨List.prefix_rfl, rfl, fun K σ hK => ⟨fun hv => ?_, fun _ => rfl⟩⟩
      rw [hprior] at hv
      cases hv
    | cons s0 rest =>
      cases s0 with
      | letStmt n v0 => simp [vmProgOk] at hok
      | returnStmt v0 => simp [vmProgOk] at hok
      | exprStmt e =>
        simp only [vmProgOk, Bool.and_eq_true] at hok
        rcases g with _ | g
        · exact Except.noConfusion hcomp
        rcases g with _ | g2
        · exact Except.noConfusion hcomp
        simp only [compileStmts, compileStmt] at hcomp
        rcases hce : compileExpr g2 off st e with m | ⟨ecode, stE⟩
        · rw [hce] at hcomp
          exact Except.noConfusion hcomp
        simp only [hce] at hcomp
        rcases hcr : compileStmts (g2 + 1)
            (off + (ecode ++ [Instr.pop]).length) stE rest with m | ⟨rcode2, stR⟩
        · rw [hcr] at hcomp
          exact Except.noConfusion hcomp
        simp only [hcr] at hcomp
        injection hcomp with hcomp
        injection hcomp with hc1 hc2
        subst hc1
        subst hc2
        simp only [evalProgramLoop] at heval
        rcases h1 : evalStmt f s env (.exprStmt e) with ⟨s1, r1⟩
        rcases r1 with m | r
        · simp only [h1] at heval
          injection heval with j1 j2
          cases j2
        simp only [h1] at heval
        rcases f with _ | f2
        · injection h1 with j1 j2
          cases j2
        simp only [evalStmt] at h1
        obtain ⟨hsafe_r, hexec_e⟩ :=
          vmSimExpr f2 s env e s1 r g2 off st ecode stE hok.1 h1 hce
        obtain ⟨hpre_e, _, hstr_e⟩ := vmCompileProps g2 e off st ecode stE hok.1 hce
        have hstr_s : straightCode (ecode ++ [Instr.pop]) = true :=
          straightCode_append1 hstr_e rfl
        cases r
        case returnValue w => simp [valueSafe] at hsafe_r
        case error msg =>
          injection heval with j1 j2
          injection j2 with j2
          subst j2
          obtain ⟨hpre_rest, _, hstr_rest⟩ :=
            vmCompileStmtsProps rest (g2 + 1)
              (off + (ecode ++ [Instr.pop]).length) stE rcode2 stR hok.2 hcr
          refine ⟨hpre_e.trans hpre_rest,
            straightCode_append2 hstr_s hstr_rest,
            fun K σ hK => ⟨fun hv => ?_, fun hv => ?_⟩⟩
          · rw [vmStraight_append, vmStraight_append,
              (hexec_e K σ (VmValue.val prior) (hpre_rest.trans hK)).1 rfl]
          · simp [isError] at hv
        all_goals
          obtain ⟨hpre_rest, hstr_rest, hexec_rest⟩ :=
            ih s1 env rest s' v (g2 + 1) (off + (ecode ++ [Instr.pop]).length) stE
              rcode2 stR _ hok.2 (by rfl) heval hcr
          refine ⟨hpre_e.trans hpre_rest, straightCode_append2 hstr_s hstr_rest,
            fun K σ hK => ⟨fun hv => ?_, fun hv => ?_⟩⟩
          · rw [vmStraight_append, vmStraight_append,
              (hexec_e K σ (VmValue.val prior) (hpre_rest.trans hK)).2 rfl]
            dsimp only
            simp only [vmStraight, straightStep, List.getLast?_concat, List.dropLast_concat]
            exact (hexec_rest K σ hK).1 hv
          · rw [vmStraight_append, vmStraight_append,
              (hexec_e K σ (VmValue.val prior) (hpre_rest.trans hK)).2 rfl]
            dsimp only
            simp only [vmStraight, straightStep, List.getLast?_concat, List.dropLast_concat]
            exact (hexec_rest K σ hK).2 hv


/-- The closure program `let newAdder = fn(x) { fn(y) { x + y } };
let addTwo = newAdder(2); addTwo(3);`. -/
def newAdderProg : Program :=
  [.letStmt "newAdder" (.functionLit ["x"]
     [.exprStmt (.functionLit ["y"]
        [.exprStmt (.infixExpr "+" (.identifier "x") (.identifier "y"))])]),
   .letStmt "addTwo" (.callExpr (.identifier "newAdder") [.integerLit 2]),
   .exprStmt (.callExpr (.identifier "addTwo") [.integerLit 3])]

/-- **C1** (counterexample): the spec's minimum compiler has only `Global`
and `Local` symbol scopes and no free-variable capture, so in the closure
program `newAdderProg` the inner function's free `x` and its own parameter
`y` both compile to `OpGetLocal 0` of the *inner* frame; the evaluator
yields `5` while the compiled program run on the VM yields `6`, and the
section-4.3 value equality (`==`) distinguishes the two results. -/
theorem C1_counterexample :
    (runEval 20 newAdderProg).2 = .ok (.integer 5) ∧
    runVm 20 60 newAdderProg = .ok (.val (.integer 6)) ∧
    evalInfixExpression "==" (.integer 5) (.integer 6) = .ok (.bool false) :=
  ⟨rfl, rfl, rfl⟩

/-- **C1** (amended): evaluator ≡ VM does hold on the straight-line fragment
(`vmProgOk`: expression statements built from literals, `!`/`-` prefixes and
the directly-compiled binary operators): whenever the tree-walking evaluator
produces a value — an `Error` value included — there is enough compiler and
VM fuel for the compiled program to run to completion with the *same* value
as its final stack-top/last-popped observable. -/
theorem C1_vm_equivalence (fuel : Nat) (prog : Program) (s' : Store) (v : Value)
    (hfrag : vmProgOk prog = true)
    (heval : runEval fuel prog = (s', .ok v)) :
    ∃ cf N, ∀ vf, N ≤ vf → runVm cf vf prog = .ok (.val v) := by
  rcases fuel with _ | F
  · injection heval with j1 j2
    cases j2
  · have heval2 : evalProgramLoop F initialStore 0 .nilObj prog = (s', .ok v) := heval
    obtain ⟨code, st2, hcomp⟩ := vmCompileProgTotal prog (fragProgSize prog + 1) 0
      { constants := [], scopes := [[]] } hfrag (by omega)
    obtain ⟨_, hstraight, hexec⟩ :=
      vmSimProgLoop F initialStore 0 prog s' v (fragProgSize prog + 1) 0
        { constants := [], scopes := [[]] } code st2 .nilObj hfrag rfl heval2 hcomp
    refine ⟨fragProgSize prog + 2, code.length + 1, fun vf hvf => ?_⟩
    have hrun : runVm (fragProgSize prog + 2) vf prog =
        vmLoop vf st2.constants [] [] (.val .nilObj) [⟨code, 0, 0⟩] := by
      simp [runVm, compileProgram, hcomp]
    rw [hrun,
      vmLoop_straight st2.constants code vf [] [] (.val .nilObj) 0 hstraight (by omega)]
    obtain ⟨h1, h2⟩ := hexec st2.constants [] List.prefix_rfl
    by_cases hv : isError v
    · rw [h1 hv]
    · rw [h2 (Bool.not_eq_true _ ▸ hv)]
      rfl

/-- **C1** (witness): the amended equivalence applied to the straight-line
program `1 + 2 * 3;`, whose evaluator value is `7`. -/
theorem C1_vm_equivalence_witness :
    vmProgOk [Stmt.exprStmt (.infixExpr "+" (.integerLit 1)
      (.infixExpr "*" (.integerLit 2) (.integerLit 3)))] = true ∧
    ∃ cf N, ∀ vf, N ≤ vf →
      runVm cf vf [Stmt.exprStmt (.infixExpr "+" (.integerLit 1)
        (.infixExpr "*" (.integerLit 2) (.integerLit 3)))] = .ok (.val (.integer 7)) :=
  ⟨rfl, C1_vm_equivalence 6
    [Stmt.exprStmt (.infixExpr "+" (.integerLit 1)
      (.infixExpr "*" (.integerLit 2) (.integerLit 3)))]
    (runEval 6 [Stmt.exprStmt (.infixExpr "+" (.integerLit 1)
      (.infixExpr "*" (.integerLit 2) (.integerLit 3)))]).1
    (.integer 7) rfl rfl⟩

end Monkey
